import Mathlib

/-!
# RxCpp flattening operators: `concat_map` and `merge`

A shallow embedding of `Rx/v2/src/rxcpp/operators/rx-concat_map.hpp` and
`Rx/v2/src/rxcpp/operators/rx-merge.hpp`.

Every handler (lambda) of the two operators is a function on the operator's
shared state.  A run of a pipeline is the list of signals that the outer
source and the inner streams send, one after the other (the coordination
serialises them), folded over the handlers.

The subscriber and the composite subscription are declared in headers that
are not part of the two files; they are modelled from the specification and
marked as such.
-/

namespace rxcpp

/-- The payload of a fault, `std::exception_ptr`. -/
abbrev exception_ptr := Nat

/-- What the output observer can be handed. -/
inductive notification (R : Type) where
  | on_next (v : R)
  | on_error (e : exception_ptr)
  | on_completed
  deriving DecidableEq, Repr

/-- Modelled from the spec: `composite_subscription` (rx-subscription.hpp), a
cancellable handle.  A handle is the identity of its shared node; `none` is
`composite_subscription::empty()`, the handle that is never subscribed. -/
abbrev composite_subscription := Option Nat

/-- Modelled from the spec: the output subscriber `state->out`
(rx-subscriber.hpp) together with the cancellation tree rooted at its
lifetime (rx-subscription.hpp).

* `fresh`: the identity the next `composite_subscription()` receives;
* `live`: the handles for which `is_subscribed()` holds;
* `subscribed`: `out.is_subscribed()`;
* `tokens`: the identity of the token the next `out.add` returns;
* `registered`: the registrations made with `out.add` and not removed since,
  each with the token `out.add` returned and the handle it registered;
* `cleanup`: the cleanup actions the handles carry, each with its handle and the
  token `innercstoken` that its closure `out.remove(innercstoken)` captured;
* `delivered`: the calls that reached the output observer, oldest first. -/
structure output_type (R : Type) where
  fresh : Nat
  live : List Nat
  subscribed : Bool
  tokens : Nat
  registered : List (Nat × Nat)
  cleanup : List (Nat × Nat)
  delivered : List (notification R)

namespace output_type

variable {R : Type}

/-- The children of the output subscription: the handles of its registrations. -/
def children (o : output_type R) : List Nat := o.registered.map Prod.snd

/-- Modelled from the spec: the call `cs.is_subscribed()`. -/
def is_subscribed (o : output_type R) : composite_subscription → Bool
  | none => false
  | some h => decide (h ∈ o.live)

/-- Modelled from the spec: the constructor `composite_subscription()`, a new,
subscribed handle. -/
def create (o : output_type R) : Nat × output_type R :=
  (o.fresh, { o with fresh := o.fresh + 1, live := o.live ++ [o.fresh] })

/-- Modelled from the spec: the call `out.remove(token)`, which detaches the
registration that has this token without running it. -/
def remove (o : output_type R) (token : Nat) : output_type R :=
  { o with registered := o.registered.filter (fun p => p.1 ≠ token) }

/-- Modelled from the spec: the call `cs.unsubscribe()` on a handle. It is
idempotent; the first call runs the cleanup actions of the handle, each the call
`out.remove` on the token it captured, and discards them. -/
def unsubscribe_handle (o : output_type R) : composite_subscription → output_type R
  | none => o
  | some h =>
    if h ∈ o.live then
      let o1 := { o with live := o.live.filter (fun c => c ≠ h)
                         cleanup := o.cleanup.filter (fun a => a.1 ≠ h) }
      (o.cleanup.filter (fun a => a.1 = h)).foldl (fun o2 a => o2.remove a.2) o1
    else o

/-- Modelled from the spec: the call `out.add(cs)`, which returns a token. It
registers the handle as a child under that token; when `out` is already
unsubscribed the handle is unsubscribed at once instead. -/
def add (o : output_type R) (cs : composite_subscription) : Nat × output_type R :=
  let o1 := { o with tokens := o.tokens + 1 }
  if o.subscribed then
    match cs with
    | none => (o.tokens, o1)
    | some h =>
      if h ∈ o.live then
        (o.tokens, { o1 with registered := o1.registered ++ [(o.tokens, h)] })
      else (o.tokens, o1)
  else (o.tokens, o1.unsubscribe_handle cs)

/-- Modelled from the spec: the call `cs.add(make_subscription([state,
innercstoken]() { state->out.remove(innercstoken); }))` on the handle `h`, with
the token the closure captures. The action is kept until `cs` is unsubscribed;
when `cs` is already unsubscribed it runs at once. -/
def add_cleanup (o : output_type R) (h : Nat) (innercstoken : Nat) : output_type R :=
  if h ∈ o.live then { o with cleanup := o.cleanup ++ [(h, innercstoken)] }
  else o.remove innercstoken

/-- Modelled from the spec: the call `out.unsubscribe()`. One cascade: the
registered children are taken out of the node and each is unsubscribed. -/
def unsubscribe (o : output_type R) : output_type R :=
  if o.subscribed then
    { o with
      subscribed := false
      live := o.live.filter (fun c => c ∉ o.children)
      cleanup := o.cleanup.filter (fun a => a.1 ∉ o.children)
      registered := [] }
  else o

/-- Modelled from the spec: the call `out.on_next(v)`, dropped once `out` is
unsubscribed. -/
def on_next (o : output_type R) (v : R) : output_type R :=
  if o.subscribed then { o with delivered := o.delivered ++ [notification.on_next v] } else o

/-- Modelled from the spec: the call `out.on_error(e)`, dropped once `out` is
unsubscribed; otherwise the observer is called and `out` is unsubscribed. -/
def on_error (o : output_type R) (e : exception_ptr) : output_type R :=
  if o.subscribed then
    ({ o with delivered := o.delivered ++ [notification.on_error e] }).unsubscribe
  else o

/-- Modelled from the spec: the call `out.on_completed()`, dropped once `out` is
unsubscribed; otherwise the observer is called and `out` is unsubscribed. -/
def on_completed (o : output_type R) : output_type R :=
  if o.subscribed then
    ({ o with delivered := o.delivered ++ [notification.on_completed] }).unsubscribe
  else o

/-- Modelled from the spec: the subscriber handed to `on_subscribe`, subscribed
and with nothing delivered yet. -/
def start : output_type R :=
  { fresh := 0, live := [], subscribed := true, tokens := 0, registered := [], cleanup := [],
    delivered := [] }

end output_type

/-- Modelled from the spec: `on_exception(f, out)` (rx-util.hpp), the guarded
invocation of a user function: a fault becomes `out.on_error` and an empty
result. -/
def on_exception {α R : Type} (f : Except exception_ptr α) (o : output_type R) :
    Option α × output_type R :=
  match f with
  | .ok v => (some v, o)
  | .error e => (none, o.on_error e)

/-- The value a notification carries. -/
def notification.value {R : Type} : notification R → Option R
  | .on_next v => some v
  | _ => none

/-- The values of a notification list, in order. -/
def values_of_output {R : Type} (l : List (notification R)) : List R :=
  l.filterMap notification.value

/-- Whether a notification is terminal. -/
def notification.terminal {R : Type} : notification R → Bool
  | .on_next _ => false
  | _ => true

/-- A list of notifications obeys the observer contract: nothing follows a
terminal notification. -/
def terminal_last {R : Type} : List (notification R) → Bool
  | [] => true
  | [_] => true
  | n :: m :: l => !n.terminal && terminal_last (m :: l)

/-! ## concat_map -/

namespace concat_map

/-- The signals a `concat_map` pipeline can be sent: by the outer source, by an
inner stream (named by the lifetime `h` it was subscribed with), or the
consumer unsubscribing the output subscription. -/
inductive signal (T U : Type) where
  | outer_next (st : T)
  | outer_error (e : exception_ptr)
  | outer_completed
  | inner_next (h : Nat) (ct : U)
  | inner_error (h : Nat) (e : exception_ptr)
  | inner_completed (h : Nat)
  | unsubscribe
  deriving DecidableEq, Repr

/-- The struct `concat_map::values`.  A selector returns `.error e` when it
throws.  `coordinator` is `state->coordinator(observable)` for an inner
observable and `source` is `state->coordinator(state->source)`. -/
structure values (T Obs U R : Type) where
  source : Except exception_ptr Unit
  selectCollection : T → Except exception_ptr Obs
  selectResult : T → U → Except exception_ptr R
  coordinator : Obs → Except exception_ptr Obs

/-- The struct `concat_map_state_type`, without the inherited `values`.  The
last three fields are history kept for the statements: the inner subscribers
made by `selectedSource->subscribe` (lifetime, captured `st`, observable), the
arguments `selectCollection` was called with, and those of `selectResult`. -/
structure concat_map_state_type (T Obs U R : Type) where
  sourceLifetime : composite_subscription
  collectionLifetime : composite_subscription
  selectedCollections : List T
  out : output_type R
  subscribers : List (Nat × T × Obs)
  collectionCalls : List T
  resultCalls : List (T × U)

variable {T Obs U R : Type}

/-- The member function `concat_map_state_type::subscribe_to`. -/
def subscribe_to (i : values T Obs U R) (s : concat_map_state_type T Obs U R) (st : T) :
    concat_map_state_type T Obs U R :=
  let s := { s with collectionCalls := s.collectionCalls ++ [st] }
  match on_exception (i.selectCollection st) s.out with
  | (none, o) => { s with out := o }
  | (some selectedCollection, o) =>
    let (h, o) := o.create
    let (innercstoken, o) := o.add (some h)
    let o := o.add_cleanup h innercstoken
    let s := { s with collectionLifetime := some h, out := o }
    match on_exception (i.coordinator selectedCollection) s.out with
    | (none, o) => { s with out := o }
    | (some selectedSource, o) =>
      { s with out := o, subscribers := s.subscribers ++ [(h, st, selectedSource)] }

/-- The inner `on_next` lambda; `st` is the outer item it captured. -/
def inner_on_next (i : values T Obs U R) (s : concat_map_state_type T Obs U R) (st : T)
    (ct : U) : concat_map_state_type T Obs U R :=
  let s := { s with resultCalls := s.resultCalls ++ [(st, ct)] }
  match on_exception (i.selectResult st ct) s.out with
  | (none, o) => { s with out := o }
  | (some selectedResult, o) => { s with out := o.on_next selectedResult }

/-- The inner `on_error` lambda. -/
def inner_on_error (s : concat_map_state_type T Obs U R) (e : exception_ptr) :
    concat_map_state_type T Obs U R :=
  { s with out := s.out.on_error e }

/-- The inner `on_completed` lambda. -/
def inner_on_completed (i : values T Obs U R) (s : concat_map_state_type T Obs U R) :
    concat_map_state_type T Obs U R :=
  match s.selectedCollections with
  | value :: rest =>
    let s := { s with selectedCollections := rest }
    let s := { s with out := s.out.unsubscribe_handle s.collectionLifetime }
    subscribe_to i s value
  | [] =>
    if !s.out.is_subscribed s.sourceLifetime then { s with out := s.out.on_completed } else s

/-- The outer `on_next` lambda. -/
def outer_on_next (i : values T Obs U R) (s : concat_map_state_type T Obs U R) (st : T) :
    concat_map_state_type T Obs U R :=
  if s.out.is_subscribed s.collectionLifetime then
    { s with selectedCollections := s.selectedCollections ++ [st] }
  else if s.selectedCollections.isEmpty then
    subscribe_to i s st
  else s

/-- The outer `on_error` lambda. -/
def outer_on_error (s : concat_map_state_type T Obs U R) (e : exception_ptr) :
    concat_map_state_type T Obs U R :=
  { s with out := s.out.on_error e }

/-- The outer `on_completed` lambda. -/
def outer_on_completed (s : concat_map_state_type T Obs U R) :
    concat_map_state_type T Obs U R :=
  if !s.out.is_subscribed s.collectionLifetime && s.selectedCollections.isEmpty then
    { s with out := s.out.on_completed }
  else s

/-- The function `concat_map::on_subscribe` up to the return of
`source->subscribe`, for a subscriber `scbr` that is subscribed and has been
coordinated. -/
def on_subscribe (i : values T Obs U R) : concat_map_state_type T Obs U R :=
  let (h, o) := (output_type.start : output_type R).create
  let o := (o.add (some h)).2
  let s : concat_map_state_type T Obs U R :=
    { sourceLifetime := some h, collectionLifetime := none, selectedCollections := [],
      out := o, subscribers := [], collectionCalls := [], resultCalls := [] }
  match on_exception i.source s.out with
  | (none, o) => { s with out := o }
  | (some _, o) => { s with out := o }

/-- The outer item captured by the inner subscriber whose lifetime is `h`. -/
def captured (s : concat_map_state_type T Obs U R) (h : Nat) : Option T :=
  (s.subscribers.find? (fun p => p.1 == h)).map (fun p => p.2.1)

/-- Modelled from the spec: the subscribers made by `subscribe(out, lifetime,
on_next, on_error, on_completed)` (rx-subscriber.hpp): a signal is handed to
the lambda only while the lifetime of its subscriber is subscribed, and after
a terminal lambda returns the lifetime is unsubscribed.  `unsubscribe` is the
consumer calling `unsubscribe()` on the output subscription. -/
def deliver (i : values T Obs U R) (s : concat_map_state_type T Obs U R) :
    signal T U → concat_map_state_type T Obs U R
  | .outer_next st =>
    if s.out.is_subscribed s.sourceLifetime then outer_on_next i s st else s
  | .outer_error e =>
    if s.out.is_subscribed s.sourceLifetime then
      let s1 := outer_on_error s e
      { s1 with out := s1.out.unsubscribe_handle s.sourceLifetime }
    else s
  | .outer_completed =>
    if s.out.is_subscribed s.sourceLifetime then
      let s1 := outer_on_completed s
      { s1 with out := s1.out.unsubscribe_handle s.sourceLifetime }
    else s
  | .inner_next h ct =>
    match captured s h with
    | some st => if s.out.is_subscribed (some h) then inner_on_next i s st ct else s
    | none => s
  | .inner_error h e =>
    match captured s h with
    | some _ =>
      if s.out.is_subscribed (some h) then
        let s1 := inner_on_error s e
        { s1 with out := s1.out.unsubscribe_handle (some h) }
      else s
    | none => s
  | .inner_completed h =>
    match captured s h with
    | some _ =>
      if s.out.is_subscribed (some h) then
        let s1 := inner_on_completed i s
        { s1 with out := s1.out.unsubscribe_handle (some h) }
      else s
    | none => s
  | .unsubscribe => { s with out := s.out.unsubscribe }

/-- The state of a pipeline after the signals `tr`, oldest first. -/
def run (i : values T Obs U R) (tr : List (signal T U)) : concat_map_state_type T Obs U R :=
  tr.foldl (deliver i) (on_subscribe i)

/-- Modelled from the spec: whether a signal is accepted in a state, that is,
addressed to a subscriber whose lifetime is subscribed (an observable calls no
other observer). -/
def accepted (s : concat_map_state_type T Obs U R) : signal T U → Bool
  | .outer_next _ => s.out.is_subscribed s.sourceLifetime
  | .outer_error _ => s.out.is_subscribed s.sourceLifetime
  | .outer_completed => s.out.is_subscribed s.sourceLifetime
  | .inner_next h _ => (captured s h).isSome && s.out.is_subscribed (some h)
  | .inner_error h _ => (captured s h).isSome && s.out.is_subscribed (some h)
  | .inner_completed h => (captured s h).isSome && s.out.is_subscribed (some h)
  | .unsubscribe => true

/-- Every signal of `tr` is accepted when it is sent, starting in state `s`. -/
def accepted_from (i : values T Obs U R) (s : concat_map_state_type T Obs U R) :
    List (signal T U) → Bool
  | [] => true
  | ev :: tr => accepted s ev && accepted_from i (deliver i s ev) tr

/-- Modelled from the spec: a run in which every source keeps the observable
contract: each signal is sent to a subscriber whose lifetime is subscribed. -/
def accepted_run (i : values T Obs U R) (tr : List (signal T U)) : Bool :=
  accepted_from i (on_subscribe i) tr

/-- A signal that is neither an error nor the consumer unsubscribing. -/
def signal.benign : signal T U → Bool
  | .outer_error _ => false
  | .inner_error _ _ => false
  | .unsubscribe => false
  | _ => true

/-- The outer item a signal carries. -/
def signal.item : signal T U → Option T
  | .outer_next st => some st
  | _ => none

/-- The items the outer source sent, in arrival order. -/
def outer_items (tr : List (signal T U)) : List T := tr.filterMap signal.item

/-- The value a signal of the inner stream named `h` carries. -/
def signal.value (h : Nat) : signal T U → Option U
  | .inner_next h1 ct => if h1 = h then some ct else none
  | _ => none

/-- The values the inner stream named `h` sent, in order. -/
def inner_values (h : Nat) (tr : List (signal T U)) : List U := tr.filterMap (signal.value h)

/-- The notifications that result from the inner streams named in `names`, one
after the other: for each `(h, x)`, in the order of the list, `rs x v` for each
value `v` that the inner stream named `h` sent, in the order it sent them. -/
def expected (rs : T → U → R) (names : List (Nat × T)) (tr : List (signal T U)) :
    List (notification R) :=
  names.flatMap (fun p => (inner_values p.1 tr).map (fun v => notification.on_next (rs p.2 v)))

end concat_map

/-! ## merge -/

/-- The value a C++ `int` holds after an arithmetic result `x`: 32 bits, two's
complement, so a result outside `[-2^31, 2^31)` wraps around. -/
def int32 (x : Int) : Int := (x + 2147483648) % 4294967296 - 2147483648

namespace merge

/-- The signals a `merge` pipeline can be sent: by the outer source (whose
items are observables), by an inner stream (named by the lifetime `h` it was
subscribed with), or the consumer unsubscribing the output subscription. -/
inductive signal (Obs R : Type) where
  | outer_next (st : Obs)
  | outer_error (e : exception_ptr)
  | outer_completed
  | inner_next (h : Nat) (ct : R)
  | inner_error (h : Nat) (e : exception_ptr)
  | inner_completed (h : Nat)
  | unsubscribe
  deriving DecidableEq, Repr

/-- The struct `merge::values`.  `coordinator` is `state->coordinator(st)` for
an inner observable and `source` is `state->coordinator(state->source)`; each
returns `.error e` when it throws. -/
structure values (Obs : Type) where
  source : Except exception_ptr Unit
  coordinator : Obs → Except exception_ptr Obs

/-- The struct `merge_state_type`, without the inherited `values`, and the
local `outercs` that the outer subscriber holds.  `pendingCompletions` is an
`int`: its value is kept as an integer and every `++` and `--` goes through
`int32`.  The last field is history kept for the statements: the inner
subscribers made by `selectedSource->subscribe` (lifetime, observable). -/
structure merge_state_type (Obs R : Type) where
  pendingCompletions : Int
  out : output_type R
  outercs : composite_subscription
  subscribers : List (Nat × Obs)

variable {Obs R : Type}

/-- The inner `on_next` lambda. -/
def inner_on_next (s : merge_state_type Obs R) (ct : R) : merge_state_type Obs R :=
  { s with out := s.out.on_next ct }

/-- The inner `on_error` lambda. -/
def inner_on_error (s : merge_state_type Obs R) (e : exception_ptr) : merge_state_type Obs R :=
  { s with out := s.out.on_error e }

/-- The inner `on_completed` lambda. -/
def inner_on_completed (s : merge_state_type Obs R) : merge_state_type Obs R :=
  let s := { s with pendingCompletions := int32 (s.pendingCompletions - 1) }
  if s.pendingCompletions == 0 then { s with out := s.out.on_completed } else s

/-- Whether an inner subscriber with lifetime `h` was made. -/
def is_inner (s : merge_state_type Obs R) (h : Nat) : Bool :=
  s.subscribers.any (fun p => p.1 == h)

/-- Modelled from the spec: what the subscriber of an inner stream does with a
signal of that stream (rx-subscriber.hpp): it is handed to the inner lambda only
while the lifetime of the subscriber is subscribed, and after a terminal lambda
returns the lifetime is unsubscribed. -/
def deliver_inner (s : merge_state_type Obs R) : signal Obs R → merge_state_type Obs R
  | .inner_next h ct =>
    if is_inner s h && s.out.is_subscribed (some h) then inner_on_next s ct else s
  | .inner_error h e =>
    if is_inner s h && s.out.is_subscribed (some h) then
      let s1 := inner_on_error s e
      { s1 with out := s1.out.unsubscribe_handle (some h) }
    else s
  | .inner_completed h =>
    if is_inner s h && s.out.is_subscribed (some h) then
      let s1 := inner_on_completed s
      { s1 with out := s1.out.unsubscribe_handle (some h) }
    else s
  | _ => s

/-- The outer `on_next` lambda.  Its last statement is the call
`selectedSource->subscribe(...)`; an observable may call its subscriber before
that call returns, and `sync` are the signals the inner stream sends in this
way (modelled from the spec). -/
def outer_on_next_sync (i : values Obs) (s : merge_state_type Obs R) (st : Obs)
    (sync : List (signal Obs R)) : merge_state_type Obs R :=
  let (h, o) := s.out.create
  let (innercstoken, o) := o.add (some h)
  let o := o.add_cleanup h innercstoken
  let s := { s with out := o }
  match on_exception (i.coordinator st) s.out with
  | (none, o) => { s with out := o }
  | (some selectedSource, o) =>
    let s := { s with out := o, pendingCompletions := int32 (s.pendingCompletions + 1) }
    sync.foldl deliver_inner { s with subscribers := s.subscribers ++ [(h, selectedSource)] }

/-- The outer `on_next` lambda when the inner stream sends nothing before
`selectedSource->subscribe(...)` returns. -/
def outer_on_next (i : values Obs) (s : merge_state_type Obs R) (st : Obs) :
    merge_state_type Obs R :=
  outer_on_next_sync i s st []

/-- The outer `on_error` lambda. -/
def outer_on_error (s : merge_state_type Obs R) (e : exception_ptr) : merge_state_type Obs R :=
  { s with out := s.out.on_error e }

/-- The outer `on_completed` lambda. -/
def outer_on_completed (s : merge_state_type Obs R) : merge_state_type Obs R :=
  let s := { s with pendingCompletions := int32 (s.pendingCompletions - 1) }
  if s.pendingCompletions == 0 then { s with out := s.out.on_completed } else s

/-- The function `merge::on_subscribe` up to the return of `source->subscribe`,
for a subscriber `scbr` that is subscribed and has been coordinated. -/
def on_subscribe (i : values Obs) : merge_state_type Obs R :=
  let (h, o) := (output_type.start : output_type R).create
  let o := (o.add (some h)).2
  let s : merge_state_type Obs R :=
    { pendingCompletions := 0, out := o, outercs := some h, subscribers := [] }
  match on_exception i.source s.out with
  | (none, o) => { s with out := o }
  | (some _, o) => { s with out := o, pendingCompletions := int32 (s.pendingCompletions + 1) }

/-- Modelled from the spec: the subscribers made by `subscribe(out, lifetime,
on_next, on_error, on_completed)` (rx-subscriber.hpp): a signal is handed to
the lambda only while the lifetime of its subscriber is subscribed, and after
a terminal lambda returns the lifetime is unsubscribed.  `unsubscribe` is the
consumer calling `unsubscribe()` on the output subscription. -/
def deliver (i : values Obs) (s : merge_state_type Obs R) :
    signal Obs R → merge_state_type Obs R
  | .outer_next st =>
    if s.out.is_subscribed s.outercs then outer_on_next i s st else s
  | .outer_error e =>
    if s.out.is_subscribed s.outercs then
      let s1 := outer_on_error s e
      { s1 with out := s1.out.unsubscribe_handle s.outercs }
    else s
  | .outer_completed =>
    if s.out.is_subscribed s.outercs then
      let s1 := outer_on_completed s
      { s1 with out := s1.out.unsubscribe_handle s.outercs }
    else s
  | .inner_next h ct =>
    if is_inner s h && s.out.is_subscribed (some h) then inner_on_next s ct else s
  | .inner_error h e =>
    if is_inner s h && s.out.is_subscribed (some h) then
      let s1 := inner_on_error s e
      { s1 with out := s1.out.unsubscribe_handle (some h) }
    else s
  | .inner_completed h =>
    if is_inner s h && s.out.is_subscribed (some h) then
      let s1 := inner_on_completed s
      { s1 with out := s1.out.unsubscribe_handle (some h) }
    else s
  | .unsubscribe => { s with out := s.out.unsubscribe }

/-- The state of a pipeline after the signals `tr`, oldest first. -/
def run (i : values Obs) (tr : List (signal Obs R)) : merge_state_type Obs R :=
  tr.foldl (deliver i) (on_subscribe i)

/-- Modelled from the spec: whether a signal is accepted in a state, that is,
addressed to a subscriber whose lifetime is subscribed (an observable calls no
other observer). -/
def accepted (s : merge_state_type Obs R) : signal Obs R → Bool
  | .outer_next _ => s.out.is_subscribed s.outercs
  | .outer_error _ => s.out.is_subscribed s.outercs
  | .outer_completed => s.out.is_subscribed s.outercs
  | .inner_next h _ => is_inner s h && s.out.is_subscribed (some h)
  | .inner_error h _ => is_inner s h && s.out.is_subscribed (some h)
  | .inner_completed h => is_inner s h && s.out.is_subscribed (some h)
  | .unsubscribe => true

/-- Every signal of `tr` is accepted when it is sent, starting in state `s`. -/
def accepted_from (i : values Obs) (s : merge_state_type Obs R) : List (signal Obs R) → Bool
  | [] => true
  | ev :: tr => accepted s ev && accepted_from i (deliver i s ev) tr

/-- Modelled from the spec: a run in which every source keeps the observable
contract: each signal is sent to a subscriber whose lifetime is subscribed. -/
def accepted_run (i : values Obs) (tr : List (signal Obs R)) : Bool :=
  accepted_from i (on_subscribe i) tr

/-- A signal that is neither an error nor the consumer unsubscribing. -/
def signal.benign : signal Obs R → Bool
  | .outer_error _ => false
  | .inner_error _ _ => false
  | .unsubscribe => false
  | _ => true

/-- The value a signal carries. -/
def signal.value : signal Obs R → Option R
  | .inner_next _ ct => some ct
  | _ => none

/-- The value a signal of the inner stream named `h` carries. -/
def signal.value_of (h : Nat) : signal Obs R → Option R
  | .inner_next h1 ct => if h1 = h then some ct else none
  | _ => none

/-- The inner stream a value signal comes from. -/
def signal.stream : signal Obs R → Option Nat
  | .inner_next h _ => some h
  | _ => none

/-- The values the inner streams sent, in arrival order. -/
def all_values (tr : List (signal Obs R)) : List R := tr.filterMap signal.value

/-- The values the inner stream named `h` sent, in order. -/
def inner_values (h : Nat) (tr : List (signal Obs R)) : List R :=
  tr.filterMap (signal.value_of h)

/-- The inner streams that sent a value, each once. -/
def streams (tr : List (signal Obs R)) : List Nat := (tr.filterMap signal.stream).dedup

/-- In the signals `tr` the outer source has completed and so has every inner
stream that state `s` has subscribed to. -/
def all_completed (s : merge_state_type Obs R) (tr : List (signal Obs R)) : Prop :=
  signal.outer_completed ∈ tr ∧ ∀ p ∈ s.subscribers, signal.inner_completed p.1 ∈ tr

end merge

end rxcpp

/-! ## The factory of concat_map -/

namespace rxcpp

namespace concat_map

/-- The operator object `detail::concat_map<Observable, CollectionSelector,
ResultSelector, Coordination>`: its member `initial`, which the constructor
`concat_map(o, s, rs, sf)` fills with `source(o)`, `selectCollection(s)`,
`selectResult(rs)`, `coordination(sf)`.  The selectors are kept as the function
objects they are. -/
structure concat_map_operator (Src CS RS Co : Type) where
  source : Src
  selectCollection : CS
  selectResult : RS
  coordination : Co

/-- The class `detail::concat_map_factory`. -/
structure concat_map_factory (CS RS Co : Type) where
  selectorCollection : CS
  selectorResult : RS
  coordination : Co

/-- The constructor `concat_map_factory(collection_selector_type s,
result_selector_type rs, coordination_type sf)`.  Its member initialisers are
`selectorCollection(std::move(rs))`, `selectorResult(std::move(s))`,
`coordination(std::move(sf))`; they compile where each selector type converts
into the other, and here the two are one type `F` of function objects. -/
def concat_map_factory.create {F Co : Type} (s rs : F) (sf : Co) : concat_map_factory F F Co :=
  { selectorCollection := rs, selectorResult := s, coordination := sf }

/-- The call `concat_map_factory::operator()(source)`: the operator
`concat_map(source, selectorCollection, selectorResult, coordination)`. -/
def concat_map_factory.apply {Src CS RS Co : Type} (f : concat_map_factory CS RS Co)
    (source : Src) : concat_map_operator Src CS RS Co :=
  { source := source, selectCollection := f.selectorCollection,
    selectResult := f.selectorResult, coordination := f.coordination }

end concat_map

/-- The free function `concat_map(s, rs, sf)`, which returns
`detail::concat_map_factory(s, rs, sf)`. -/
def concat_map {F Co : Type} (s rs : F) (sf : Co) : concat_map.concat_map_factory F F Co :=
  concat_map.concat_map_factory.create s rs sf

end rxcpp

/-! ## Predicates used by the statements and proofs -/

namespace rxcpp

namespace output_type

variable {R : Type}

/-- The three calls that make a handle and hang it under `out`. -/
def new_child (o : output_type R) : output_type R :=
  let (h, o) := o.create
  let (innercstoken, o) := o.add (some h)
  o.add_cleanup h innercstoken

/-- What every reachable `out` satisfies. The last three say that tokens are not
reused and that the token a cleanup action captured registers no handle but its
own. -/
structure wf (o : output_type R) : Prop where
  dead : o.subscribed = false → o.live = []
  child : ∀ h ∈ o.live, h ∈ o.children
  bound : ∀ h ∈ o.live, h < o.fresh
  nodup : o.live.Nodup
  quiet : o.subscribed = true → ∀ n ∈ o.delivered, n.terminal = false
  last : terminal_last o.delivered = true
  issued : ∀ p ∈ o.registered, p.1 < o.tokens
  held : ∀ a ∈ o.cleanup, a.2 < o.tokens
  own : ∀ a ∈ o.cleanup, ∀ p ∈ o.registered, p.1 = a.2 → p.2 = a.1

end output_type

namespace concat_map

variable {T Obs U R : Type}

/-- What every reachable state of a `concat_map` pipeline satisfies, apart from
`busy` below. -/
structure core (s : concat_map_state_type T Obs U R) : Prop where
  out_wf : s.out.wf
  source : s.sourceLifetime = some 0
  fresh_pos : 0 < s.out.fresh
  single : ∀ h ∈ s.out.live, h = 0 ∨ s.collectionLifetime = some h
  coll : s.collectionLifetime ≠ some 0
  subs : ∀ p ∈ s.subscribers, 0 < p.1 ∧ p.1 < s.out.fresh
  newest : ∀ h, s.collectionLifetime = some h → h ∈ s.out.live →
    ∃ pre st c, s.subscribers = pre ++ [(h, st, c)]
  calls : s.collectionCalls = s.subscribers.map (fun p => p.2.1) ∨
    (s.out.subscribed = false ∧
      ∃ x, s.collectionCalls = s.subscribers.map (fun p => p.2.1) ++ [x])

/-- While the outer source is subscribed, a non-empty queue has an inner
stream in front of it. -/
def busy (s : concat_map_state_type T Obs U R) : Prop :=
  0 ∈ s.out.live → s.selectedCollections ≠ [] →
    s.out.is_subscribed s.collectionLifetime = true

/-- The invariant of a `concat_map` pipeline. -/
def inv (s : concat_map_state_type T Obs U R) : Prop := core s ∧ busy s

/-- What a run without a fault keeps true while the output is subscribed: the
inner subscribers are named `1, 2, ...` in the order they were made, the output
is what their streams sent so far, and the subscribed handles are those of the
sources that have not completed. -/
structure traced (i : values T Obs U R) (rs : T → U → R) (tr : List (signal T U))
    (s : concat_map_state_type T Obs U R) : Prop where
  sub : s.out.subscribed = true
  names : s.subscribers.map (fun p => (p.1, p.2.1)) =
    List.enumFrom 1 (s.subscribers.map (fun p => p.2.1))
  sound : ∀ p ∈ s.subscribers, ∃ c, i.selectCollection p.2.1 = .ok c
  fresh : s.out.fresh = s.subscribers.length + 1
  output : s.out.delivered = expected rs (s.subscribers.map (fun p => (p.1, p.2.1))) tr
  outer : 0 ∈ s.out.live ↔ signal.outer_completed ∉ tr
  inner : ∀ p ∈ s.subscribers, p.1 ∈ s.out.live ↔ signal.inner_completed p.1 ∉ tr
  later : ∀ h, s.out.fresh ≤ h → inner_values h tr = [] ∧ signal.inner_completed h ∉ tr
  sorted : s.subscribers.Pairwise (fun p q => p.1 < q.1)
  calls : s.collectionCalls = s.subscribers.map (fun p => p.2.1)

/-- A run without a fault that has not terminated. -/
structure tracking (i : values T Obs U R) (rs : T → U → R) (tr : List (signal T U))
    (s : concat_map_state_type T Obs U R) : Prop where
  traced : traced i rs tr s
  items : s.subscribers.map (fun p => p.2.1) ++ s.selectedCollections = outer_items tr
  awake : s.out.live ≠ []

/-- A run without a fault that has completed. -/
structure finished (i : values T Obs U R) (rs : T → U → R) (tr : List (signal T U))
    (s : concat_map_state_type T Obs U R) : Prop where
  sub : s.out.subscribed = false
  names : s.subscribers.map (fun p => (p.1, p.2.1)) =
    List.enumFrom 1 (s.subscribers.map (fun p => p.2.1))
  sound : ∀ p ∈ s.subscribers, ∃ c, i.selectCollection p.2.1 = .ok c
  output : s.out.delivered =
    expected rs (s.subscribers.map (fun p => (p.1, p.2.1))) tr ++ [.on_completed]
  items : s.subscribers.map (fun p => p.2.1) = outer_items tr
  calls : s.collectionCalls = s.subscribers.map (fun p => p.2.1)

/-- A run that has ended with the fault `e` of `selectCollection` on `x`. -/
structure failed (i : values T Obs U R) (rs : T → U → R) (tr : List (signal T U))
    (s : concat_map_state_type T Obs U R) (x : T) (e : exception_ptr) : Prop where
  sub : s.out.subscribed = false
  names : s.subscribers.map (fun p => (p.1, p.2.1)) =
    List.enumFrom 1 (s.subscribers.map (fun p => p.2.1))
  sound : ∀ p ∈ s.subscribers, ∃ c, i.selectCollection p.2.1 = .ok c
  output : s.out.delivered =
    expected rs (s.subscribers.map (fun p => (p.1, p.2.1))) tr ++ [.on_error e]
  calls : s.collectionCalls = s.subscribers.map (fun p => p.2.1) ++ [x]
  fault : i.selectCollection x = .error e

end concat_map

namespace merge

variable {Obs R : Type}

/-- What every reachable state of a `merge` pipeline satisfies. -/
structure inv (s : merge_state_type Obs R) : Prop where
  out_wf : s.out.wf
  outer : s.outercs = some 0
  fresh_pos : 0 < s.out.fresh
  subs : ∀ p ∈ s.subscribers, 0 < p.1 ∧ p.1 < s.out.fresh
  inner : ∀ h ∈ s.out.live, h = 0 ∨ is_inner s h = true
  range : -2147483648 ≤ s.pendingCompletions ∧ s.pendingCompletions < 2147483648
  counter : s.out.subscribed = true → s.pendingCompletions = int32 s.out.live.length

/-- While the output is subscribed, the subscribed handles are those of the
sources that have not completed in `tr`. -/
structure alive (tr : List (signal Obs R)) (s : merge_state_type Obs R) : Prop where
  outer : 0 ∈ s.out.live ↔ signal.outer_completed ∉ tr
  inner : ∀ p ∈ s.subscribers, p.1 ∈ s.out.live ↔ signal.inner_completed p.1 ∉ tr
  later : ∀ h, s.out.fresh ≤ h → signal.inner_completed h ∉ tr

end merge

end rxcpp

/-! ## The children of the output subscription -/

namespace rxcpp

namespace output_type

variable {R : Type}

/-- One call on `out` or on a handle of its tree, as the handlers of the two
operators make them. -/
inductive call : output_type R → output_type R → Prop
  | on_next (o : output_type R) (v : R) : call o (o.on_next v)
  | on_error (o : output_type R) (e : exception_ptr) : call o (o.on_error e)
  | on_completed (o : output_type R) : call o o.on_completed
  | unsubscribe (o : output_type R) : call o o.unsubscribe
  | unsubscribe_handle (o : output_type R) (cs : composite_subscription) :
      call o (o.unsubscribe_handle cs)
  | new_child (o : output_type R) : call o o.new_child

/-- A sequence of calls on `out` and on the handles of its tree. -/
def calls (o o1 : output_type R) : Prop := Relation.ReflTransGen call o o1

/-- What every reachable `out` satisfies about its registered children: the
outer handle `0` stays registered while `out` is subscribed, every other child
is a subscribed handle, the handles that carry a cleanup action
`out.remove(innercstoken)` are the subscribed handles other than the outer
one, each carries one, and the token it captured is the token of the
registration of that very handle; no handle and no token is registered
twice. -/
structure tree (o : output_type R) : Prop where
  pos : 0 < o.fresh
  root : o.subscribed = true → 0 ∈ o.children
  kids : ∀ h ∈ o.children, h = 0 ∨ h ∈ o.live
  clean : ∀ h, h ∈ o.cleanup.map Prod.fst ↔ (h ∈ o.live ∧ h ≠ 0)
  distinct : o.children.Nodup
  unique : (o.registered.map Prod.fst).Nodup
  once : (o.cleanup.map Prod.fst).Nodup
  token : ∀ a ∈ o.cleanup, (a.2, a.1) ∈ o.registered

end output_type

end rxcpp

namespace rxcpp
namespace merge
variable {Obs R : Type}

/-- Whether the outer source has completed in the signals `tr`. -/
def outer_completed_in (tr : List (signal Obs R)) : Bool :=
  tr.any (fun ev => match ev with
    | .outer_completed => true
    | _ => false)

/-- Whether the inner stream named `h` has completed in the signals `tr`. -/
def inner_completed_in (h : Nat) (tr : List (signal Obs R)) : Bool :=
  tr.any (fun ev => match ev with
    | .inner_completed h1 => h1 == h
    | _ => false)

/-- The number of sources still to complete after the signals `tr`: one for the
outer source unless it has completed, plus the inner streams that state `s` has
subscribed to and that have not completed. -/
def pending_sources (s : merge_state_type Obs R) (tr : List (signal Obs R)) : Int :=
  (if outer_completed_in tr then 0 else 1) +
    ((s.subscribers.filter (fun p => !inner_completed_in p.1 tr)).length : Int)

/-- The inner observable a signal of the outer source carries. -/
def signal.item : signal Obs R → Option Obs
  | .outer_next st => some st
  | _ => none

/-- The inner observables the outer source emitted, in arrival order. -/
def outer_items (tr : List (signal Obs R)) : List Obs := tr.filterMap signal.item

/-- In the signals `tr` the outer source has completed and so has every inner
stream it emitted; the stream of the `k`-th outer item is named `k`. -/
def emitted_completed (tr : List (signal Obs R)) : Prop :=
  signal.outer_completed ∈ tr ∧
    ∀ k, 1 ≤ k → k ≤ (outer_items tr).length → signal.inner_completed k ∈ tr

end merge
end rxcpp

namespace rxcpp
namespace concat_map
variable {T U : Type}

/-- The arguments of the result selector that result from the inner streams named
in `names`, one after the other: for each `(h, x)`, in the order of the list, the
pair `(x, v)` for each value `v` that the inner stream named `h` sent, in the
order it sent them. -/
def pairs (names : List (Nat × T)) (tr : List (signal T U)) : List (T × U) :=
  names.flatMap (fun p => (inner_values p.1 tr).map (fun v => (p.2, v)))

end concat_map
end rxcpp

namespace rxcpp
namespace concat_map
variable {Obs R : Type}

/-- The `concat_map` values over the coordination of a `merge`, with the identity
as collection selector and `(t, u) -> u` as result selector. -/
def flatten (im : merge.values Obs) : values Obs Obs R R :=
  { source := im.source
    selectCollection := fun o => .ok o
    selectResult := fun _ u => .ok u
    coordinator := im.coordinator }

/-- The signal of a `merge` pipeline that a signal of a `concat_map` pipeline over
the same sources is. -/
def signal.to_merge : signal Obs R → merge.signal Obs R
  | .outer_next st => .outer_next st
  | .outer_error e => .outer_error e
  | .outer_completed => .outer_completed
  | .inner_next h ct => .inner_next h ct
  | .inner_error h e => .inner_error h e
  | .inner_completed h => .inner_completed h
  | .unsubscribe => .unsubscribe

/-- One step of `sequential`: the pair is (no outer item has arrived while an inner
stream was running, an inner stream is running). -/
def sequential_step (p : Bool × Bool) : signal Obs R → Bool × Bool
  | .outer_next _ => (p.1 && !p.2, true)
  | .inner_completed _ => (p.1, false)
  | _ => p

/-- Each inner stream completes before the next outer item arrives. -/
def sequential (tr : List (signal Obs R)) : Bool :=
  (tr.foldl sequential_step (true, false)).1

/-- The states of a `concat_map` and of a `merge` pipeline over the same sources
agree: same output and handles, same inner subscribers, nothing queued, and an
inner subscription is active only when `active` says so. -/
structure agrees (sc : concat_map_state_type Obs Obs R R) (sm : merge.merge_state_type Obs R)
    (active : Bool) : Prop where
  out : sm.out = sc.out
  outer : sm.outercs = sc.sourceLifetime
  subs : sm.subscribers = sc.subscribers.map (fun p => (p.1, p.2.2))
  queue : sc.selectedCollections = []
  idle : sc.out.is_subscribed sc.collectionLifetime = true → active = true

/-- Outer `[A, B]` with `A = [1, 2]` and `B = [3]`, one inner stream after the
other. -/
def example_sequential : List (signal (List Nat) Nat) :=
  [.outer_next [1, 2], .inner_next 1 1, .inner_next 1 2, .inner_completed 1,
   .outer_next [3], .outer_completed, .inner_next 2 3, .inner_completed 2]

end concat_map
end rxcpp

/-! ## Worked runs -/

namespace rxcpp

namespace concat_map

/-- The projection `f(x) = stream_of(x*10, x*10+1)` with the result selector
that keeps the inner value, on an immediate coordination. -/
def example_values : values Nat (List Nat) Nat Nat :=
  { source := .ok ()
    selectCollection := fun x => .ok [x * 10, x * 10 + 1]
    selectResult := fun _ v => .ok v
    coordinator := fun o => .ok o }

/-- Outer `[1, 2]`; item `2` arrives and the outer source completes while the
inner stream of `1` is still running. -/
def example_run : List (signal Nat Nat) :=
  [.outer_next 1, .outer_next 2, .inner_next 1 10, .outer_completed, .inner_next 1 11,
   .inner_completed 1, .inner_next 2 20, .inner_next 2 21, .inner_completed 2]

/-- The run `example_run` before its last signal, the completion of the inner
stream of `2`. -/
def example_open : List (signal Nat Nat) :=
  [.outer_next 1, .outer_next 2, .inner_next 1 10, .outer_completed, .inner_next 1 11,
   .inner_completed 1, .inner_next 2 20, .inner_next 2 21]

/-- Signals that arrive after the pipeline has terminated. -/
def example_late : List (signal Nat Nat) :=
  [.inner_next 2 22, .outer_next 3, .inner_error 2 5, .outer_completed, .unsubscribe]

/-- As `example_values`, but `selectCollection` throws `9` on the item `2`. -/
def example_faulty : values Nat (List Nat) Nat Nat :=
  { source := .ok ()
    selectCollection := fun x => if x = 2 then .error 9 else .ok [x * 10, x * 10 + 1]
    selectResult := fun _ v => .ok v
    coordinator := fun o => .ok o }

/-- Outer `[1, 2, 3]`; items `2` and `3` are queued while the inner stream of `1`
runs, and `2` is projected when that stream completes. -/
def example_fault_run : List (signal Nat Nat) :=
  [.outer_next 1, .outer_next 2, .outer_next 3, .inner_next 1 10, .inner_next 1 11,
   .inner_completed 1]

/-- As `example_values`, but `selectResult` throws `4` on the inner value `11`. -/
def example_result_faulty : values Nat (List Nat) Nat Nat :=
  { source := .ok ()
    selectCollection := fun x => .ok [x * 10, x * 10 + 1]
    selectResult := fun _ v => if v = 11 then .error 4 else .ok v
    coordinator := fun o => .ok o }

/-- Outer `[1, 2]` with `2` queued behind the inner stream of `1`. -/
def example_queued : List (signal Nat Nat) :=
  [.outer_next 1, .inner_next 1 10, .outer_next 2]

end concat_map

namespace merge

/-- An immediate coordination. -/
def example_values : values (List Nat) :=
  { source := .ok (), coordinator := fun o => .ok o }

/-- Inner `A = [1, 2]` completes last, inner `B = [3]` completes first. -/
def example_run : List (signal (List Nat) Nat) :=
  [.outer_next [1, 2], .inner_next 1 1, .outer_next [3], .outer_completed, .inner_next 2 3,
   .inner_completed 2, .inner_next 1 2, .inner_completed 1]

/-- The run `example_run` before its last signal, the completion of `A`. -/
def example_open : List (signal (List Nat) Nat) :=
  [.outer_next [1, 2], .inner_next 1 1, .outer_next [3], .outer_completed, .inner_next 2 3,
   .inner_completed 2, .inner_next 1 2]

/-- Signals that arrive after the pipeline has terminated. -/
def example_late : List (signal (List Nat) Nat) :=
  [.inner_next 1 4, .outer_next [5], .inner_error 2 5, .outer_completed]

/-- The outer source emits `n` inner streams, none of which sends a signal. -/
def example_flood (n : Nat) : List (signal (List Nat) Nat) :=
  List.replicate n (.outer_next [])

/-- Two inner streams are running and the outer source is subscribed. -/
def example_running : List (signal (List Nat) Nat) :=
  [.outer_next [1, 2], .inner_next 1 1, .outer_next [3]]

end merge

end rxcpp

/-! ## The subscriber and its cancellation tree -/

namespace rxcpp

theorem terminal_last_of_quiet {R : Type} (l : List (notification R))
    (h : ∀ n ∈ l, n.terminal = false) (x : notification R) :
    terminal_last (l ++ [x]) = true := by
  induction l with
  | nil => rfl
  | cons a l ih =>
    cases l with
    | nil => simp [terminal_last, h a (by simp)]
    | cons b l =>
      have := ih (fun n hn => h n (by simp at hn ⊢; tauto))
      simp only [List.cons_append] at this ⊢
      simp [terminal_last, h a (by simp), this]

theorem terminal_last_of_quiet_nil {R : Type} (l : List (notification R))
    (h : ∀ n ∈ l, n.terminal = false) : terminal_last l = true := by
  induction l with
  | nil => rfl
  | cons a l ih =>
    cases l with
    | nil => rfl
    | cons b l =>
      have := ih (fun n hn => h n (by simp at hn ⊢; tauto))
      simp [terminal_last, h a (by simp), this]

namespace output_type
variable {R : Type}

theorem mem_children {o : output_type R} {h : Nat} :
    h ∈ o.children ↔ ∃ t, (t, h) ∈ o.registered := by
  simp [children]

theorem foldl_remove (acts : List (Nat × Nat)) (o : output_type R) :
    acts.foldl (fun o2 a => o2.remove a.2) o =
      { o with registered := o.registered.filter (fun p => decide (∀ a ∈ acts, p.1 ≠ a.2)) } := by
  induction acts generalizing o with
  | nil => simp
  | cons a acts ih =>
    rw [List.foldl_cons, ih]
    simp only [remove, List.filter_filter]
    congr 1
    apply List.filter_congr
    intro p _
    simp only [List.mem_cons, forall_eq_or_imp, Bool.decide_and, ne_eq, decide_not]
    rw [Bool.and_comm]

theorem unsubscribe_handle_live {o : output_type R} {h : Nat} (hl : h ∈ o.live) :
    o.unsubscribe_handle (some h) =
      { o with live := o.live.filter (fun c => c ≠ h),
               cleanup := o.cleanup.filter (fun a => a.1 ≠ h),
               registered := o.registered.filter
                 (fun p => decide (∀ a ∈ o.cleanup, a.1 = h → p.1 ≠ a.2)) } := by
  simp only [unsubscribe_handle, hl, if_true, foldl_remove]
  congr 1
  apply List.filter_congr
  intro p _
  simp [List.mem_filter]

theorem unsubscribe_handle_not_live {o : output_type R} {h : Nat} (hl : h ∉ o.live) :
    o.unsubscribe_handle (some h) = o := by
  simp [unsubscribe_handle, hl]

theorem wf_unsubscribe {o : output_type R} (w : o.wf) : o.unsubscribe.wf := by
  unfold unsubscribe
  split
  · refine ⟨?_, ?_, ?_, ?_, ?_, ?_, ?_, ?_, ?_⟩
    · intro _
      simp only [List.filter_eq_nil_iff]
      intro h hh
      simpa using w.child h hh
    · intro h hh
      simp only [List.mem_filter] at hh
      have := w.child h hh.1
      simp [this] at hh
    · intro h hh
      simp only [List.mem_filter] at hh
      exact w.bound h hh.1
    · exact w.nodup.filter _
    · intro h; simp at h
    · exact w.last
    · intro p hp; simp at hp
    · intro a ha
      simp only [List.mem_filter] at ha
      exact w.held a ha.1
    · intro a _ p hp; simp at hp
  · exact w

theorem wf_start : (start : output_type R).wf := by
  refine ⟨?_, ?_, ?_, ?_, ?_, ?_, ?_, ?_, ?_⟩ <;> simp [start, terminal_last]

theorem wf_on_next {o : output_type R} (w : o.wf) (v : R) : (o.on_next v).wf := by
  unfold on_next
  split
  · rename_i hs
    refine ⟨?_, w.child, w.bound, w.nodup, ?_, ?_, w.issued, w.held, w.own⟩
    · intro h; simp [hs] at h
    · intro _ n hn
      simp only [List.mem_append, List.mem_singleton] at hn
      rcases hn with hn | hn
      · exact w.quiet hs n hn
      · subst hn; rfl
    · exact terminal_last_of_quiet _ (w.quiet hs) _
  · exact w

theorem wf_terminal {o : output_type R} (w : o.wf) (x : notification R)
    (hs : o.subscribed = true) :
    (({ o with delivered := o.delivered ++ [x] } : output_type R).unsubscribe).wf := by
  simp only [unsubscribe, hs, if_true]
  refine ⟨?_, ?_, ?_, ?_, ?_, ?_, ?_, ?_, ?_⟩
  · intro _
    simp only [List.filter_eq_nil_iff]
    intro h hh
    simpa using w.child h hh
  · intro h hh
    simp only [List.mem_filter] at hh
    have := w.child h hh.1
    simp [children] at hh this
    obtain ⟨t, ht⟩ := this
    exact absurd ht (hh.2 t)
  · intro h hh
    simp only [List.mem_filter] at hh
    exact w.bound h hh.1
  · exact w.nodup.filter _
  · intro h; simp at h
  · exact terminal_last_of_quiet _ (w.quiet hs) _
  · intro p hp; simp at hp
  · intro a ha
    simp only [List.mem_filter] at ha
    exact w.held a ha.1
  · intro a _ p hp; simp at hp

theorem wf_on_error {o : output_type R} (w : o.wf) (e : exception_ptr) : (o.on_error e).wf := by
  unfold on_error
  split
  · rename_i hs; exact wf_terminal w _ hs
  · exact w

theorem wf_on_completed {o : output_type R} (w : o.wf) : o.on_completed.wf := by
  unfold on_completed
  split
  · rename_i hs; exact wf_terminal w _ hs
  · exact w

theorem wf_unsubscribe_handle {o : output_type R} (w : o.wf) (cs : composite_subscription) :
    (o.unsubscribe_handle cs).wf := by
  cases cs with
  | none => exact w
  | some h =>
    by_cases hl : h ∈ o.live
    · rw [unsubscribe_handle_live hl]
      refine ⟨?_, ?_, ?_, ?_, w.quiet, w.last, ?_, ?_, ?_⟩
      · intro hs; simp [w.dead hs] at *
      · intro c hc
        simp only [List.mem_filter, ne_eq, decide_not, Bool.not_eq_true',
          decide_eq_false_iff_not] at hc
        obtain ⟨t, ht⟩ := mem_children.1 (w.child c hc.1)
        refine mem_children.2 ⟨t, ?_⟩
        simp only [List.mem_filter, decide_eq_true_eq]
        refine ⟨ht, ?_⟩
        intro a ha hah hta
        have := w.own a ha (t, c) ht hta
        simp only at this
        exact hc.2 (this.trans hah)
      · intro c hc
        simp only [List.mem_filter] at hc
        exact w.bound c hc.1
      · exact w.nodup.filter _
      · intro p hp
        simp only [List.mem_filter] at hp
        exact w.issued p hp.1
      · intro a ha
        simp only [List.mem_filter] at ha
        exact w.held a ha.1
      · intro a ha p hp
        simp only [List.mem_filter] at ha hp
        exact w.own a ha.1 p hp.1
    · rw [unsubscribe_handle_not_live hl]; exact w

theorem new_child_subscribed {o : output_type R} (hs : o.subscribed = true) :
    o.new_child = { o with fresh := o.fresh + 1, live := o.live ++ [o.fresh],
                           tokens := o.tokens + 1,
                           registered := o.registered ++ [(o.tokens, o.fresh)],
                           cleanup := o.cleanup ++ [(o.fresh, o.tokens)] } := by
  simp [new_child, create, add, add_cleanup, hs]

theorem new_child_dead {o : output_type R} (hs : o.subscribed = false) (hl : o.live = []) :
    o.new_child = { o with fresh := o.fresh + 1,
                           tokens := o.tokens + 1,
                           cleanup := o.cleanup.filter (fun a => a.1 ≠ o.fresh),
                           registered := (o.registered.filter
                             (fun p => decide (∀ a ∈ o.cleanup, a.1 = o.fresh → p.1 ≠ a.2))).filter
                             (fun p => p.1 ≠ o.tokens) } := by
  simp only [new_child, create, add, hs, Bool.false_eq_true, if_false]
  rw [unsubscribe_handle_live (by simp)]
  simp [add_cleanup, remove, hl]

theorem wf_new_child {o : output_type R} (w : o.wf) : o.new_child.wf := by
  cases hs : o.subscribed with
  | true =>
    rw [new_child_subscribed hs]
    refine ⟨?_, ?_, ?_, ?_, ?_, w.last, ?_, ?_, ?_⟩
    · intro h; simp [hs] at h
    · intro c hc
      simp only [List.mem_append, List.mem_singleton] at hc
      simp only [children, List.map_append, List.mem_append, List.map_cons, List.map_nil,
        List.mem_singleton]
      exact hc.imp (w.child c) id
    · intro c hc
      simp only [List.mem_append, List.mem_singleton] at hc
      rcases hc with hc | hc
      · exact Nat.lt_succ_of_lt (w.bound c hc)
      · subst hc; exact Nat.lt_succ_self _
    · refine List.Nodup.append w.nodup (List.nodup_singleton _) ?_
      simp only [List.disjoint_singleton]
      intro hc
      exact Nat.lt_irrefl _ (w.bound _ hc)
    · intro _; exact w.quiet hs
    · intro p hp
      simp only [List.mem_append, List.mem_singleton] at hp
      rcases hp with hp | rfl
      · exact Nat.lt_succ_of_lt (w.issued p hp)
      · exact Nat.lt_succ_self _
    · intro a ha
      simp only [List.mem_append, List.mem_singleton] at ha
      rcases ha with ha | rfl
      · exact Nat.lt_succ_of_lt (w.held a ha)
      · exact Nat.lt_succ_self _
    · intro a ha p hp hpa
      simp only [List.mem_append, List.mem_singleton] at ha hp
      rcases ha with ha | rfl <;> rcases hp with hp | rfl
      · exact w.own a ha p hp hpa
      · exact absurd hpa (Nat.ne_of_gt (w.held a ha))
      · exact absurd hpa (Nat.ne_of_lt (w.issued p hp))
      · rfl
  | false =>
    rw [new_child_dead hs (w.dead hs)]
    refine ⟨?_, ?_, ?_, ?_, ?_, w.last, ?_, ?_, ?_⟩
    · intro _; exact w.dead hs
    · intro c hc; simp [w.dead hs] at hc
    · intro c hc; simp [w.dead hs] at hc
    · simp [w.dead hs]
    · intro h; simp [hs] at h
    · intro p hp
      simp only [List.mem_filter] at hp
      exact Nat.lt_succ_of_lt (w.issued p hp.1.1)
    · intro a ha
      simp only [List.mem_filter] at ha
      exact Nat.lt_succ_of_lt (w.held a ha.1)
    · intro a ha p hp
      simp only [List.mem_filter] at ha hp
      exact w.own a ha.1 p hp.1.1

end output_type
end rxcpp

namespace rxcpp
open output_type

namespace concat_map
variable {T Obs U R : Type}

theorem subscribe_to_fault {i : values T Obs U R} {st : T} {e : exception_ptr}
    (h : i.selectCollection st = .error e) (s : concat_map_state_type T Obs U R) :
    subscribe_to i s st =
      { s with collectionCalls := s.collectionCalls ++ [st], out := s.out.on_error e } := by
  simp [subscribe_to, on_exception, h]

theorem subscribe_to_coordinator_fault {i : values T Obs U R} {st : T} {c : Obs}
    {e : exception_ptr} (h : i.selectCollection st = .ok c) (h2 : i.coordinator c = .error e)
    (s : concat_map_state_type T Obs U R) :
    subscribe_to i s st =
      { s with collectionCalls := s.collectionCalls ++ [st],
               collectionLifetime := some s.out.fresh,
               out := s.out.new_child.on_error e } := by
  simp [subscribe_to, on_exception, h, h2, new_child, create]

theorem subscribe_to_ok {i : values T Obs U R} {st : T} {c c2 : Obs}
    (h : i.selectCollection st = .ok c) (h2 : i.coordinator c = .ok c2)
    (s : concat_map_state_type T Obs U R) :
    subscribe_to i s st =
      { s with collectionCalls := s.collectionCalls ++ [st],
               collectionLifetime := some s.out.fresh,
               out := s.out.new_child,
               subscribers := s.subscribers ++ [(s.out.fresh, st, c2)] } := by
  simp [subscribe_to, on_exception, h, h2, new_child, create]

end concat_map
end rxcpp

namespace rxcpp
namespace output_type
variable {R : Type}

@[simp] theorem live_on_next (o : output_type R) (v : R) : (o.on_next v).live = o.live := by
  unfold on_next; split <;> rfl
@[simp] theorem fresh_on_next (o : output_type R) (v : R) : (o.on_next v).fresh = o.fresh := by
  unfold on_next; split <;> rfl
@[simp] theorem subscribed_on_next (o : output_type R) (v : R) :
    (o.on_next v).subscribed = o.subscribed := by
  unfold on_next; split <;> rfl
@[simp] theorem registered_on_next (o : output_type R) (v : R) :
    (o.on_next v).registered = o.registered := by
  unfold on_next; split <;> rfl
@[simp] theorem tokens_on_next (o : output_type R) (v : R) :
    (o.on_next v).tokens = o.tokens := by
  unfold on_next; split <;> rfl
@[simp] theorem children_on_next (o : output_type R) (v : R) :
    (o.on_next v).children = o.children := by
  simp [children]
@[simp] theorem cleanup_on_next (o : output_type R) (v : R) :
    (o.on_next v).cleanup = o.cleanup := by
  unfold on_next; split <;> rfl
theorem delivered_on_next (o : output_type R) (v : R) :
    (o.on_next v).delivered =
      if o.subscribed then o.delivered ++ [notification.on_next v] else o.delivered := by
  unfold on_next; split <;> rfl

@[simp] theorem fresh_unsubscribe (o : output_type R) : o.unsubscribe.fresh = o.fresh := by
  unfold unsubscribe; split <;> rfl
@[simp] theorem delivered_unsubscribe (o : output_type R) :
    o.unsubscribe.delivered = o.delivered := by
  unfold unsubscribe; split <;> rfl
@[simp] theorem subscribed_unsubscribe (o : output_type R) :
    o.unsubscribe.subscribed = false := by
  unfold unsubscribe; split
  · rfl
  · rename_i h; simpa using h
theorem live_unsubscribe {o : output_type R} (w : o.wf) : o.unsubscribe.live = [] :=
  (wf_unsubscribe w).dead (subscribed_unsubscribe o)

@[simp] theorem fresh_on_error (o : output_type R) (e : exception_ptr) :
    (o.on_error e).fresh = o.fresh := by
  unfold on_error; split <;> simp
@[simp] theorem subscribed_on_error (o : output_type R) (e : exception_ptr) :
    (o.on_error e).subscribed = false := by
  unfold on_error; split
  · simp
  · rename_i h; simpa using h
theorem live_on_error {o : output_type R} (w : o.wf) (e : exception_ptr) :
    (o.on_error e).live = [] :=
  (wf_on_error w e).dead (subscribed_on_error o e)
theorem delivered_on_error (o : output_type R) (e : exception_ptr) :
    (o.on_error e).delivered =
      if o.subscribed then o.delivered ++ [notification.on_error e] else o.delivered := by
  unfold on_error; split <;> simp

@[simp] theorem fresh_on_completed (o : output_type R) : o.on_completed.fresh = o.fresh := by
  unfold on_completed; split <;> simp
@[simp] theorem subscribed_on_completed (o : output_type R) :
    o.on_completed.subscribed = false := by
  unfold on_completed; split
  · simp
  · rename_i h; simpa using h
theorem live_on_completed {o : output_type R} (w : o.wf) : o.on_completed.live = [] :=
  (wf_on_completed w).dead (subscribed_on_completed o)
theorem delivered_on_completed (o : output_type R) :
    o.on_completed.delivered =
      if o.subscribed then o.delivered ++ [notification.on_completed] else o.delivered := by
  unfold on_completed; split <;> simp

@[simp] theorem fresh_unsubscribe_handle (o : output_type R) (cs : composite_subscription) :
    (o.unsubscribe_handle cs).fresh = o.fresh := by
  cases cs with
  | none => rfl
  | some h =>
    by_cases hl : h ∈ o.live
    · rw [unsubscribe_handle_live hl]
    · rw [unsubscribe_handle_not_live hl]
@[simp] theorem subscribed_unsubscribe_handle (o : output_type R) (cs : composite_subscription) :
    (o.unsubscribe_handle cs).subscribed = o.subscribed := by
  cases cs with
  | none => rfl
  | some h =>
    by_cases hl : h ∈ o.live
    · rw [unsubscribe_handle_live hl]
    · rw [unsubscribe_handle_not_live hl]
@[simp] theorem delivered_unsubscribe_handle (o : output_type R) (cs : composite_subscription) :
    (o.unsubscribe_handle cs).delivered = o.delivered := by
  cases cs with
  | none => rfl
  | some h =>
    by_cases hl : h ∈ o.live
    · rw [unsubscribe_handle_live hl]
    · rw [unsubscribe_handle_not_live hl]
@[simp] theorem tokens_unsubscribe_handle (o : output_type R) (cs : composite_subscription) :
    (o.unsubscribe_handle cs).tokens = o.tokens := by
  cases cs with
  | none => rfl
  | some h =>
    by_cases hl : h ∈ o.live
    · rw [unsubscribe_handle_live hl]
    · rw [unsubscribe_handle_not_live hl]
theorem live_unsubscribe_handle (o : output_type R) (h : Nat) :
    (o.unsubscribe_handle (some h)).live = o.live.filter (fun c => c ≠ h) := by
  by_cases hl : h ∈ o.live
  · rw [unsubscribe_handle_live hl]
  · rw [unsubscribe_handle_not_live hl]
    symm
    rw [List.filter_eq_self]
    intro a ha
    simp only [ne_eq, decide_not, Bool.not_eq_true', decide_eq_false_iff_not]
    rintro rfl
    exact hl ha
@[simp] theorem live_unsubscribe_handle_none (o : output_type R) :
    (o.unsubscribe_handle none) = o := rfl

theorem fresh_new_child {o : output_type R} (w : o.wf) : o.new_child.fresh = o.fresh + 1 := by
  cases hs : o.subscribed with
  | true => rw [new_child_subscribed hs]
  | false => rw [new_child_dead hs (w.dead hs)]
theorem subscribed_new_child {o : output_type R} (w : o.wf) :
    o.new_child.subscribed = o.subscribed := by
  cases hs : o.subscribed with
  | true => rw [new_child_subscribed hs]; exact hs
  | false => rw [new_child_dead hs (w.dead hs)]; exact hs
theorem delivered_new_child {o : output_type R} (w : o.wf) :
    o.new_child.delivered = o.delivered := by
  cases hs : o.subscribed with
  | true => rw [new_child_subscribed hs]
  | false => rw [new_child_dead hs (w.dead hs)]
theorem live_new_child {o : output_type R} (w : o.wf) :
    o.new_child.live = if o.subscribed then o.live ++ [o.fresh] else [] := by
  cases hs : o.subscribed with
  | true => rw [new_child_subscribed hs]; simp
  | false => rw [new_child_dead hs (w.dead hs)]; simp [w.dead hs]

@[simp] theorem is_subscribed_some (o : output_type R) (h : Nat) :
    o.is_subscribed (some h) = decide (h ∈ o.live) := rfl
@[simp] theorem is_subscribed_none (o : output_type R) : o.is_subscribed none = false := rfl

theorem is_subscribed_congr {o o1 : output_type R} (h : o1.live = o.live)
    (cs : composite_subscription) : o1.is_subscribed cs = o.is_subscribed cs := by
  cases cs <;> simp [h]

theorem subscribed_of_live {o : output_type R} (w : o.wf) {h : Nat} (hl : h ∈ o.live) :
    o.subscribed = true := by
  cases hs : o.subscribed with
  | true => rfl
  | false => rw [w.dead hs] at hl; simp at hl

end output_type
end rxcpp

/-! ## The invariant of concat_map -/

namespace rxcpp
open output_type
namespace concat_map
variable {T Obs U R : Type}

theorem core_subscribe_to (i : values T Obs U R) {s : concat_map_state_type T Obs U R}
    (c : core s) (hsub : s.out.subscribed = true)
    (hidle : s.out.is_subscribed s.collectionLifetime = false) (st : T) :
    core (subscribe_to i s st) ∧ busy (subscribe_to i s st) := by
  have hfr := c.fresh_pos
  have hcalls : s.collectionCalls = s.subscribers.map (fun p => p.2.1) := by
    rcases c.calls with h | ⟨h, _⟩
    · exact h
    · simp [hsub] at h
  have hwn := wf_new_child c.out_wf
  have hfn := fresh_new_child c.out_wf
  cases h1 : i.selectCollection st with
  | error e =>
    rw [subscribe_to_fault h1]
    refine ⟨⟨wf_on_error c.out_wf e, c.source, by simpa using hfr, ?_, c.coll, ?_, ?_, ?_⟩, ?_⟩
    · simp [live_on_error c.out_wf]
    · simpa using c.subs
    · simp [live_on_error c.out_wf]
    · exact Or.inr ⟨by simp, st, by simp [hcalls]⟩
    · simp [busy, live_on_error c.out_wf]
  | ok c1 =>
    cases h2 : i.coordinator c1 with
    | error e =>
      rw [subscribe_to_coordinator_fault h1 h2]
      refine ⟨⟨wf_on_error hwn e, c.source, ?_, ?_, ?_, ?_, ?_, ?_⟩, ?_⟩
      · simp [hfn]
      · simp [live_on_error hwn]
      · simp only [ne_eq, Option.some.injEq]; omega
      · intro p hp
        have := c.subs p hp
        simp only [fresh_on_error, hfn]
        omega
      · simp [live_on_error hwn]
      · exact Or.inr ⟨by simp, st, by simp [hcalls]⟩
      · simp [busy, live_on_error hwn]
    | ok c2 =>
      rw [subscribe_to_ok h1 h2]
      have hl : s.out.new_child.live = s.out.live ++ [s.out.fresh] := by
        rw [live_new_child c.out_wf, hsub]; rfl
      refine ⟨⟨hwn, c.source, ?_, ?_, ?_, ?_, ?_, ?_⟩, ?_⟩
      · simp [hfn]
      · intro h hh
        simp only [hl, List.mem_append, List.mem_singleton] at hh
        rcases hh with hh | hh
        · rcases c.single h hh with h0 | hc
          · exact Or.inl h0
          · rw [hc] at hidle
            simp [hh] at hidle
        · exact Or.inr (by rw [hh])
      · simp only [ne_eq, Option.some.injEq]; omega
      · intro p hp
        simp only [List.mem_append, List.mem_singleton] at hp
        simp only [hfn]
        rcases hp with hp | hp
        · have := c.subs p hp; omega
        · subst hp; simp; omega
      · intro h hh _
        simp only [Option.some.injEq] at hh
        subst hh
        exact ⟨_, _, _, rfl⟩
      · exact Or.inl (by simp [hcalls])
      · intro _ _
        simp [hl]

end concat_map
end rxcpp

namespace rxcpp
open output_type

theorem output_type.unsubscribe_handle_idle {R : Type} (o : output_type R)
    (cs : composite_subscription) (h : o.is_subscribed cs = false) :
    o.unsubscribe_handle cs = o := by
  cases cs with
  | none => rfl
  | some c =>
    simp only [is_subscribed_some, decide_eq_false_iff_not] at h
    simp [unsubscribe_handle, h]

theorem output_type.is_subscribed_dead {R : Type} {o : output_type R} (hl : o.live = [])
    (cs : composite_subscription) : o.is_subscribed cs = false := by
  cases cs <;> simp [hl]

namespace concat_map
variable {T Obs U R : Type}

theorem captured_some {s : concat_map_state_type T Obs U R} {h : Nat} {st : T}
    (hc : captured s h = some st) : ∃ c, (h, st, c) ∈ s.subscribers := by
  unfold captured at hc
  cases hf : s.subscribers.find? (fun p => p.1 == h) with
  | none => simp [hf] at hc
  | some p =>
    simp only [hf, Option.map_some', Option.some.injEq] at hc
    have h1 := List.find?_some hf
    have h2 := List.mem_of_find?_eq_some hf
    simp only [beq_iff_eq] at h1
    obtain ⟨a, b, c⟩ := p
    simp only at h1 hc
    subst h1; subst hc
    exact ⟨c, h2⟩

theorem inner_is_collection {s : concat_map_state_type T Obs U R} (c : core s) {h : Nat}
    (hc : (captured s h).isSome = true) (hl : h ∈ s.out.live) :
    s.collectionLifetime = some h := by
  obtain ⟨st, hst⟩ := Option.isSome_iff_exists.1 hc
  obtain ⟨o, ho⟩ := captured_some hst
  have := c.subs _ ho
  rcases c.single h hl with h0 | h1
  · simp only at this; omega
  · exact h1

theorem deliver_dead (i : values T Obs U R) {s : concat_map_state_type T Obs U R}
    (hs : s.out.subscribed = false) (hl : s.out.live = []) (ev : signal T U) :
    deliver i s ev = s := by
  cases ev <;> simp [deliver, is_subscribed_dead hl, output_type.unsubscribe, hs]
  all_goals split <;> rfl

theorem deliver_outer_next_busy (i : values T Obs U R) {s : concat_map_state_type T Obs U R}
    (c : core s) (h0 : 0 ∈ s.out.live) (hb : s.out.is_subscribed s.collectionLifetime = true)
    (st : T) :
    deliver i s (.outer_next st) = { s with selectedCollections := s.selectedCollections ++ [st] } := by
  simp [deliver, outer_on_next, c.source, h0, hb]

theorem deliver_outer_next_idle (i : values T Obs U R) {s : concat_map_state_type T Obs U R}
    (c : inv s) (h0 : 0 ∈ s.out.live) (hb : s.out.is_subscribed s.collectionLifetime = false)
    (st : T) :
    s.selectedCollections = [] ∧ deliver i s (.outer_next st) = subscribe_to i s st := by
  have hq : s.selectedCollections = [] := by
    by_contra hne
    have := c.2 h0 hne
    simp [hb] at this
  simp [deliver, outer_on_next, c.1.source, h0, hb, hq]

theorem deliver_outer_error (i : values T Obs U R) {s : concat_map_state_type T Obs U R}
    (c : core s) (h0 : 0 ∈ s.out.live) (e : exception_ptr) :
    deliver i s (.outer_error e) = { s with out := s.out.on_error e } := by
  simp only [deliver, outer_on_error, c.source, is_subscribed_some, h0, decide_True, if_true]
  rw [unsubscribe_handle_idle _ _ (is_subscribed_dead (live_on_error c.out_wf e) _)]

theorem deliver_outer_completed_idle (i : values T Obs U R)
    {s : concat_map_state_type T Obs U R}
    (c : inv s) (h0 : 0 ∈ s.out.live) (hb : s.out.is_subscribed s.collectionLifetime = false) :
    s.selectedCollections = [] ∧
      deliver i s .outer_completed = { s with out := s.out.on_completed } := by
  have hq : s.selectedCollections = [] := by
    by_contra hne
    have := c.2 h0 hne
    simp [hb] at this
  refine ⟨hq, ?_⟩
  simp only [deliver, outer_on_completed, c.1.source, is_subscribed_some, h0, decide_True, if_true]
  rw [← c.1.source]
  simp only [hb, hq, List.isEmpty_nil, Bool.not_false, Bool.and_self, if_true]
  rw [unsubscribe_handle_idle _ _ (is_subscribed_dead (live_on_completed c.1.out_wf) _)]

theorem deliver_outer_completed_busy (i : values T Obs U R)
    {s : concat_map_state_type T Obs U R}
    (c : core s) (h0 : 0 ∈ s.out.live) (hb : s.out.is_subscribed s.collectionLifetime = true) :
    deliver i s .outer_completed = { s with out := s.out.unsubscribe_handle (some 0) } := by
  simp [deliver, outer_on_completed, c.source, h0, hb]

theorem deliver_inner_next (i : values T Obs U R) {s : concat_map_state_type T Obs U R}
    {h : Nat} {st : T} (hc : captured s h = some st) (hl : h ∈ s.out.live) (ct : U) :
    deliver i s (.inner_next h ct) = inner_on_next i s st ct := by
  simp [deliver, hc, hl]

theorem deliver_inner_error (i : values T Obs U R) {s : concat_map_state_type T Obs U R}
    (c : core s) {h : Nat} (hc : (captured s h).isSome = true) (hl : h ∈ s.out.live)
    (e : exception_ptr) :
    deliver i s (.inner_error h e) = { s with out := s.out.on_error e } := by
  obtain ⟨st, hst⟩ := Option.isSome_iff_exists.1 hc
  simp only [deliver, hst, inner_on_error, is_subscribed_some, hl, decide_True, if_true]
  rw [unsubscribe_handle_idle _ _ (is_subscribed_dead (live_on_error c.out_wf e) _)]

theorem deliver_inner_completed_wait (i : values T Obs U R)
    {s : concat_map_state_type T Obs U R}
    (c : core s) {h : Nat} (hc : (captured s h).isSome = true) (hl : h ∈ s.out.live)
    (hq : s.selectedCollections = []) (h0 : 0 ∈ s.out.live) :
    deliver i s (.inner_completed h) = { s with out := s.out.unsubscribe_handle (some h) } := by
  obtain ⟨st, hst⟩ := Option.isSome_iff_exists.1 hc
  simp [deliver, hst, inner_on_completed, hl, hq, c.source, h0]

theorem deliver_inner_completed_last (i : values T Obs U R)
    {s : concat_map_state_type T Obs U R}
    (c : core s) {h : Nat} (hc : (captured s h).isSome = true) (hl : h ∈ s.out.live)
    (hq : s.selectedCollections = []) (h0 : 0 ∉ s.out.live) :
    deliver i s (.inner_completed h) = { s with out := s.out.on_completed } := by
  obtain ⟨st, hst⟩ := Option.isSome_iff_exists.1 hc
  simp only [deliver, hst, inner_on_completed, is_subscribed_some, hl, hq, c.source, h0,
    decide_True, decide_False, if_true, Bool.not_false]
  rw [unsubscribe_handle_idle _ _ (is_subscribed_dead (live_on_completed c.out_wf) _)]

theorem live_subscribe_to (i : values T Obs U R) {s : concat_map_state_type T Obs U R}
    (w : s.out.wf) (st : T) :
    ∀ x ∈ (subscribe_to i s st).out.live, x ∈ s.out.live ∨ x = s.out.fresh := by
  intro x hx
  cases h1 : i.selectCollection st with
  | error e =>
    rw [subscribe_to_fault h1] at hx
    simp [live_on_error w] at hx
  | ok c1 =>
    cases h2 : i.coordinator c1 with
    | error e =>
      rw [subscribe_to_coordinator_fault h1 h2] at hx
      simp [live_on_error (wf_new_child w)] at hx
    | ok c2 =>
      rw [subscribe_to_ok h1 h2] at hx
      simp only [live_new_child w] at hx
      split at hx
      · simpa using hx
      · simp at hx

theorem deliver_inner_completed_more (i : values T Obs U R)
    {s : concat_map_state_type T Obs U R}
    (c : core s) {h : Nat} (hc : (captured s h).isSome = true) (hl : h ∈ s.out.live)
    {v : T} {rest : List T} (hq : s.selectedCollections = v :: rest) :
    deliver i s (.inner_completed h) =
      subscribe_to i { s with selectedCollections := rest,
                              out := s.out.unsubscribe_handle (some h) } v := by
  obtain ⟨st, hst⟩ := Option.isSome_iff_exists.1 hc
  have hcl := inner_is_collection c hc hl
  simp only [deliver, hst, inner_on_completed, is_subscribed_some, hl, hq, decide_True, if_true, hcl]
  generalize hs1 : (⟨s.sourceLifetime, some h, rest, s.out.unsubscribe_handle (some h),
    s.subscribers, s.collectionCalls, s.resultCalls⟩ : concat_map_state_type T Obs U R) = s1
  have ho : s1.out = s.out.unsubscribe_handle (some h) := by rw [← hs1]
  have hk : h ∉ (subscribe_to i s1 v).out.live := by
    intro hin
    have hw : s1.out.wf := ho ▸ wf_unsubscribe_handle c.out_wf _
    rcases live_subscribe_to i hw v h hin with h1 | h1
    · simp [ho, live_unsubscribe_handle] at h1
    · have := c.out_wf.bound h hl
      simp only [ho, fresh_unsubscribe_handle] at h1
      omega
  rw [unsubscribe_handle_idle (subscribe_to i s1 v).out (some h) (by simpa using hk)]

end concat_map
end rxcpp

namespace rxcpp
open output_type
namespace concat_map
variable {T Obs U R : Type}

theorem deliver_not_accepted (i : values T Obs U R) {s : concat_map_state_type T Obs U R}
    {ev : signal T U} (h : accepted s ev = false) : deliver i s ev = s := by
  cases ev with
  | unsubscribe => simp [accepted] at h
  | outer_next st => simp only [accepted] at h; simp [deliver, h]
  | outer_error e => simp only [accepted] at h; simp [deliver, h]
  | outer_completed => simp only [accepted] at h; simp [deliver, h]
  | inner_next h1 ct =>
    simp only [accepted] at h
    simp only [deliver]
    split
    · rename_i st hst; simp only [hst, Option.isSome_some, Bool.true_and] at h; simp [h]
    · rfl
  | inner_error h1 e =>
    simp only [accepted] at h
    simp only [deliver]
    split
    · rename_i st hst; simp only [hst, Option.isSome_some, Bool.true_and] at h; simp [h]
    · rfl
  | inner_completed h1 =>
    simp only [accepted] at h
    simp only [deliver]
    split
    · rename_i st hst; simp only [hst, Option.isSome_some, Bool.true_and] at h; simp [h]
    · rfl

theorem core_out {s : concat_map_state_type T Obs U R} (c : core s) (o : output_type R)
    (hw : o.wf) (hf : o.fresh = s.out.fresh) (hl : ∀ h ∈ o.live, h ∈ s.out.live)
    (hs : o.subscribed = true → s.out.subscribed = true) :
    core { s with out := o } := by
  refine ⟨hw, c.source, by simpa [hf] using c.fresh_pos, ?_, c.coll, ?_, ?_, ?_⟩
  · intro h hh; exact c.single h (hl h hh)
  · simpa [hf] using c.subs
  · intro h hh hh2; exact c.newest h hh (hl h hh2)
  · rcases c.calls with h | ⟨h, x⟩
    · exact Or.inl h
    · refine Or.inr ⟨?_, x⟩
      cases ho : o.subscribed with
      | false => rfl
      | true => rw [hs ho] at h; exact absurd h (by simp)

theorem core_dead {s : concat_map_state_type T Obs U R} (c : core s) (o : output_type R)
    (hw : o.wf) (hf : o.fresh = s.out.fresh) (hl : o.live = []) (hs : o.subscribed = false) :
    inv { s with out := o } :=
  ⟨core_out c o hw hf (by simp [hl]) (by simp [hs]), by simp [busy, hl]⟩

theorem inv_on_subscribe (i : values T Obs U R) : inv (on_subscribe i) := by
  have hw : (((start : output_type R).create.2.add
      (some (start : output_type R).create.1)).2).wf := by
    refine ⟨?_, ?_, ?_, ?_, ?_, ?_, ?_, ?_, ?_⟩ <;>
      simp [start, create, add, terminal_last, children]
  cases hsrc : i.source with
  | error e =>
    simp only [on_subscribe, on_exception, hsrc]
    refine ⟨⟨wf_on_error hw e, rfl, ?_, ?_, ?_, ?_, ?_, ?_⟩, ?_⟩
    · simp [start, create, add]
    · simp [live_on_error hw]
    · simp
    · simp
    · simp
    · simp
    · simp [busy]
  | ok u =>
    simp only [on_subscribe, on_exception, hsrc]
    refine ⟨⟨hw, rfl, ?_, ?_, ?_, ?_, ?_, ?_⟩, ?_⟩
    · simp [start, create, add]
    · simp [start, create, add]
    · simp
    · simp
    · simp
    · simp
    · simp [busy]

theorem inv_deliver (i : values T Obs U R) {s : concat_map_state_type T Obs U R} (c : inv s)
    (ev : signal T U) : inv (deliver i s ev) := by
  cases ha : accepted s ev with
  | false => rw [deliver_not_accepted i ha]; exact c
  | true =>
    have w := c.1.out_wf
    cases ev with
    | unsubscribe =>
      exact core_dead c.1 _ (wf_unsubscribe w) (by simp) (live_unsubscribe w) (by simp)
    | outer_next st =>
      simp only [accepted, c.1.source, is_subscribed_some, decide_eq_true_eq] at ha
      cases hb : s.out.is_subscribed s.collectionLifetime with
      | true =>
        rw [deliver_outer_next_busy i c.1 ha hb]
        refine ⟨⟨w, c.1.source, c.1.fresh_pos, c.1.single, c.1.coll, c.1.subs, c.1.newest,
          c.1.calls⟩, ?_⟩
        intro _ _; exact hb
      | false =>
        rw [(deliver_outer_next_idle i c ha hb st).2]
        exact core_subscribe_to i c.1 (subscribed_of_live w ha) hb st
    | outer_error e =>
      simp only [accepted, c.1.source, is_subscribed_some, decide_eq_true_eq] at ha
      rw [deliver_outer_error i c.1 ha]
      exact core_dead c.1 _ (wf_on_error w e) (by simp) (live_on_error w e) (by simp)
    | outer_completed =>
      simp only [accepted, c.1.source, is_subscribed_some, decide_eq_true_eq] at ha
      cases hb : s.out.is_subscribed s.collectionLifetime with
      | true =>
        rw [deliver_outer_completed_busy i c.1 ha hb]
        refine ⟨core_out c.1 _ (wf_unsubscribe_handle w _) (by simp) ?_ (by simp), ?_⟩
        · intro h hh
          simp only [live_unsubscribe_handle, List.mem_filter] at hh
          exact hh.1
        · intro h0
          simp [live_unsubscribe_handle] at h0
      | false =>
        rw [(deliver_outer_completed_idle i c ha hb).2]
        exact core_dead c.1 _ (wf_on_completed w) (by simp) (live_on_completed w) (by simp)
    | inner_next h ct =>
      simp only [accepted, is_subscribed_some, Bool.and_eq_true, decide_eq_true_eq] at ha
      obtain ⟨st, hst⟩ := Option.isSome_iff_exists.1 ha.1
      rw [deliver_inner_next i hst ha.2]
      simp only [inner_on_next]
      cases hr : i.selectResult st ct with
      | error e =>
        simp only [on_exception]
        have := core_dead c.1 _ (wf_on_error w e) (by simp) (live_on_error w e) (by simp)
        exact ⟨⟨this.1.out_wf, this.1.source, this.1.fresh_pos, this.1.single, this.1.coll,
          this.1.subs, this.1.newest, this.1.calls⟩, this.2⟩
      | ok r =>
        simp only [on_exception]
        have := core_out c.1 _ (wf_on_next w r) (by simp) (by simp) (by simp)
        refine ⟨⟨this.out_wf, this.source, this.fresh_pos, this.single, this.coll,
          this.subs, this.newest, this.calls⟩, ?_⟩
        have hb := c.2
        simpa [busy, is_subscribed_congr (live_on_next s.out r)] using hb
    | inner_error h e =>
      simp only [accepted, is_subscribed_some, Bool.and_eq_true, decide_eq_true_eq] at ha
      rw [deliver_inner_error i c.1 ha.1 ha.2]
      exact core_dead c.1 _ (wf_on_error w e) (by simp) (live_on_error w e) (by simp)
    | inner_completed h =>
      simp only [accepted, is_subscribed_some, Bool.and_eq_true, decide_eq_true_eq] at ha
      cases hq : s.selectedCollections with
      | nil =>
        by_cases h0 : 0 ∈ s.out.live
        · rw [deliver_inner_completed_wait i c.1 ha.1 ha.2 hq h0]
          refine ⟨core_out c.1 _ (wf_unsubscribe_handle w _) (by simp) ?_ (by simp), ?_⟩
          · intro x hx
            simp only [live_unsubscribe_handle, List.mem_filter] at hx
            exact hx.1
          · intro _ hne
            exact absurd hq hne
        · rw [deliver_inner_completed_last i c.1 ha.1 ha.2 hq h0]
          exact core_dead c.1 _ (wf_on_completed w) (by simp) (live_on_completed w) (by simp)
      | cons v rest =>
        rw [deliver_inner_completed_more i c.1 ha.1 ha.2 hq]
        have hcl := inner_is_collection c.1 ha.1 ha.2
        have c1 := core_out c.1 _ (wf_unsubscribe_handle w (some h)) (by simp)
          (by
            intro x hx
            simp only [live_unsubscribe_handle, List.mem_filter] at hx
            exact hx.1) (by simp)
        have c2 : core { s with selectedCollections := rest,
                                out := s.out.unsubscribe_handle (some h) } :=
          ⟨c1.out_wf, c1.source, c1.fresh_pos, c1.single, c1.coll, c1.subs, c1.newest, c1.calls⟩
        refine core_subscribe_to i c2 ?_ ?_ v
        · simpa using subscribed_of_live w ha.2
        · simp [hcl, live_unsubscribe_handle]

theorem inv_run (i : values T Obs U R) (tr : List (signal T U)) : inv (run i tr) := by
  unfold run
  induction tr using List.reverseRecOn with
  | nil => exact inv_on_subscribe i
  | append_singleton tr ev ih =>
    rw [List.foldl_append]
    exact inv_deliver i ih ev

end concat_map
end rxcpp

/-! ## The invariant of merge -/

namespace rxcpp
open output_type

theorem int32_range (x : Int) : -2147483648 ≤ int32 x ∧ int32 x < 2147483648 := by
  unfold int32; omega

theorem int32_id {x : Int} (h1 : -2147483648 ≤ x) (h2 : x < 2147483648) : int32 x = x := by
  unfold int32; omega

theorem int32_succ (x : Int) : int32 (int32 x + 1) = int32 (x + 1) := by
  unfold int32; omega

theorem int32_pred (x : Int) : int32 (int32 x - 1) = int32 (x - 1) := by
  unfold int32; omega

theorem int32_pred_eq_zero {x : Int} (h1 : -2147483648 ≤ x) (h2 : x < 2147483648) :
    int32 (x - 1) = 0 ↔ x = 1 := by
  unfold int32; omega

namespace merge
variable {Obs R : Type}

theorem outer_on_next_fault {i : values Obs} {st : Obs} {e : exception_ptr}
    (h : i.coordinator st = .error e) (s : merge_state_type Obs R) :
    outer_on_next i s st = { s with out := s.out.new_child.on_error e } := by
  simp [outer_on_next, outer_on_next_sync, on_exception, h, new_child, create]

theorem outer_on_next_ok {i : values Obs} {st c : Obs}
    (h : i.coordinator st = .ok c) (s : merge_state_type Obs R) :
    outer_on_next i s st =
      { s with out := s.out.new_child,
               pendingCompletions := int32 (s.pendingCompletions + 1),
               subscribers := s.subscribers ++ [(s.out.fresh, c)] } := by
  simp [outer_on_next, outer_on_next_sync, on_exception, h, new_child, create]

theorem deliver_dead_merge (i : values Obs) {s : merge_state_type Obs R}
    (hs : s.out.subscribed = false) (hl : s.out.live = []) (ev : signal Obs R) :
    deliver i s ev = s := by
  cases ev <;> simp [deliver, is_subscribed_dead hl, output_type.unsubscribe, hs, hl]

theorem deliver_not_accepted_merge (i : values Obs) {s : merge_state_type Obs R}
    {ev : signal Obs R} (h : accepted s ev = false) : deliver i s ev = s := by
  cases ev with
  | unsubscribe => simp [accepted] at h
  | outer_next st => simp only [accepted] at h; simp [deliver, h]
  | outer_error e => simp only [accepted] at h; simp [deliver, h]
  | outer_completed => simp only [accepted] at h; simp [deliver, h]
  | inner_next h1 ct => simp only [accepted] at h; simp only [deliver, h]; simp
  | inner_error h1 e => simp only [accepted] at h; simp only [deliver, h]; simp
  | inner_completed h1 => simp only [accepted] at h; simp only [deliver, h]; simp

theorem deliver_outer_next (i : values Obs) {s : merge_state_type Obs R}
    (c : inv s) (h0 : 0 ∈ s.out.live) (st : Obs) :
    deliver i s (.outer_next st) = outer_on_next i s st := by
  simp [deliver, c.outer, h0]

theorem deliver_outer_error_merge (i : values Obs) {s : merge_state_type Obs R}
    (c : inv s) (h0 : 0 ∈ s.out.live) (e : exception_ptr) :
    deliver i s (.outer_error e) = { s with out := s.out.on_error e } := by
  simp only [deliver, outer_on_error, c.outer, is_subscribed_some, h0, decide_True, if_true]
  rw [unsubscribe_handle_idle _ _ (is_subscribed_dead (live_on_error c.out_wf e) _)]

theorem deliver_inner_next_merge (i : values Obs) {s : merge_state_type Obs R} {h : Nat}
    (hc : is_inner s h = true) (hl : h ∈ s.out.live) (ct : R) :
    deliver i s (.inner_next h ct) = { s with out := s.out.on_next ct } := by
  simp [deliver, hc, hl, inner_on_next]

theorem deliver_inner_error_merge (i : values Obs) {s : merge_state_type Obs R}
    (c : inv s) {h : Nat} (hc : is_inner s h = true) (hl : h ∈ s.out.live) (e : exception_ptr) :
    deliver i s (.inner_error h e) = { s with out := s.out.on_error e } := by
  simp only [deliver, inner_on_error, hc, is_subscribed_some, hl, decide_True, Bool.and_self,
    if_true]
  rw [unsubscribe_handle_idle _ _ (is_subscribed_dead (live_on_error c.out_wf e) _)]

theorem deliver_outer_completed_last (i : values Obs) {s : merge_state_type Obs R}
    (c : inv s) (h0 : 0 ∈ s.out.live) (hp : s.pendingCompletions = 1) :
    deliver i s .outer_completed =
      { s with pendingCompletions := 0, out := s.out.on_completed } := by
  have h1 : int32 (1 - 1) = 0 := by decide
  simp only [deliver, outer_on_completed, c.outer, is_subscribed_some, h0, decide_True, if_true,
    hp, h1]
  simp only [beq_self_eq_true, if_true]
  rw [unsubscribe_handle_idle _ _ (is_subscribed_dead (live_on_completed c.out_wf) _)]

theorem deliver_outer_completed_wait (i : values Obs) {s : merge_state_type Obs R}
    (c : inv s) (h0 : 0 ∈ s.out.live) (hp : s.pendingCompletions ≠ 1) :
    deliver i s .outer_completed =
      { s with pendingCompletions := int32 (s.pendingCompletions - 1),
               out := s.out.unsubscribe_handle (some 0) } := by
  have : ¬ (int32 (s.pendingCompletions - 1) = 0) := by
    rw [int32_pred_eq_zero c.range.1 c.range.2]; exact hp
  simp [deliver, outer_on_completed, c.outer, h0, this]

theorem deliver_inner_completed_last_merge (i : values Obs) {s : merge_state_type Obs R}
    (c : inv s) {h : Nat} (hc : is_inner s h = true) (hl : h ∈ s.out.live)
    (hp : s.pendingCompletions = 1) :
    deliver i s (.inner_completed h) =
      { s with pendingCompletions := 0, out := s.out.on_completed } := by
  have h1 : int32 (1 - 1) = 0 := by decide
  simp only [deliver, inner_on_completed, hc, is_subscribed_some, hl, decide_True, Bool.and_self,
    if_true, hp, h1]
  simp only [beq_self_eq_true, if_true]
  rw [unsubscribe_handle_idle _ _ (is_subscribed_dead (live_on_completed c.out_wf) _)]

theorem deliver_inner_completed_wait_merge (i : values Obs) {s : merge_state_type Obs R}
    (c : inv s) {h : Nat} (hc : is_inner s h = true) (hl : h ∈ s.out.live)
    (hp : s.pendingCompletions ≠ 1) :
    deliver i s (.inner_completed h) =
      { s with pendingCompletions := int32 (s.pendingCompletions - 1),
               out := s.out.unsubscribe_handle (some h) } := by
  have : ¬ (int32 (s.pendingCompletions - 1) = 0) := by
    rw [int32_pred_eq_zero c.range.1 c.range.2]; exact hp
  simp [deliver, inner_on_completed, hc, hl, this]

end merge
end rxcpp

namespace rxcpp
open output_type

theorem length_filter_ne {l : List Nat} (hn : l.Nodup) {h : Nat} (hm : h ∈ l) :
    (l.filter (fun c => c ≠ h)).length + 1 = l.length := by
  induction l with
  | nil => simp at hm
  | cons a l ih =>
    rw [List.nodup_cons] at hn
    by_cases ha : a = h
    · subst ha
      have : l.filter (fun c => c ≠ a) = l := by
        rw [List.filter_eq_self]
        intro b hb
        simp only [ne_eq, decide_not, Bool.not_eq_true', decide_eq_false_iff_not]
        rintro rfl
        exact hn.1 hb
      rw [List.filter_cons_of_neg (by simp), this, List.length_cons]
    · have hm2 : h ∈ l := by
        rcases List.mem_cons.1 hm with h1 | h1
        · exact absurd h1.symm ha
        · exact h1
      rw [List.filter_cons_of_pos (by simpa using ha), List.length_cons, ih hn.2 hm2,
        List.length_cons]

namespace merge
variable {Obs R : Type}

theorem inv_dead {s : merge_state_type Obs R} (c : inv s) (o : output_type R) (p : Int)
    (hr : -2147483648 ≤ p ∧ p < 2147483648)
    (hw : o.wf) (hf : s.out.fresh ≤ o.fresh) (hl : o.live = []) (hs : o.subscribed = false) :
    inv { s with out := o, pendingCompletions := p } := by
  have hp := c.fresh_pos
  refine ⟨hw, c.outer, ?_, ?_, ?_, hr, ?_⟩
  · show 0 < o.fresh
    omega
  · intro q hq
    have := c.subs q hq
    show 0 < q.1 ∧ q.1 < o.fresh
    omega
  · simp [hl]
  · simp [hs]

theorem inv_on_subscribe_merge (i : values Obs) : inv (on_subscribe i : merge_state_type Obs R) := by
  have hw : (((start : output_type R).create.2.add
      (some (start : output_type R).create.1)).2).wf := by
    refine ⟨?_, ?_, ?_, ?_, ?_, ?_, ?_, ?_, ?_⟩ <;>
      simp [start, create, add, terminal_last, children]
  cases hsrc : i.source with
  | error e =>
    simp only [on_subscribe, on_exception, hsrc]
    refine ⟨wf_on_error hw e, rfl, ?_, ?_, ?_, ?_, ?_⟩
    · simp [start, create, add]
    · simp
    · simp [live_on_error hw]
    · simp
    · simp
  | ok u =>
    simp only [on_subscribe, on_exception, hsrc]
    refine ⟨hw, rfl, ?_, ?_, ?_, ?_, ?_⟩
    · simp [start, create, add]
    · simp
    · simp [start, create, add]
    · exact int32_range _
    · simp [start, create, add]

theorem is_inner_mono {s : merge_state_type Obs R} {h : Nat} (o : output_type R) (p : Int)
    (l : List (Nat × Obs)) (hi : is_inner s h = true) :
    is_inner { s with out := o, pendingCompletions := p, subscribers := s.subscribers ++ l } h
      = true := by
  simp only [is_inner, List.any_eq_true, List.mem_append] at hi ⊢
  obtain ⟨x, hx, hx2⟩ := hi
  exact ⟨x, Or.inl hx, hx2⟩

theorem inv_deliver_merge (i : values Obs) {s : merge_state_type Obs R} (c : inv s)
    (ev : signal Obs R) : inv (deliver i s ev) := by
  cases ha : accepted s ev with
  | false => rw [deliver_not_accepted_merge i ha]; exact c
  | true =>
    have w := c.out_wf
    cases ev with
    | unsubscribe =>
      exact inv_dead c _ s.pendingCompletions c.range (wf_unsubscribe w) (by simp) (live_unsubscribe w)
        (by simp)
    | outer_next st =>
      simp only [accepted, c.outer, is_subscribed_some, decide_eq_true_eq] at ha
      have hsub := subscribed_of_live w ha
      rw [deliver_outer_next i c ha]
      have hwn := wf_new_child w
      have hfn := fresh_new_child w
      have hfr := c.fresh_pos
      cases hco : i.coordinator st with
      | error e =>
        rw [outer_on_next_fault hco]
        exact inv_dead c (s.out.new_child.on_error e) s.pendingCompletions c.range (wf_on_error hwn e)
          (by simp [hfn]) (live_on_error hwn e) (by simp)
      | ok c2 =>
        rw [outer_on_next_ok hco]
        have hl : s.out.new_child.live = s.out.live ++ [s.out.fresh] := by
          rw [live_new_child w, hsub]; rfl
        refine ⟨hwn, c.outer, by simp [hfn], ?_, ?_, int32_range _, ?_⟩
        · intro p hp
          simp only [List.mem_append, List.mem_singleton] at hp
          simp only [hfn]
          rcases hp with hp | hp
          · have := c.subs p hp; omega
          · subst hp; simp; omega
        · intro h hh
          simp only [hl, List.mem_append, List.mem_singleton] at hh
          rcases hh with hh | hh
          · rcases c.inner h hh with h0 | h1
            · exact Or.inl h0
            · exact Or.inr (is_inner_mono _ _ _ h1)
          · subst hh
            right
            simp [is_inner]
        · intro _
          simp only [hl, c.counter hsub, List.length_append, List.length_singleton,
            Nat.cast_add, Nat.cast_one]
          exact int32_succ _
    | outer_error e =>
      simp only [accepted, c.outer, is_subscribed_some, decide_eq_true_eq] at ha
      rw [deliver_outer_error_merge i c ha]
      exact inv_dead c _ s.pendingCompletions c.range (wf_on_error w e) (by simp) (live_on_error w e)
        (by simp)
    | outer_completed =>
      simp only [accepted, c.outer, is_subscribed_some, decide_eq_true_eq] at ha
      by_cases hp : s.pendingCompletions = 1
      · rw [deliver_outer_completed_last i c ha hp]
        exact inv_dead c _ 0 (by decide) (wf_on_completed w) (by simp) (live_on_completed w) (by simp)
      · rw [deliver_outer_completed_wait i c ha hp]
        refine ⟨wf_unsubscribe_handle w (some 0), c.outer, by simpa using c.fresh_pos,
          by simpa using c.subs, ?_, int32_range _, ?_⟩
        · intro h hh
          simp only [live_unsubscribe_handle, List.mem_filter] at hh
          exact c.inner h hh.1
        · intro hs
          simp only [subscribed_unsubscribe_handle] at hs
          have := length_filter_ne w.nodup ha
          simp only [live_unsubscribe_handle, c.counter hs, int32_pred]
          congr 1
          omega
    | inner_next h ct =>
      simp only [accepted, is_subscribed_some, Bool.and_eq_true, decide_eq_true_eq] at ha
      rw [deliver_inner_next_merge i ha.1 ha.2]
      exact ⟨wf_on_next w ct, c.outer, by simpa using c.fresh_pos, by simpa using c.subs,
        by simpa using c.inner, c.range, by simpa using c.counter⟩
    | inner_error h e =>
      simp only [accepted, is_subscribed_some, Bool.and_eq_true, decide_eq_true_eq] at ha
      rw [deliver_inner_error_merge i c ha.1 ha.2]
      exact inv_dead c _ s.pendingCompletions c.range (wf_on_error w e) (by simp) (live_on_error w e)
        (by simp)
    | inner_completed h =>
      simp only [accepted, is_subscribed_some, Bool.and_eq_true, decide_eq_true_eq] at ha
      by_cases hp : s.pendingCompletions = 1
      · rw [deliver_inner_completed_last_merge i c ha.1 ha.2 hp]
        exact inv_dead c _ 0 (by decide) (wf_on_completed w) (by simp) (live_on_completed w) (by simp)
      · rw [deliver_inner_completed_wait_merge i c ha.1 ha.2 hp]
        refine ⟨wf_unsubscribe_handle w (some h), c.outer, by simpa using c.fresh_pos,
          by simpa using c.subs, ?_, int32_range _, ?_⟩
        · intro x hx
          simp only [live_unsubscribe_handle, List.mem_filter] at hx
          exact c.inner x hx.1
        · intro hs
          simp only [subscribed_unsubscribe_handle] at hs
          have := length_filter_ne w.nodup ha.2
          simp only [live_unsubscribe_handle, c.counter hs, int32_pred]
          congr 1
          omega

theorem inv_run_merge (i : values Obs) (tr : List (signal Obs R)) : inv (run i tr) := by
  unfold run
  induction tr using List.reverseRecOn with
  | nil => exact inv_on_subscribe_merge i
  | append_singleton tr ev ih =>
    rw [List.foldl_append]
    exact inv_deliver_merge i ih ev

end merge
end rxcpp

namespace rxcpp
open output_type
namespace merge
variable {Obs R : Type}

theorem deliver_fault_merge (i : values Obs) {s : merge_state_type Obs R} (c : inv s)
    {ev : signal Obs R} {e : exception_ptr}
    (hev : ev = .outer_error e ∨ ∃ h, ev = .inner_error h e)
    (hacc : accepted s ev = true) :
    deliver i s ev = { s with out := s.out.on_error e } ∧ s.out.subscribed = true := by
  rcases hev with rfl | ⟨h, rfl⟩
  · simp only [accepted, c.outer, is_subscribed_some, decide_eq_true_eq] at hacc
    exact ⟨deliver_outer_error_merge i c hacc e, subscribed_of_live c.out_wf hacc⟩
  · simp only [accepted, is_subscribed_some, Bool.and_eq_true, decide_eq_true_eq] at hacc
    exact ⟨deliver_inner_error_merge i c hacc.1 hacc.2 e, subscribed_of_live c.out_wf hacc.2⟩

end merge

namespace concat_map
variable {T Obs U R : Type}

theorem deliver_fault (i : values T Obs U R) {s : concat_map_state_type T Obs U R}
    (c : inv s) {ev : signal T U} {e : exception_ptr}
    (hev : ev = .outer_error e ∨ ∃ h, ev = .inner_error h e)
    (hacc : accepted s ev = true) :
    deliver i s ev = { s with out := s.out.on_error e } ∧ s.out.subscribed = true := by
  rcases hev with rfl | ⟨h, rfl⟩
  · simp only [accepted, c.1.source, is_subscribed_some, decide_eq_true_eq] at hacc
    exact ⟨deliver_outer_error i c.1 hacc e, subscribed_of_live c.1.out_wf hacc⟩
  · simp only [accepted, is_subscribed_some, Bool.and_eq_true, decide_eq_true_eq] at hacc
    exact ⟨deliver_inner_error i c.1 hacc.1 hacc.2 e, subscribed_of_live c.1.out_wf hacc.2⟩

end concat_map

end rxcpp

/-! ## The steps of the two state machines -/

namespace rxcpp
open output_type

namespace concat_map
variable {T Obs U R : Type}

/-- Every step of a `concat_map` pipeline in a reachable state is one of these
eleven. -/
theorem deliver_cases (i : values T Obs U R) {s : concat_map_state_type T Obs U R}
    (c : inv s) (ev : signal T U) (P : concat_map_state_type T Obs U R → Prop)
    (skip : accepted s ev = false → P s)
    (unsub : ev = .unsubscribe → P { s with out := s.out.unsubscribe })
    (push : ∀ st, ev = .outer_next st → 0 ∈ s.out.live →
      s.out.is_subscribed s.collectionLifetime = true →
      P { s with selectedCollections := s.selectedCollections ++ [st] })
    (start : ∀ st, ev = .outer_next st → 0 ∈ s.out.live →
      s.out.is_subscribed s.collectionLifetime = false → s.selectedCollections = [] →
      P (subscribe_to i s st))
    (fault : ∀ e, (ev = .outer_error e ∨ ∃ h, ev = .inner_error h e) →
      s.out.subscribed = true → P { s with out := s.out.on_error e })
    (outer_last : ev = .outer_completed → 0 ∈ s.out.live →
      s.out.is_subscribed s.collectionLifetime = false → s.selectedCollections = [] →
      P { s with out := s.out.on_completed })
    (outer_wait : ev = .outer_completed → 0 ∈ s.out.live →
      s.out.is_subscribed s.collectionLifetime = true →
      P { s with out := s.out.unsubscribe_handle (some 0) })
    (value : ∀ h st ct, ev = .inner_next h ct → captured s h = some st → h ∈ s.out.live →
      s.collectionLifetime = some h → P (inner_on_next i s st ct))
    (inner_wait : ∀ h, ev = .inner_completed h → (captured s h).isSome = true →
      h ∈ s.out.live → s.collectionLifetime = some h → s.selectedCollections = [] →
      0 ∈ s.out.live → P { s with out := s.out.unsubscribe_handle (some h) })
    (inner_last : ∀ h, ev = .inner_completed h → (captured s h).isSome = true →
      h ∈ s.out.live → s.collectionLifetime = some h → s.selectedCollections = [] →
      0 ∉ s.out.live → P { s with out := s.out.on_completed })
    (inner_more : ∀ h v rest, ev = .inner_completed h → (captured s h).isSome = true →
      h ∈ s.out.live → s.collectionLifetime = some h → s.selectedCollections = v :: rest →
      P (subscribe_to i { s with selectedCollections := rest,
                                 out := s.out.unsubscribe_handle (some h) } v)) :
    P (deliver i s ev) := by
  cases ha : accepted s ev with
  | false => rw [deliver_not_accepted i ha]; exact skip ha
  | true =>
    have w := c.1.out_wf
    cases ev with
    | unsubscribe => exact unsub rfl
    | outer_next st =>
      simp only [accepted, c.1.source, is_subscribed_some, decide_eq_true_eq] at ha
      cases hb : s.out.is_subscribed s.collectionLifetime with
      | true =>
        rw [deliver_outer_next_busy i c.1 ha hb]
        exact push st rfl ha hb
      | false =>
        obtain ⟨hq, hd⟩ := deliver_outer_next_idle i c ha hb st
        rw [hd]
        exact start st rfl ha hb hq
    | outer_error e =>
      obtain ⟨hd, hs⟩ := deliver_fault i c (Or.inl rfl) ha
      rw [hd]
      exact fault e (Or.inl rfl) hs
    | outer_completed =>
      simp only [accepted, c.1.source, is_subscribed_some, decide_eq_true_eq] at ha
      cases hb : s.out.is_subscribed s.collectionLifetime with
      | true =>
        rw [deliver_outer_completed_busy i c.1 ha hb]
        exact outer_wait rfl ha hb
      | false =>
        obtain ⟨hq, hd⟩ := deliver_outer_completed_idle i c ha hb
        rw [hd]
        exact outer_last rfl ha hb hq
    | inner_next h ct =>
      simp only [accepted, is_subscribed_some, Bool.and_eq_true, decide_eq_true_eq] at ha
      obtain ⟨st, hst⟩ := Option.isSome_iff_exists.1 ha.1
      rw [deliver_inner_next i hst ha.2]
      exact value h st ct rfl hst ha.2 (inner_is_collection c.1 ha.1 ha.2)
    | inner_error h e =>
      obtain ⟨hd, hs⟩ := deliver_fault i c (Or.inr ⟨h, rfl⟩) ha
      rw [hd]
      exact fault e (Or.inr ⟨h, rfl⟩) hs
    | inner_completed h =>
      simp only [accepted, is_subscribed_some, Bool.and_eq_true, decide_eq_true_eq] at ha
      have hcl := inner_is_collection c.1 ha.1 ha.2
      cases hq : s.selectedCollections with
      | nil =>
        by_cases h0 : 0 ∈ s.out.live
        · rw [deliver_inner_completed_wait i c.1 ha.1 ha.2 hq h0]
          exact inner_wait h rfl ha.1 ha.2 hcl hq h0
        · rw [deliver_inner_completed_last i c.1 ha.1 ha.2 hq h0]
          exact inner_last h rfl ha.1 ha.2 hcl hq h0
      | cons v rest =>
        rw [deliver_inner_completed_more i c.1 ha.1 ha.2 hq]
        exact inner_more h v rest rfl ha.1 ha.2 hcl hq

theorem inner_on_next_ok {i : values T Obs U R} {st : T} {ct : U} {r : R}
    (h : i.selectResult st ct = .ok r) (s : concat_map_state_type T Obs U R) :
    inner_on_next i s st ct =
      { s with resultCalls := s.resultCalls ++ [(st, ct)], out := s.out.on_next r } := by
  simp [inner_on_next, on_exception, h]

theorem inner_on_next_fault {i : values T Obs U R} {st : T} {ct : U} {e : exception_ptr}
    (h : i.selectResult st ct = .error e) (s : concat_map_state_type T Obs U R) :
    inner_on_next i s st ct =
      { s with resultCalls := s.resultCalls ++ [(st, ct)], out := s.out.on_error e } := by
  simp [inner_on_next, on_exception, h]

theorem collectionCalls_subscribe_to (i : values T Obs U R)
    (s : concat_map_state_type T Obs U R) (st : T) :
    (subscribe_to i s st).collectionCalls = s.collectionCalls ++ [st] := by
  cases h1 : i.selectCollection st with
  | error e => rw [subscribe_to_fault h1]
  | ok c1 =>
    cases h2 : i.coordinator c1 with
    | error e => rw [subscribe_to_coordinator_fault h1 h2]
    | ok c2 => rw [subscribe_to_ok h1 h2]

theorem selectedCollections_subscribe_to (i : values T Obs U R)
    (s : concat_map_state_type T Obs U R) (st : T) :
    (subscribe_to i s st).selectedCollections = s.selectedCollections := by
  cases h1 : i.selectCollection st with
  | error e => rw [subscribe_to_fault h1]
  | ok c1 =>
    cases h2 : i.coordinator c1 with
    | error e => rw [subscribe_to_coordinator_fault h1 h2]
    | ok c2 => rw [subscribe_to_ok h1 h2]

theorem delivered_inner_on_next (i : values T Obs U R) (s : concat_map_state_type T Obs U R)
    (st : T) (ct : U) :
    (inner_on_next i s st ct).collectionCalls = s.collectionCalls ∧
      (inner_on_next i s st ct).selectedCollections = s.selectedCollections ∧
      (inner_on_next i s st ct).subscribers = s.subscribers ∧
      ∀ h ∈ (inner_on_next i s st ct).out.live, h ∈ s.out.live := by
  cases hr : i.selectResult st ct with
  | error e =>
    rw [inner_on_next_fault hr]
    refine ⟨rfl, rfl, rfl, ?_⟩
    intro h hh
    by_cases hs : s.out.subscribed = true
    · simp only [on_error, output_type.unsubscribe, hs, if_true, List.mem_filter] at hh
      exact hh.1
    · simp only [on_error, hs] at hh
      exact hh
  | ok r =>
    rw [inner_on_next_ok hr]
    exact ⟨rfl, rfl, rfl, by simp⟩

end concat_map

namespace merge
variable {Obs R : Type}

/-- Every step of a `merge` pipeline in a reachable state is one of these
nine. -/
theorem deliver_cases_merge (i : values Obs) {s : merge_state_type Obs R}
    (c : inv s) (ev : signal Obs R) (P : merge_state_type Obs R → Prop)
    (skip : accepted s ev = false → P s)
    (unsub : ev = .unsubscribe → P { s with out := s.out.unsubscribe })
    (start : ∀ st, ev = .outer_next st → 0 ∈ s.out.live → P (outer_on_next i s st))
    (fault : ∀ e, (ev = .outer_error e ∨ ∃ h, ev = .inner_error h e) →
      s.out.subscribed = true → P { s with out := s.out.on_error e })
    (outer_last : ev = .outer_completed → 0 ∈ s.out.live → s.pendingCompletions = 1 →
      P { s with pendingCompletions := 0, out := s.out.on_completed })
    (outer_wait : ev = .outer_completed → 0 ∈ s.out.live → s.pendingCompletions ≠ 1 →
      P { s with pendingCompletions := int32 (s.pendingCompletions - 1),
                 out := s.out.unsubscribe_handle (some 0) })
    (value : ∀ h ct, ev = .inner_next h ct → is_inner s h = true → h ∈ s.out.live →
      P { s with out := s.out.on_next ct })
    (inner_last : ∀ h, ev = .inner_completed h → is_inner s h = true → h ∈ s.out.live →
      s.pendingCompletions = 1 →
      P { s with pendingCompletions := 0, out := s.out.on_completed })
    (inner_wait : ∀ h, ev = .inner_completed h → is_inner s h = true → h ∈ s.out.live →
      s.pendingCompletions ≠ 1 →
      P { s with pendingCompletions := int32 (s.pendingCompletions - 1),
                 out := s.out.unsubscribe_handle (some h) }) :
    P (deliver i s ev) := by
  cases ha : accepted s ev with
  | false => rw [deliver_not_accepted_merge i ha]; exact skip ha
  | true =>
    cases ev with
    | unsubscribe => exact unsub rfl
    | outer_next st =>
      simp only [accepted, c.outer, is_subscribed_some, decide_eq_true_eq] at ha
      rw [deliver_outer_next i c ha]
      exact start st rfl ha
    | outer_error e =>
      obtain ⟨hd, hs⟩ := deliver_fault_merge i c (Or.inl rfl) ha
      rw [hd]
      exact fault e (Or.inl rfl) hs
    | outer_completed =>
      simp only [accepted, c.outer, is_subscribed_some, decide_eq_true_eq] at ha
      by_cases hp : s.pendingCompletions = 1
      · rw [deliver_outer_completed_last i c ha hp]
        exact outer_last rfl ha hp
      · rw [deliver_outer_completed_wait i c ha hp]
        exact outer_wait rfl ha hp
    | inner_next h ct =>
      simp only [accepted, is_subscribed_some, Bool.and_eq_true, decide_eq_true_eq] at ha
      rw [deliver_inner_next_merge i ha.1 ha.2]
      exact value h ct rfl ha.1 ha.2
    | inner_error h e =>
      obtain ⟨hd, hs⟩ := deliver_fault_merge i c (Or.inr ⟨h, rfl⟩) ha
      rw [hd]
      exact fault e (Or.inr ⟨h, rfl⟩) hs
    | inner_completed h =>
      simp only [accepted, is_subscribed_some, Bool.and_eq_true, decide_eq_true_eq] at ha
      by_cases hp : s.pendingCompletions = 1
      · rw [deliver_inner_completed_last_merge i c ha.1 ha.2 hp]
        exact inner_last h rfl ha.1 ha.2 hp
      · rw [deliver_inner_completed_wait_merge i c ha.1 ha.2 hp]
        exact inner_wait h rfl ha.1 ha.2 hp

end merge
end rxcpp

/-! ## After a terminal notification -/

namespace rxcpp
open output_type

theorem terminal_last_split {R : Type} (l : List (notification R))
    (hl : terminal_last l = true) (ht : ∃ n ∈ l, n.terminal = true) :
    ∃ pre n, l = pre ++ [n] ∧ n.terminal = true ∧ ∀ m ∈ pre, m.terminal = false := by
  induction l with
  | nil => simp at ht
  | cons a l ih =>
    cases l with
    | nil =>
      obtain ⟨n, hn, hn2⟩ := ht
      simp only [List.mem_singleton] at hn
      subst hn
      exact ⟨[], n, rfl, hn2, by simp⟩
    | cons b l =>
      simp only [terminal_last, Bool.and_eq_true, Bool.not_eq_true'] at hl
      have ht2 : ∃ n ∈ b :: l, n.terminal = true := by
        obtain ⟨n, hn, hn2⟩ := ht
        rcases List.mem_cons.1 hn with h | h
        · subst h; rw [hl.1] at hn2; exact absurd hn2 (by simp)
        · exact ⟨n, h, hn2⟩
      obtain ⟨pre, n, h1, h2, h3⟩ := ih hl.2 ht2
      refine ⟨a :: pre, n, by rw [h1]; rfl, h2, ?_⟩
      intro m hm
      rcases List.mem_cons.1 hm with h | h
      · subst h; exact hl.1
      · exact h3 m h

theorem output_type.dead_of_terminal {R : Type} {o : output_type R} (w : o.wf)
    (ht : ∃ n ∈ o.delivered, n.terminal = true) : o.subscribed = false ∧ o.live = [] := by
  have hs : o.subscribed = false := by
    cases h : o.subscribed with
    | false => rfl
    | true =>
      obtain ⟨n, hn, hn2⟩ := ht
      rw [w.quiet h n hn] at hn2
      exact absurd hn2 (by simp)
  exact ⟨hs, w.dead hs⟩

namespace concat_map
variable {T Obs U R : Type}

theorem run_append (i : values T Obs U R) (tr tr1 : List (signal T U)) :
    run i (tr ++ tr1) = tr1.foldl (deliver i) (run i tr) := by
  simp [run, List.foldl_append]

theorem foldl_dead (i : values T Obs U R) {s : concat_map_state_type T Obs U R}
    (hs : s.out.subscribed = false) (hl : s.out.live = []) (tr : List (signal T U)) :
    tr.foldl (deliver i) s = s := by
  induction tr with
  | nil => rfl
  | cons ev tr ih => rw [List.foldl_cons, deliver_dead i hs hl, ih]

end concat_map

namespace merge
variable {Obs R : Type}

theorem run_append_merge (i : values Obs) (tr tr1 : List (signal Obs R)) :
    run i (tr ++ tr1) = tr1.foldl (deliver i) (run i tr) := by
  simp [run, List.foldl_append]

theorem foldl_dead_merge (i : values Obs) {s : merge_state_type Obs R}
    (hs : s.out.subscribed = false) (hl : s.out.live = []) (tr : List (signal Obs R)) :
    tr.foldl (deliver i) s = s := by
  induction tr with
  | nil => rfl
  | cons ev tr ih => rw [List.foldl_cons, deliver_dead_merge i hs hl, ih]

end merge

/-- C4. Terminal-once, terminal-last, for both operators: once a run of
`concat_map` (signals `tc`) or of `merge` (signals `tm`) has delivered
`on_error` or `on_completed` to the output observer, any further signals
`tc1`, `tm1`, whatever they are and however late, deliver nothing more, and what
was delivered is a list of `on_next` followed by that one terminal
notification. -/
theorem terminal_once_terminal_last {T Obs U R : Type}
    (ic : concat_map.values T Obs U R) (im : merge.values Obs)
    (tc tc1 : List (concat_map.signal T U)) (tm tm1 : List (merge.signal Obs R))
    (hc : ∃ n ∈ (concat_map.run ic tc).out.delivered, n.terminal = true)
    (hm : ∃ n ∈ (merge.run im tm).out.delivered, n.terminal = true) :
    ((concat_map.run ic (tc ++ tc1)).out.delivered = (concat_map.run ic tc).out.delivered ∧
      ∃ pre n, (concat_map.run ic (tc ++ tc1)).out.delivered = pre ++ [n] ∧
        n.terminal = true ∧ ∀ m ∈ pre, m.terminal = false) ∧
    ((merge.run im (tm ++ tm1)).out.delivered = (merge.run im tm).out.delivered ∧
      ∃ pre n, (merge.run im (tm ++ tm1)).out.delivered = pre ++ [n] ∧
        n.terminal = true ∧ ∀ m ∈ pre, m.terminal = false) := by
  have wc := (concat_map.inv_run ic tc).1.out_wf
  have wm := (merge.inv_run_merge im tm).out_wf
  have dc := dead_of_terminal wc hc
  have dm := dead_of_terminal wm hm
  have ec : concat_map.run ic (tc ++ tc1) = concat_map.run ic tc := by
    rw [concat_map.run_append, concat_map.foldl_dead ic dc.1 dc.2]
  have em : merge.run im (tm ++ tm1) = merge.run im tm := by
    rw [merge.run_append_merge, merge.foldl_dead_merge im dm.1 dm.2]
  rw [ec, em]
  exact ⟨⟨rfl, terminal_last_split _ wc.last hc⟩, ⟨rfl, terminal_last_split _ wm.last hm⟩⟩

end rxcpp

namespace rxcpp

/-- The runs of `concat_map.example_run` and `merge.example_run` end in
`on_completed`; the late signals change nothing. -/
theorem terminal_once_terminal_last_witness :
    (∃ n ∈ (concat_map.run concat_map.example_values concat_map.example_run).out.delivered,
      n.terminal = true) ∧
    (∃ n ∈ (merge.run merge.example_values merge.example_run : merge.merge_state_type _ Nat).out.delivered,
      n.terminal = true) ∧
    ((concat_map.run concat_map.example_values
        (concat_map.example_run ++ concat_map.example_late)).out.delivered =
        (concat_map.run concat_map.example_values concat_map.example_run).out.delivered ∧
      ∃ pre n, (concat_map.run concat_map.example_values
        (concat_map.example_run ++ concat_map.example_late)).out.delivered = pre ++ [n] ∧
        n.terminal = true ∧ ∀ m ∈ pre, m.terminal = false) ∧
    ((merge.run merge.example_values
        (merge.example_run ++ merge.example_late) : merge.merge_state_type _ Nat).out.delivered =
        (merge.run merge.example_values merge.example_run).out.delivered ∧
      ∃ pre n, (merge.run merge.example_values
        (merge.example_run ++ merge.example_late) : merge.merge_state_type _ Nat).out.delivered
          = pre ++ [n] ∧
        n.terminal = true ∧ ∀ m ∈ pre, m.terminal = false) :=
  ⟨⟨.on_completed, by decide, rfl⟩, ⟨.on_completed, by decide, rfl⟩,
    terminal_once_terminal_last concat_map.example_values merge.example_values
      concat_map.example_run concat_map.example_late merge.example_run merge.example_late
      ⟨.on_completed, by decide, rfl⟩ ⟨.on_completed, by decide, rfl⟩⟩

end rxcpp

/-! ## Faults from upstream -/

namespace rxcpp
open output_type

/-- C6. Fault isolation of `merge`: when, after any signals `tr`, the outer
source or an inner stream sends `on_error e` to its subscriber, then at that
step, whatever the pending-completion counter is, `on_error e` is appended to
what the output observer received; nothing terminal had been delivered before;
no handle of the pipeline remains subscribed (every other inner subscription is
cancelled); and after any further signals `tr1` the output is still the same,
so no `on_next` and no second terminal notification follows. -/
theorem merge_fault_isolation {Obs R : Type} (i : merge.values Obs)
    (tr tr1 : List (merge.signal Obs R)) (ev : merge.signal Obs R) (e : exception_ptr)
    (hev : ev = .outer_error e ∨ ∃ h, ev = .inner_error h e)
    (hacc : merge.accepted (merge.run i tr) ev = true) :
    (merge.run i (tr ++ [ev])).out.delivered =
        (merge.run i tr).out.delivered ++ [.on_error e] ∧
      (∀ n ∈ (merge.run i tr).out.delivered, n.terminal = false) ∧
      (merge.run i (tr ++ [ev])).out.live = [] ∧
      (merge.run i (tr ++ ev :: tr1)).out.delivered =
        (merge.run i tr).out.delivered ++ [.on_error e] := by
  have c := merge.inv_run_merge i tr
  obtain ⟨hd, hs⟩ := merge.deliver_fault_merge i c hev hacc
  have h1 : merge.run i (tr ++ [ev]) =
      { merge.run i tr with out := (merge.run i tr).out.on_error e } := by
    rw [merge.run_append_merge, List.foldl_cons, List.foldl_nil, hd]
  have h2 : merge.run i (tr ++ ev :: tr1) = merge.run i (tr ++ [ev]) := by
    rw [merge.run_append_merge, List.foldl_cons, hd, merge.foldl_dead_merge i (by simp)
      (live_on_error c.out_wf e), h1]
  refine ⟨?_, c.out_wf.quiet hs, ?_, ?_⟩
  · rw [h1]; simp [delivered_on_error, hs]
  · rw [h1]; exact live_on_error c.out_wf e
  · rw [h2, h1]; simp [delivered_on_error, hs]

/-- With two inner streams running and the counter at three, an error of the
first inner stream is forwarded at once. -/
theorem merge_fault_isolation_witness :
    merge.accepted (merge.run merge.example_values merge.example_running :
        merge.merge_state_type _ Nat) (.inner_error 1 7) = true ∧
      (merge.run merge.example_values merge.example_running :
        merge.merge_state_type _ Nat).pendingCompletions = 3 ∧
      (merge.run merge.example_values (merge.example_running ++ [.inner_error 1 7]) :
        merge.merge_state_type _ Nat).out.delivered = [.on_next 1, .on_error 7] ∧
      (merge.run merge.example_values
        (merge.example_running ++ .inner_error 1 7 :: merge.example_late) :
        merge.merge_state_type _ Nat).out.delivered = [.on_next 1, .on_error 7] :=
  have h := merge_fault_isolation merge.example_values merge.example_running
    merge.example_late (.inner_error 1 7) 7 (Or.inr ⟨1, rfl⟩) (by decide)
  ⟨by decide, by decide, h.1, h.2.2.2⟩

/-- C7. Upstream fault of `concat_map`: when, after any signals `tr`, the
outer source or the active inner stream sends `on_error e` to its subscriber,
then at that step `on_error e`, the same fault, is appended to what the output
observer received; and after any further signals `tr1` the output, the calls
of `selectCollection` and the inner subscribers made are still the same,
whatever the pending queue holds. -/
theorem concat_map_upstream_fault {T Obs U R : Type} (i : concat_map.values T Obs U R)
    (tr tr1 : List (concat_map.signal T U)) (ev : concat_map.signal T U) (e : exception_ptr)
    (hev : ev = .outer_error e ∨ ∃ h, ev = .inner_error h e)
    (hacc : concat_map.accepted (concat_map.run i tr) ev = true) :
    (concat_map.run i (tr ++ [ev])).out.delivered =
        (concat_map.run i tr).out.delivered ++ [.on_error e] ∧
      (concat_map.run i (tr ++ ev :: tr1)).out.delivered =
        (concat_map.run i tr).out.delivered ++ [.on_error e] ∧
      (concat_map.run i (tr ++ ev :: tr1)).collectionCalls =
        (concat_map.run i tr).collectionCalls ∧
      (concat_map.run i (tr ++ ev :: tr1)).subscribers =
        (concat_map.run i tr).subscribers ∧
      (concat_map.run i (tr ++ ev :: tr1)).selectedCollections =
        (concat_map.run i tr).selectedCollections := by
  have c := concat_map.inv_run i tr
  obtain ⟨hd, hs⟩ := concat_map.deliver_fault i c hev hacc
  have h1 : concat_map.run i (tr ++ [ev]) =
      { concat_map.run i tr with out := (concat_map.run i tr).out.on_error e } := by
    rw [concat_map.run_append, List.foldl_cons, List.foldl_nil, hd]
  have h2 : concat_map.run i (tr ++ ev :: tr1) = concat_map.run i (tr ++ [ev]) := by
    rw [concat_map.run_append, List.foldl_cons, hd, concat_map.foldl_dead i (by simp)
      (live_on_error c.1.out_wf e), h1]
  refine ⟨?_, ?_, ?_, ?_, ?_⟩
  · rw [h1]; simp [delivered_on_error, hs]
  · rw [h2, h1]; simp [delivered_on_error, hs]
  · rw [h2, h1]
  · rw [h2, h1]
  · rw [h2, h1]

/-- With item `2` in the pending queue, an error of the inner stream of `1` is
forwarded and item `2` is never projected. -/
theorem concat_map_upstream_fault_witness :
    concat_map.accepted (concat_map.run concat_map.example_values concat_map.example_queued)
        (.inner_error 1 7) = true ∧
      (concat_map.run concat_map.example_values concat_map.example_queued).selectedCollections
        = [2] ∧
      (concat_map.run concat_map.example_values
        (concat_map.example_queued ++ .inner_error 1 7 :: concat_map.example_late)).out.delivered
        = [.on_next 10, .on_error 7] ∧
      (concat_map.run concat_map.example_values
        (concat_map.example_queued ++ .inner_error 1 7 :: concat_map.example_late)).collectionCalls
        = [1] :=
  have h := concat_map_upstream_fault concat_map.example_values concat_map.example_queued
    concat_map.example_late (.inner_error 1 7) 7 (Or.inr ⟨1, rfl⟩) (by decide)
  ⟨by decide, by decide, h.2.1, h.2.2.1⟩

end rxcpp

/-! ## One inner stream at a time, in arrival order -/

namespace rxcpp
open output_type

theorem length_le_one_of_all_eq {l : List Nat} (hn : l.Nodup) {c : Nat}
    (h : ∀ x ∈ l, x = c) : l.length ≤ 1 := by
  cases l with
  | nil => simp
  | cons a l =>
    cases l with
    | nil => simp
    | cons b l =>
      have ha := h a (by simp)
      have hb := h b (by simp)
      rw [List.nodup_cons] at hn
      exact absurd (by simp [ha, hb]) hn.1

namespace concat_map
variable {T Obs U R : Type}

theorem live_subscribe_to_zero (i : values T Obs U R) {s : concat_map_state_type T Obs U R}
    (w : s.out.wf) (hf : 0 < s.out.fresh) (st : T)
    (h0 : 0 ∈ (subscribe_to i s st).out.live) : 0 ∈ s.out.live := by
  rcases live_subscribe_to i w st 0 h0 with h | h
  · exact h
  · omega

theorem ordered_deliver (i : values T Obs U R) {s : concat_map_state_type T Obs U R}
    (c : inv s) {l : List T} (ev : signal T U)
    (h1 : s.collectionCalls ++ s.selectedCollections <+: l)
    (h2 : 0 ∈ s.out.live → s.collectionCalls ++ s.selectedCollections = l) :
    ((deliver i s ev).collectionCalls ++ (deliver i s ev).selectedCollections
        <+: l ++ outer_items [ev]) ∧
      (0 ∈ (deliver i s ev).out.live →
        (deliver i s ev).collectionCalls ++ (deliver i s ev).selectedCollections
          = l ++ outer_items [ev]) := by
  have w := c.1.out_wf
  have hp : s.collectionCalls ++ s.selectedCollections <+: l ++ outer_items [ev] :=
    h1.trans (List.prefix_append _ _)
  refine deliver_cases i c ev (fun s1 =>
    (s1.collectionCalls ++ s1.selectedCollections <+: l ++ outer_items [ev]) ∧
      (0 ∈ s1.out.live → s1.collectionCalls ++ s1.selectedCollections = l ++ outer_items [ev]))
    ?_ ?_ ?_ ?_ ?_ ?_ ?_ ?_ ?_ ?_ ?_ <;> beta_reduce
  · intro ha
    refine ⟨hp, fun h0 => ?_⟩
    cases ev <;>
      simp [accepted, c.1.source, h0, outer_items, signal.item] at ha ⊢ <;> exact h2 h0
  · rintro rfl
    refine ⟨hp, fun h0 => ?_⟩
    simp [live_unsubscribe w] at h0
  · rintro st rfl h0 _
    have := h2 h0
    simp only [outer_items, List.filterMap_cons, signal.item, List.filterMap_nil]
    rw [← List.append_assoc, this]
    exact ⟨List.prefix_rfl, fun _ => rfl⟩
  · rintro st rfl h0 _ hq
    have := h2 h0
    simp only [hq, List.append_nil] at this
    simp only [outer_items, List.filterMap_cons, signal.item, List.filterMap_nil,
      collectionCalls_subscribe_to, selectedCollections_subscribe_to, hq, List.append_nil, this]
    exact ⟨List.prefix_rfl, fun _ => trivial⟩
  · intro e _ _
    refine ⟨hp, fun h0 => ?_⟩
    simp [live_on_error w] at h0
  · intro _ _ _ _
    refine ⟨hp, fun h0 => ?_⟩
    simp [live_on_completed w] at h0
  · intro _ _ _
    refine ⟨hp, fun h0 => ?_⟩
    simp [live_unsubscribe_handle] at h0
  · rintro h st ct rfl _ _ _
    obtain ⟨e1, e2, _, e4⟩ := delivered_inner_on_next i s st ct
    rw [e1, e2]
    refine ⟨hp, fun h0 => ?_⟩
    simpa [outer_items, signal.item] using h2 (e4 0 h0)
  · rintro h rfl _ _ _ _ h0
    refine ⟨hp, fun _ => ?_⟩
    simpa [outer_items, signal.item] using h2 h0
  · intro _ _ _ _ _ _ _
    refine ⟨hp, fun h0 => ?_⟩
    simp [live_on_completed w] at h0
  · rintro h v rest rfl _ _ _ hq
    simp only [collectionCalls_subscribe_to, selectedCollections_subscribe_to]
    rw [hq] at hp h2
    simp only [List.append_assoc, List.singleton_append]
    refine ⟨hp, fun h0 => ?_⟩
    have h00 := live_subscribe_to_zero i (s := { s with
      selectedCollections := rest, out := s.out.unsubscribe_handle (some h) })
      (wf_unsubscribe_handle w (some h)) (by simpa using c.1.fresh_pos) v h0
    simp only [live_unsubscribe_handle, List.mem_filter] at h00
    simpa [outer_items, signal.item] using h2 h00.1

theorem ordered_run (i : values T Obs U R) (tr : List (signal T U)) :
    ((run i tr).collectionCalls ++ (run i tr).selectedCollections <+: outer_items tr) ∧
      (0 ∈ (run i tr).out.live →
        (run i tr).collectionCalls ++ (run i tr).selectedCollections = outer_items tr) := by
  induction tr using List.reverseRecOn with
  | nil =>
    cases hsrc : i.source <;> simp [run, on_subscribe, on_exception, hsrc, outer_items]
  | append_singleton tr ev ih =>
    have := ordered_deliver i (inv_run i tr) ev ih.1 ih.2
    rw [run_append, List.foldl_cons, List.foldl_nil]
    simpa [outer_items] using this

end concat_map

/-- C9. One inner subscription at a time, in arrival order: after any signals
`tr`, at most one handle other than the outer subscription is subscribed; the
outer items of the inner subscribers, in the order the subscribers were made,
are an initial part of the arguments `selectCollection` was called with, in
call order; and those are an initial part of the items the outer source sent,
in arrival order. -/
theorem concat_map_one_at_a_time {T Obs U R : Type} (i : concat_map.values T Obs U R)
    (tr : List (concat_map.signal T U)) :
    ((concat_map.run i tr).out.live.filter
        (fun h => some h ≠ (concat_map.run i tr).sourceLifetime)).length ≤ 1 ∧
      (concat_map.run i tr).subscribers.map (fun p => p.2.1)
        <+: (concat_map.run i tr).collectionCalls ∧
      (concat_map.run i tr).collectionCalls <+: concat_map.outer_items tr := by
  have c := concat_map.inv_run i tr
  refine ⟨?_, ?_, ?_⟩
  · cases hc : (concat_map.run i tr).collectionLifetime with
    | none =>
      refine length_le_one_of_all_eq (c := 0) (c.1.out_wf.nodup.filter _) ?_
      intro x hx
      simp only [List.mem_filter] at hx
      rcases c.1.single x hx.1 with h | h
      · exact h
      · rw [hc] at h; exact absurd h (by simp)
    | some k =>
      refine length_le_one_of_all_eq (c := k) (c.1.out_wf.nodup.filter _) ?_
      intro x hx
      simp only [List.mem_filter, c.1.source] at hx
      rcases c.1.single x hx.1 with h | h
      · simp [h] at hx
      · rw [hc] at h; simpa using h.symm
  · rcases c.1.calls with h | ⟨_, x, h⟩
    · rw [h]
    · rw [h]; exact List.prefix_append _ _
  · exact (List.prefix_append _ _).trans (concat_map.ordered_run i tr).1

end rxcpp

/-! ## When concat_map completes -/

namespace rxcpp
open output_type

namespace concat_map
variable {T Obs U R : Type}

theorem delivered_subscribe_to (i : values T Obs U R) {s : concat_map_state_type T Obs U R}
    (w : s.out.wf) (st : T) :
    (subscribe_to i s st).out.delivered = s.out.delivered ∨
      ∃ e, (subscribe_to i s st).out.delivered = s.out.delivered ++ [.on_error e] := by
  cases h1 : i.selectCollection st with
  | error e =>
    rw [subscribe_to_fault h1]
    cases hs : s.out.subscribed <;> simp [delivered_on_error, hs]
  | ok c1 =>
    cases h2 : i.coordinator c1 with
    | error e =>
      rw [subscribe_to_coordinator_fault h1 h2]
      cases hs : s.out.subscribed <;>
        simp [delivered_on_error, subscribed_new_child w, delivered_new_child w, hs]
    | ok c2 =>
      rw [subscribe_to_ok h1 h2]
      exact Or.inl (delivered_new_child w)

theorem delivered_inner_on_next_cases (i : values T Obs U R)
    (s : concat_map_state_type T Obs U R) (st : T) (ct : U) :
    (inner_on_next i s st ct).out.delivered = s.out.delivered ∨
      (∃ e, (inner_on_next i s st ct).out.delivered = s.out.delivered ++ [.on_error e]) ∨
      ∃ r, (inner_on_next i s st ct).out.delivered = s.out.delivered ++ [.on_next r] := by
  cases hr : i.selectResult st ct with
  | error e =>
    rw [inner_on_next_fault hr]
    cases hs : s.out.subscribed <;> simp [delivered_on_error, hs]
  | ok r =>
    rw [inner_on_next_ok hr]
    cases hs : s.out.subscribed <;> simp [delivered_on_next, hs]

end concat_map

/-- C3. Completion gating of `concat_map`: let `ev` be a signal that is
accepted after any signals `tr`.  `on_completed` is appended to the output at
this step exactly when either `ev` is the completion of the outer source and
no inner subscription is active and the pending queue is empty, or `ev` is the
completion of an inner stream, the queue is empty and the outer source has
completed already.  When an inner stream completes with an empty queue while
the outer source is still subscribed, the output does not change. -/
theorem concat_map_completion_gating {T Obs U R : Type} (i : concat_map.values T Obs U R)
    (tr : List (concat_map.signal T U)) (ev : concat_map.signal T U)
    (hacc : concat_map.accepted (concat_map.run i tr) ev = true) :
    ((concat_map.run i (tr ++ [ev])).out.delivered =
        (concat_map.run i tr).out.delivered ++ [.on_completed] ↔
      (ev = .outer_completed ∧
        (concat_map.run i tr).out.is_subscribed (concat_map.run i tr).collectionLifetime = false ∧
        (concat_map.run i tr).selectedCollections = []) ∨
      ((∃ h, ev = .inner_completed h) ∧
        (concat_map.run i tr).selectedCollections = [] ∧
        (concat_map.run i tr).out.is_subscribed (concat_map.run i tr).sourceLifetime = false)) ∧
    ((∃ h, ev = .inner_completed h) →
      (concat_map.run i tr).selectedCollections = [] →
      (concat_map.run i tr).out.is_subscribed (concat_map.run i tr).sourceLifetime = true →
      (concat_map.run i (tr ++ [ev])).out.delivered = (concat_map.run i tr).out.delivered) := by
  have c := concat_map.inv_run i tr
  have w := c.1.out_wf
  rw [concat_map.run_append, List.foldl_cons, List.foldl_nil]
  generalize concat_map.run i tr = s at *
  refine concat_map.deliver_cases i c ev (fun s1 =>
    (s1.out.delivered = s.out.delivered ++ [.on_completed] ↔
      (ev = .outer_completed ∧ s.out.is_subscribed s.collectionLifetime = false ∧
        s.selectedCollections = []) ∨
      ((∃ h, ev = .inner_completed h) ∧ s.selectedCollections = [] ∧
        s.out.is_subscribed s.sourceLifetime = false)) ∧
    ((∃ h, ev = .inner_completed h) → s.selectedCollections = [] →
      s.out.is_subscribed s.sourceLifetime = true → s1.out.delivered = s.out.delivered))
    ?_ ?_ ?_ ?_ ?_ ?_ ?_ ?_ ?_ ?_ ?_ <;> beta_reduce
  · intro ha; rw [ha] at hacc; exact absurd hacc (by simp)
  · rintro rfl; simp
  · rintro st rfl _ _; simp
  · rintro st rfl _ _ _
    rcases concat_map.delivered_subscribe_to i w st with h | ⟨e, h⟩ <;> simp [h]
  · rintro e (rfl | ⟨h, rfl⟩) hs <;> simp [delivered_on_error, hs]
  · rintro rfl h0 hb hq
    simp [delivered_on_completed, subscribed_of_live w h0, hb, hq]
  · rintro rfl h0 hb
    simp [hb]
  · rintro h st ct rfl _ _ _
    rcases concat_map.delivered_inner_on_next_cases i s st ct with h | ⟨e, h⟩ | ⟨r, h⟩ <;>
      simp [h]
  · rintro h rfl _ _ _ hq h0
    simp [c.1.source, h0]
  · rintro h rfl _ hl _ hq h0
    simp [delivered_on_completed, subscribed_of_live w hl, hq, c.1.source, h0]
  · rintro h v rest rfl _ _ _ hq
    have hw : (s.out.unsubscribe_handle (some h)).wf := wf_unsubscribe_handle w _
    rcases concat_map.delivered_subscribe_to i (s := { s with
      selectedCollections := rest, out := s.out.unsubscribe_handle (some h) }) hw v
      with h | ⟨e, h⟩ <;> simp [h, hq]

/-- In `concat_map.example_open` the outer source has completed and the queue
is empty; `on_completed` is delivered at the step where the inner stream of `2`
completes. -/
theorem concat_map_completion_gating_witness :
    concat_map.accepted (concat_map.run concat_map.example_values concat_map.example_open)
        (.inner_completed 2) = true ∧
      (concat_map.run concat_map.example_values
          (concat_map.example_open ++ [.inner_completed 2])).out.delivered =
        (concat_map.run concat_map.example_values concat_map.example_open).out.delivered
          ++ [.on_completed] :=
  have h := concat_map_completion_gating concat_map.example_values concat_map.example_open
    (.inner_completed 2) (by decide)
  ⟨by decide, h.1.2 (Or.inr ⟨⟨2, rfl⟩, by decide, by decide⟩)⟩

end rxcpp

/-! ## What merge forwards -/

namespace rxcpp
open output_type

theorem values_of_output_append {R : Type} (l l1 : List (notification R)) :
    values_of_output (l ++ l1) = values_of_output l ++ values_of_output l1 := by
  simp [values_of_output]

theorem perm_flatMap_insert {R : Type} (H : List Nat) (hn : H.Nodup) (k : Nat) (hk : k ∈ H)
    (v : R) (f : Nat → List R) :
    List.Perm (H.flatMap (fun h => if k = h then v :: f h else f h)) (v :: H.flatMap f) := by
  induction H with
  | nil => simp at hk
  | cons a H ih =>
    rw [List.nodup_cons] at hn
    simp only [List.flatMap_cons]
    by_cases hka : k = a
    · subst hka
      have : H.flatMap (fun h => if k = h then v :: f h else f h) = H.flatMap f := by
        apply List.flatMap_congr
        intro h hh
        have : k ≠ h := fun e => hn.1 (e ▸ hh)
        simp [this]
      simp [this]
    · have hk2 : k ∈ H := by
        rcases List.mem_cons.1 hk with h | h
        · exact absurd h hka
        · exact h
      simp only [hka, if_false]
      exact (List.Perm.append_left _ (ih hn.2 hk2)).trans List.perm_middle

namespace merge
variable {Obs R : Type}

theorem accepted_from_append_merge (i : values Obs) (s : merge_state_type Obs R)
    (tr tr1 : List (signal Obs R)) :
    accepted_from i s (tr ++ tr1) =
      (accepted_from i s tr && accepted_from i (tr.foldl (deliver i) s) tr1) := by
  induction tr generalizing s with
  | nil => simp [accepted_from]
  | cons ev tr ih => simp [accepted_from, ih, Bool.and_assoc]

theorem accepted_run_append_merge (i : values Obs) (tr : List (signal Obs R)) (ev : signal Obs R) :
    accepted_run i (tr ++ [ev]) = (accepted_run i tr && accepted (run i tr) ev) := by
  simp [accepted_run, accepted_from_append_merge, accepted_from, run]

theorem delivered_outer_on_next (i : values Obs) {s : merge_state_type Obs R} (w : s.out.wf)
    (st : Obs) :
    (outer_on_next i s st).out.delivered = s.out.delivered ∨
      ∃ e, (outer_on_next i s st).out.delivered = s.out.delivered ++ [.on_error e] := by
  cases hco : i.coordinator st with
  | error e =>
    rw [outer_on_next_fault hco]
    cases hs : s.out.subscribed <;>
      simp [delivered_on_error, subscribed_new_child w, delivered_new_child w, hs]
  | ok c =>
    rw [outer_on_next_ok hco]
    exact Or.inl (delivered_new_child w)

theorem values_deliver (i : values Obs) {s : merge_state_type Obs R} (c : inv s)
    (ev : signal Obs R) (hacc : accepted s ev = true) :
    values_of_output (deliver i s ev).out.delivered =
      values_of_output s.out.delivered ++ all_values [ev] := by
  have w := c.out_wf
  refine deliver_cases_merge i c ev (fun s1 => values_of_output s1.out.delivered =
    values_of_output s.out.delivered ++ all_values [ev]) ?_ ?_ ?_ ?_ ?_ ?_ ?_ ?_ ?_
    <;> beta_reduce
  · intro ha; rw [ha] at hacc; exact absurd hacc (by simp)
  · rintro rfl; simp [all_values, signal.value]
  · rintro st rfl _
    rcases delivered_outer_on_next i w st with h | ⟨e, h⟩ <;>
      simp [h, all_values, signal.value, values_of_output, notification.value]
  · rintro e (rfl | ⟨h, rfl⟩) hs <;>
      simp [delivered_on_error, hs, all_values, signal.value, values_of_output,
        notification.value]
  · rintro rfl h0 _
    simp [delivered_on_completed, subscribed_of_live w h0, all_values, signal.value,
      values_of_output, notification.value]
  · rintro rfl _ _
    simp [all_values, signal.value]
  · rintro h ct rfl _ hl
    simp [delivered_on_next, subscribed_of_live w hl, all_values, signal.value,
      values_of_output, notification.value]
  · rintro h rfl _ hl _
    simp [delivered_on_completed, subscribed_of_live w hl, all_values, signal.value,
      values_of_output, notification.value]
  · rintro h rfl _ _ _
    simp [all_values, signal.value]

theorem values_run (i : values Obs) (tr : List (signal Obs R))
    (hacc : accepted_run i tr = true) :
    values_of_output (run i tr).out.delivered = all_values tr := by
  induction tr using List.reverseRecOn with
  | nil =>
    cases hsrc : i.source <;>
      simp [run, on_subscribe, on_exception, hsrc, all_values, values_of_output, start, create,
        add, on_error, output_type.unsubscribe, notification.value]
  | append_singleton tr ev ih =>
    rw [accepted_run_append_merge, Bool.and_eq_true] at hacc
    rw [run_append_merge, List.foldl_cons, List.foldl_nil, values_deliver i (inv_run_merge i tr) ev hacc.2,
      ih hacc.1]
    simp [all_values]

theorem inner_values_sublist (h : Nat) (tr : List (signal Obs R)) :
    List.Sublist (inner_values h tr) (all_values tr) := by
  induction tr with
  | nil => simp [inner_values, all_values]
  | cons ev tr ih =>
    cases ev with
    | inner_next h1 ct =>
      by_cases hh : h1 = h
      · simpa [inner_values, all_values, signal.value, signal.value_of, hh] using ih
      · simpa [inner_values, all_values, signal.value, signal.value_of, hh] using
          ih.trans (List.sublist_cons_self _ _)
    | _ => simpa [inner_values, all_values, signal.value, signal.value_of] using ih

theorem all_values_perm (tr : List (signal Obs R)) (H : List Nat) (hn : H.Nodup)
    (hH : ∀ h ∈ tr.filterMap signal.stream, h ∈ H) :
    List.Perm (all_values tr) (H.flatMap (fun h => inner_values h tr)) := by
  induction tr with
  | nil => simp [all_values, inner_values]
  | cons ev tr ih =>
    cases ev with
    | inner_next k v =>
      have hk : k ∈ H := hH k (by simp [signal.stream])
      have ih2 := ih (fun h hh => hH h (by
        simp only [List.filterMap_cons, signal.stream]
        exact List.mem_cons_of_mem _ hh))
      have e : (fun h => inner_values h (signal.inner_next k v :: tr)) =
          fun h => if k = h then v :: inner_values h tr else inner_values h tr := by
        funext h
        by_cases hh : k = h <;> simp [inner_values, signal.value_of, hh]
      rw [e]
      refine List.Perm.trans ?_ (perm_flatMap_insert H hn k hk v _).symm
      simpa [all_values, signal.value] using ih2
    | _ =>
      simpa [all_values, inner_values, signal.value, signal.value_of, signal.stream] using
        ih (fun h hh => hH h (by simpa [signal.stream] using hh))

end merge

/-- C8. Forwarding of `merge`: in a run `tr` in which every signal is accepted
when it is sent, an inner `on_next v` that is accepted next appends exactly
`on_next v` to the output at that step; the values the output observer
received are, in order, the values of the inner `on_next` signals in arrival
order, each once and unchanged, and nothing else; the values of any one inner
stream `h` appear in it in that stream's order; and as a multiset the output is
the union of the values of the inner streams. -/
theorem merge_forwarding {Obs R : Type} (i : merge.values Obs) (tr : List (merge.signal Obs R))
    (hacc : merge.accepted_run i tr = true) :
    (∀ h v, merge.accepted (merge.run i tr) (.inner_next h v) = true →
        (merge.run i (tr ++ [.inner_next h v])).out.delivered =
          (merge.run i tr).out.delivered ++ [.on_next v]) ∧
      values_of_output (merge.run i tr).out.delivered = merge.all_values tr ∧
      (∀ h, List.Sublist (merge.inner_values h tr)
        (values_of_output (merge.run i tr).out.delivered)) ∧
      List.Perm (values_of_output (merge.run i tr).out.delivered)
        ((merge.streams tr).flatMap (fun h => merge.inner_values h tr)) := by
  have h1 := merge.values_run i tr hacc
  refine ⟨?_, h1, ?_, ?_⟩
  · intro h v ha
    have c := merge.inv_run_merge i tr
    simp only [merge.accepted, is_subscribed_some, Bool.and_eq_true, decide_eq_true_eq] at ha
    rw [merge.run_append_merge, List.foldl_cons, List.foldl_nil,
      merge.deliver_inner_next_merge i ha.1 ha.2]
    simp [delivered_on_next, subscribed_of_live c.out_wf ha.2]
  · intro h; rw [h1]; exact merge.inner_values_sublist h tr
  · rw [h1]
    exact merge.all_values_perm tr _ (List.nodup_dedup _) (fun h hh => List.mem_dedup.2 hh)

/-- The run of `merge.example_run`: `A = [1, 2]` and `B = [3]` give `1, 3, 2`,
the multiset `{1, 2, 3}`. -/
theorem merge_forwarding_witness :
    merge.accepted_run merge.example_values
        (merge.example_run : List (merge.signal (List Nat) Nat)) = true ∧
      values_of_output (merge.run merge.example_values merge.example_run :
        merge.merge_state_type (List Nat) Nat).out.delivered = [1, 3, 2] ∧
      List.Perm (values_of_output (merge.run merge.example_values merge.example_run :
        merge.merge_state_type (List Nat) Nat).out.delivered)
        ((merge.streams (merge.example_run : List (merge.signal (List Nat) Nat))).flatMap
          (fun h => merge.inner_values h merge.example_run)) ∧
      (merge.streams (merge.example_run : List (merge.signal (List Nat) Nat))).flatMap
          (fun h => merge.inner_values h merge.example_run) = [3, 1, 2] :=
  have h := merge_forwarding merge.example_values
    (merge.example_run : List (merge.signal (List Nat) Nat)) (by decide)
  ⟨by decide, h.2.1, h.2.2.2, by decide⟩

end rxcpp

/-! ## When merge completes -/

namespace rxcpp
open output_type

theorem eq_singleton_of_length_one {l : List Nat} {x : Nat} (h : l.length = 1) (hx : x ∈ l) :
    l = [x] := by
  match l, h with
  | [a], _ => simp at hx; rw [hx]

theorem exists_ne_of_length_ne_one {l : List Nat} (hn : l.Nodup) {x : Nat}
    (h : l.length ≠ 1) (hx : x ∈ l) : ∃ y ∈ l, y ≠ x := by
  match l, hn, h, hx with
  | [a], _, h, _ => simp at h
  | a :: b :: l, hn, _, hx =>
    by_cases ha : a = x
    · refine ⟨b, by simp, ?_⟩
      rintro rfl
      rw [List.nodup_cons] at hn
      exact hn.1 (by simp [ha])
    · exact ⟨a, by simp, ha⟩

namespace merge
variable {Obs R : Type}

theorem is_inner_iff {s : merge_state_type Obs R} {h : Nat} :
    is_inner s h = true ↔ ∃ p ∈ s.subscribers, p.1 = h := by
  simp [is_inner]

theorem subscribed_of_accepted_merge {s : merge_state_type Obs R} (c : inv s) {ev : signal Obs R}
    (ha : accepted s ev = true) (hb : ev.benign = true) : s.out.subscribed = true := by
  cases ev with
  | unsubscribe => simp [signal.benign] at hb
  | outer_error e => simp [signal.benign] at hb
  | inner_error h e => simp [signal.benign] at hb
  | outer_next st =>
    simp only [accepted, c.outer, is_subscribed_some, decide_eq_true_eq] at ha
    exact subscribed_of_live c.out_wf ha
  | outer_completed =>
    simp only [accepted, c.outer, is_subscribed_some, decide_eq_true_eq] at ha
    exact subscribed_of_live c.out_wf ha
  | inner_next h ct =>
    simp only [accepted, is_subscribed_some, Bool.and_eq_true, decide_eq_true_eq] at ha
    exact subscribed_of_live c.out_wf ha.2
  | inner_completed h =>
    simp only [accepted, is_subscribed_some, Bool.and_eq_true, decide_eq_true_eq] at ha
    exact subscribed_of_live c.out_wf ha.2

theorem alive_deliver (i : values Obs) (hco : ∀ st, ∃ c, i.coordinator st = .ok c)
    {s : merge_state_type Obs R} (c : inv s) {tr : List (signal Obs R)} (a : alive tr s)
    (ev : signal Obs R) (hacc : accepted s ev = true) (hb : ev.benign = true)
    (hs : (deliver i s ev).out.subscribed = true) : alive (tr ++ [ev]) (deliver i s ev) := by
  have w := c.out_wf
  have hsub := subscribed_of_accepted_merge c hacc hb
  revert hs
  refine deliver_cases_merge i c ev (fun s1 => s1.out.subscribed = true → alive (tr ++ [ev]) s1)
    ?_ ?_ ?_ ?_ ?_ ?_ ?_ ?_ ?_ <;> beta_reduce
  · intro ha; rw [ha] at hacc; exact absurd hacc (by simp)
  · rintro rfl; simp [signal.benign] at hb
  · rintro st rfl h0 _
    obtain ⟨c2, hc2⟩ := hco st
    rw [outer_on_next_ok hc2]
    have hl : s.out.new_child.live = s.out.live ++ [s.out.fresh] := by
      rw [live_new_child w, hsub]; rfl
    refine ⟨?_, ?_, ?_⟩
    · simp [hl, h0, a.outer.1 h0]
    · intro p hp
      simp only [List.mem_append, List.mem_singleton] at hp
      rcases hp with hp | hp
      · have hb1 := c.subs p hp
        have : p.1 ≠ s.out.fresh := by omega
        simp [hl, this, a.inner p hp]
      · subst hp
        simp [hl, a.later s.out.fresh (le_refl _)]
    · intro h hh
      simp only [fresh_new_child w] at hh
      simp [a.later h (by omega)]
  · rintro e (rfl | ⟨h, rfl⟩) _ <;> simp [signal.benign] at hb
  · rintro rfl _ _ hs; simp at hs
  · rintro rfl h0 _ _
    refine ⟨?_, ?_, ?_⟩
    · simp [live_unsubscribe_handle]
    · intro p hp
      have hb1 := c.subs p hp
      have : p.1 ≠ 0 := by omega
      simp [live_unsubscribe_handle, this, a.inner p hp]
    · intro h hh
      simp only [fresh_unsubscribe_handle] at hh
      simp [a.later h hh]
  · rintro h ct rfl _ _ _
    refine ⟨?_, ?_, ?_⟩
    · simp [a.outer]
    · intro p hp
      simp [a.inner p hp]
    · intro x hx
      simp only [fresh_on_next] at hx
      simp [a.later x hx]
  · rintro h rfl _ _ _ hs; simp at hs
  · rintro h rfl hi hl _ _
    obtain ⟨q, hq, hq2⟩ := is_inner_iff.1 hi
    have hqb := c.subs q hq
    refine ⟨?_, ?_, ?_⟩
    · have : (0 : Nat) ≠ h := by omega
      simp [live_unsubscribe_handle, this, a.outer]
    · intro p hp
      by_cases hph : p.1 = h
      · simp [live_unsubscribe_handle, hph]
      · simp [live_unsubscribe_handle, hph, a.inner p hp]
    · intro x hx
      simp only [fresh_unsubscribe_handle] at hx
      have := w.bound h hl
      have hne : x ≠ h := by omega
      simp [a.later x hx, hne]

theorem alive_run (i : values Obs) (hsrc : i.source = .ok ())
    (hco : ∀ st, ∃ c, i.coordinator st = .ok c) (tr : List (signal Obs R))
    (hacc : accepted_run i tr = true) (hben : ∀ x ∈ tr, x.benign = true)
    (hs : (run i tr).out.subscribed = true) : alive tr (run i tr) := by
  induction tr using List.reverseRecOn with
  | nil =>
    refine ⟨?_, ?_, ?_⟩ <;>
      simp [run, on_subscribe, on_exception, hsrc, start, create, add]
  | append_singleton tr ev ih =>
    rw [accepted_run_append_merge, Bool.and_eq_true] at hacc
    have hb : ev.benign = true := hben ev (by simp)
    have c := inv_run_merge i tr
    have hsub := subscribed_of_accepted_merge c hacc.2 hb
    have a := ih hacc.1 (fun x hx => hben x (by simp [hx])) hsub
    rw [run_append_merge, List.foldl_cons, List.foldl_nil] at hs ⊢
    exact alive_deliver i hco c a ev hacc.2 hb hs

theorem int32_eq_one {n : Nat} (h : n ≤ 4294967296) : int32 n = 1 ↔ n = 1 := by
  unfold int32; omega

theorem outer_items_snoc (tr : List (signal Obs R)) (ev : signal Obs R) :
    outer_items (tr ++ [ev]) = outer_items tr ++ (signal.item ev).toList := by
  simp only [outer_items, List.filterMap_append]
  cases hv : signal.item ev <;> simp [List.filterMap_cons, hv]

theorem live_length_le {s : merge_state_type Obs R} (c : inv s) :
    s.out.live.length ≤ s.subscribers.length + 1 := by
  have hsub : s.out.live ⊆ 0 :: s.subscribers.map Prod.fst := by
    intro h hh
    rcases c.inner h hh with h0 | hi
    · simp [h0]
    · obtain ⟨p, hp, rfl⟩ := is_inner_iff.1 hi
      exact List.mem_cons_of_mem _ (List.mem_map_of_mem _ hp)
  have := (List.subperm_of_subset c.out_wf.nodup hsub).length_le
  simpa using this

/-- In a run without a fault the operator has subscribed to every inner stream
the outer source emitted, the `k`-th under the handle `k`. -/
theorem named_run (i : values Obs) (hsrc : i.source = .ok ())
    (hco : ∀ st, ∃ c, i.coordinator st = .ok c) (tr : List (signal Obs R))
    (hacc : accepted_run i tr = true) (hben : ∀ x ∈ tr, x.benign = true) :
    (run i tr).subscribers.map (fun p => (p.1, (Except.ok p.2 : Except exception_ptr Obs))) =
        List.enumFrom 1 ((outer_items tr).map i.coordinator) ∧
      ((run i tr).out.subscribed = true →
        (run i tr).out.fresh = (run i tr).subscribers.length + 1) := by
  induction tr using List.reverseRecOn with
  | nil => simp [run, on_subscribe, on_exception, hsrc, start, create, add, outer_items]
  | append_singleton tr ev ih =>
    rw [accepted_run_append_merge, Bool.and_eq_true] at hacc
    have hb : ev.benign = true := hben ev (by simp)
    have c := inv_run_merge i tr
    have w := c.out_wf
    have hsub := subscribed_of_accepted_merge c hacc.2 hb
    obtain ⟨h1, h2⟩ := ih hacc.1 (fun x hx => hben x (by simp [hx]))
    have hfr := h2 hsub
    have hacc2 := hacc.2
    rw [run_append_merge, List.foldl_cons, List.foldl_nil, outer_items_snoc]
    generalize run i tr = s at *
    refine deliver_cases_merge i c ev (fun s1 =>
      s1.subscribers.map (fun p => (p.1, (Except.ok p.2 : Except exception_ptr Obs))) =
          List.enumFrom 1 ((outer_items tr ++ (signal.item ev).toList).map i.coordinator) ∧
        (s1.out.subscribed = true → s1.out.fresh = s1.subscribers.length + 1))
      ?_ ?_ ?_ ?_ ?_ ?_ ?_ ?_ ?_ <;> beta_reduce
    · intro ha; rw [ha] at hacc2; exact absurd hacc2 (by simp)
    · rintro rfl; simp [signal.benign] at hb
    · rintro st rfl _
      obtain ⟨c2, hc2⟩ := hco st
      rw [outer_on_next_ok hc2]
      refine ⟨?_, fun _ => by simp [fresh_new_child w, hfr]⟩
      simp only [signal.item, Option.toList, List.map_append, List.map_cons, List.map_nil,
        List.enumFrom_append, List.enumFrom_singleton, List.length_map, h1, hc2, hfr]
      have hlen := congrArg List.length h1
      simp only [List.length_map, List.enumFrom_length] at hlen
      rw [hlen, Nat.add_comm 1]
    · rintro e (rfl | ⟨h, rfl⟩) _ <;> simp [signal.benign] at hb
    · rintro rfl _ _
      exact ⟨by simpa [signal.item] using h1, fun hs => by simp at hs⟩
    · rintro rfl _ _
      exact ⟨by simpa [signal.item] using h1, fun _ => by simpa using hfr⟩
    · rintro h ct rfl _ _
      exact ⟨by simpa [signal.item] using h1, fun _ => by simpa using hfr⟩
    · rintro h rfl _ _ _
      exact ⟨by simpa [signal.item] using h1, fun hs => by simp at hs⟩
    · rintro h rfl _ _ _
      exact ⟨by simpa [signal.item] using h1, fun _ => by simpa using hfr⟩

theorem keys_named {i : values Obs} {s : merge_state_type Obs R} {l : List Obs}
    (h : s.subscribers.map (fun p => (p.1, (Except.ok p.2 : Except exception_ptr Obs))) =
      List.enumFrom 1 (l.map i.coordinator)) :
    s.subscribers.map Prod.fst = List.range' 1 l.length := by
  have := congrArg (List.map Prod.fst) h
  simpa [List.enumFrom_map_fst, Function.comp_def] using this

/-- The step of `merge_completion_gating` in terms of the subscribers. -/
theorem completion_step (i : values Obs) (tr : List (signal Obs R)) (ev : signal Obs R)
    (hsrc : i.source = .ok ()) (hco : ∀ st, ∃ c, i.coordinator st = .ok c)
    (hacc : accepted_run i (tr ++ [ev]) = true)
    (hben : ∀ x ∈ tr ++ [ev], x.benign = true)
    (hbound : (outer_items tr).length < 4294967296) :
    (run i (tr ++ [ev])).out.delivered = (run i tr).out.delivered ++ [.on_completed] ↔
      all_completed (run i (tr ++ [ev])) (tr ++ [ev]) := by
  rw [accepted_run_append_merge, Bool.and_eq_true] at hacc
  have hb : ev.benign = true := hben ev (by simp)
  have hben1 : ∀ x ∈ tr, x.benign = true := fun x hx => hben x (by simp [hx])
  have c := inv_run_merge i tr
  have w := c.out_wf
  have hsub := subscribed_of_accepted_merge c hacc.2 hb
  have a := alive_run i hsrc hco tr hacc.1 hben1 hsub
  have hpc := c.counter hsub
  have hkeys := keys_named (named_run i hsrc hco tr hacc.1 hben1).1
  have hlen : (run i tr).out.live.length ≤ 4294967296 := by
    have h1 := live_length_le c
    have h2 := congrArg List.length hkeys
    simp only [List.length_map, List.length_range'] at h2
    omega
  have hone := int32_eq_one hlen
  rw [← hpc] at hone
  rw [run_append_merge, List.foldl_cons, List.foldl_nil]
  have hacc2 := hacc.2
  clear hkeys hlen hpc
  generalize run i tr = s at *
  refine deliver_cases_merge i c ev (fun s1 =>
    s1.out.delivered = s.out.delivered ++ [.on_completed] ↔ all_completed s1 (tr ++ [ev]))
    ?_ ?_ ?_ ?_ ?_ ?_ ?_ ?_ ?_ <;> beta_reduce
  · intro ha; rw [ha] at hacc2; exact absurd hacc2 (by simp)
  · rintro rfl; simp [signal.benign] at hb
  · rintro st rfl h0
    obtain ⟨c2, hc2⟩ := hco st
    rw [outer_on_next_ok hc2]
    simp [all_completed, delivered_new_child w, a.outer.1 h0]
  · rintro e (rfl | ⟨h, rfl⟩) _ <;> simp [signal.benign] at hb
  · rintro rfl h0 hp
    have hl : s.out.live = [0] := eq_singleton_of_length_one (hone.1 hp) h0
    simp only [delivered_on_completed, hsub, if_true, true_iff, all_completed]
    refine ⟨by simp, ?_⟩
    intro p hp
    have hb1 := c.subs p hp
    have hnl : p.1 ∉ s.out.live := by rw [hl]; simp; omega
    have := (a.inner p hp).not.1 hnl
    simp only [not_not] at this
    simp [this]
  · rintro rfl h0 hp
    obtain ⟨y, hy, hy0⟩ := exists_ne_of_length_ne_one w.nodup
      (fun h => hp (hone.2 h)) h0
    rcases c.inner y hy with h | h
    · exact absurd h hy0
    · obtain ⟨q, hq, hq2⟩ := is_inner_iff.1 h
      have := (a.inner q hq).1 (hq2 ▸ hy)
      rw [delivered_unsubscribe_handle]
      constructor
      · intro h; simp at h
      · rintro ⟨_, h2⟩
        have := h2 q hq
        simp_all
  · rintro h ct rfl hi hl
    obtain ⟨q, hq, hq2⟩ := is_inner_iff.1 hi
    have := (a.inner q hq).1 (hq2 ▸ hl)
    simp only [delivered_on_next, hsub, if_true, all_completed]
    constructor
    · intro h; simp at h
    · rintro ⟨_, h2⟩
      have := h2 q hq
      simp_all
  · rintro h rfl hi hl hp
    have hll : s.out.live = [h] := eq_singleton_of_length_one (hone.1 hp) hl
    obtain ⟨q, hq, hq2⟩ := is_inner_iff.1 hi
    have hqb := c.subs q hq
    have h0 : (0 : Nat) ∉ s.out.live := by rw [hll]; simp; omega
    have ho := a.outer.not.1 h0
    simp only [not_not] at ho
    simp only [delivered_on_completed, hsub, if_true, true_iff, all_completed]
    refine ⟨by simp [ho], ?_⟩
    intro p hp
    by_cases hph : p.1 = h
    · simp [hph]
    · have hnl : p.1 ∉ s.out.live := by rw [hll]; simpa using hph
      have := (a.inner p hp).not.1 hnl
      simp only [not_not] at this
      simp [this]
  · rintro h rfl hi hl hp
    obtain ⟨y, hy, hyh⟩ := exists_ne_of_length_ne_one w.nodup
      (fun h => hp (hone.2 h)) hl
    rw [delivered_unsubscribe_handle]
    constructor
    · intro h; simp at h
    · rintro ⟨h1, h2⟩
      rcases c.inner y hy with h0 | hin
      · subst h0
        have := a.outer.1 hy
        simp_all
      · obtain ⟨q, hq, hq2⟩ := is_inner_iff.1 hin
        have := (a.inner q hq).1 (hq2 ▸ hy)
        have := h2 q hq
        simp_all

end merge

namespace merge
variable {Obs R : Type}

/-- The run in which the outer source emits the same inner stream `n` times and
nothing else happens. -/
theorem run_replicate (i : values Obs) (st c : Obs) (hsrc : i.source = .ok ())
    (hc : i.coordinator st = .ok c) (n : Nat) :
    accepted_run i (List.replicate n (signal.outer_next st) : List (signal Obs R)) = true ∧
      (run i (List.replicate n (signal.outer_next st)) :
        merge_state_type Obs R).pendingCompletions = int32 (n + 1) ∧
      (run i (List.replicate n (signal.outer_next st)) :
        merge_state_type Obs R).out.subscribed = true ∧
      0 ∈ (run i (List.replicate n (signal.outer_next st)) : merge_state_type Obs R).out.live ∧
      (run i (List.replicate n (signal.outer_next st)) :
        merge_state_type Obs R).out.delivered = [] ∧
      (run i (List.replicate n (signal.outer_next st)) :
        merge_state_type Obs R).subscribers.length = n := by
  induction n with
  | zero =>
    refine ⟨rfl, ?_, ?_, ?_, ?_, ?_⟩ <;>
      simp [run, on_subscribe, on_exception, hsrc, start, create, add]
  | succ n ih =>
    obtain ⟨h1, h2, h3, h4, h5, h6⟩ := ih
    have c1 := inv_run_merge (R := R) i (List.replicate n (signal.outer_next st))
    have w := c1.out_wf
    rw [List.replicate_succ', accepted_run_append_merge, run_append_merge, List.foldl_cons,
      List.foldl_nil, deliver_outer_next i c1 h4, outer_on_next_ok hc]
    refine ⟨?_, ?_, ?_, ?_, ?_, ?_⟩
    · simp [h1, accepted, c1.outer, h4]
    · simp only [h2, int32_succ]
      push_cast
      rfl
    · simp [subscribed_new_child w, h3]
    · simp [live_new_child w, h3, h4]
    · simp [delivered_new_child w, h5]
    · simp [h6]

theorem outer_items_replicate (st : Obs) (n : Nat) :
    (outer_items (List.replicate n (signal.outer_next st) : List (signal Obs R))).length = n := by
  rw [outer_items, List.filterMap_replicate_of_some (f := signal.item)
    (a := signal.outer_next st) (b := st) rfl, List.length_replicate]

/-- When the counter has come round to `1` with inner streams still running, the
completion of the outer source delivers `on_completed`. -/
theorem completed_at_wrap (i : values Obs) (st c : Obs) (hsrc : i.source = .ok ())
    (hc : i.coordinator st = .ok c) (n : Nat) (hn : int32 (n + 1) = 1) (hpos : 0 < n) :
    accepted_run i (List.replicate n (signal.outer_next st) ++ [.outer_completed] :
        List (signal Obs R)) = true ∧
      (∀ x ∈ (List.replicate n (signal.outer_next st) ++ [.outer_completed] :
        List (signal Obs R)), x.benign = true) ∧
      (run i (List.replicate n (signal.outer_next st) ++ [.outer_completed]) :
          merge_state_type Obs R).out.delivered =
        (run i (List.replicate n (signal.outer_next st)) :
          merge_state_type Obs R).out.delivered ++ [.on_completed] ∧
      ¬ emitted_completed (List.replicate n (signal.outer_next st) ++ [.outer_completed] :
        List (signal Obs R)) := by
  obtain ⟨h1, h2, h3, h4, h5, h6⟩ := run_replicate (R := R) i st c hsrc hc n
  have c1 := inv_run_merge (R := R) i (List.replicate n (signal.outer_next st))
  refine ⟨?_, ?_, ?_, ?_⟩
  · rw [accepted_run_append_merge, h1]
    simp [accepted, c1.outer, h4]
  · intro x hx
    simp only [List.mem_append, List.mem_replicate, List.mem_singleton] at hx
    rcases hx with ⟨_, rfl⟩ | rfl <;> rfl
  · rw [run_append_merge, List.foldl_cons, List.foldl_nil,
      deliver_outer_completed_last i c1 h4 (h2.trans hn)]
    simp [delivered_on_completed, h3]
  · rintro ⟨_, h⟩
    have hlen : (outer_items (List.replicate n (signal.outer_next st) ++ [.outer_completed] :
        List (signal Obs R))).length = n := by
      rw [outer_items_snoc, List.length_append, outer_items_replicate]
      rfl
    have := h 1 (le_refl _) (by rw [hlen]; exact hpos)
    simp only [List.mem_append, List.mem_replicate, List.mem_singleton] at this
    rcases this with ⟨_, h⟩ | h <;> cases h

end merge

end rxcpp

/-! ## The output of concat_map -/

namespace rxcpp
open output_type

namespace concat_map
variable {T Obs U R : Type}

theorem accepted_from_append (i : values T Obs U R) (s : concat_map_state_type T Obs U R)
    (tr tr1 : List (signal T U)) :
    accepted_from i s (tr ++ tr1) =
      (accepted_from i s tr && accepted_from i (tr.foldl (deliver i) s) tr1) := by
  induction tr generalizing s with
  | nil => simp [accepted_from]
  | cons ev tr ih => simp [accepted_from, ih, Bool.and_assoc]

theorem accepted_run_append (i : values T Obs U R) (tr : List (signal T U)) (ev : signal T U) :
    accepted_run i (tr ++ [ev]) = (accepted_run i tr && accepted (run i tr) ev) := by
  simp [accepted_run, accepted_from_append, accepted_from, run]

theorem subscribed_of_accepted {s : concat_map_state_type T Obs U R} (c : inv s)
    {ev : signal T U} (ha : accepted s ev = true) (hb : ev.benign = true) :
    s.out.subscribed = true := by
  cases ev with
  | unsubscribe => simp [signal.benign] at hb
  | outer_error e => simp [signal.benign] at hb
  | inner_error h e => simp [signal.benign] at hb
  | outer_next st =>
    simp only [accepted, c.1.source, is_subscribed_some, decide_eq_true_eq] at ha
    exact subscribed_of_live c.1.out_wf ha
  | outer_completed =>
    simp only [accepted, c.1.source, is_subscribed_some, decide_eq_true_eq] at ha
    exact subscribed_of_live c.1.out_wf ha
  | inner_next h ct =>
    simp only [accepted, is_subscribed_some, Bool.and_eq_true, decide_eq_true_eq] at ha
    exact subscribed_of_live c.1.out_wf ha.2
  | inner_completed h =>
    simp only [accepted, is_subscribed_some, Bool.and_eq_true, decide_eq_true_eq] at ha
    exact subscribed_of_live c.1.out_wf ha.2

theorem inner_values_snoc (h : Nat) (tr : List (signal T U)) (ev : signal T U) :
    inner_values h (tr ++ [ev]) = inner_values h tr ++ (signal.value h ev).toList := by
  simp only [inner_values, List.filterMap_append]
  cases hv : signal.value h ev <;> simp [List.filterMap_cons, hv]

theorem expected_append (rs : T → U → R) (n1 n2 : List (Nat × T)) (tr : List (signal T U)) :
    expected rs (n1 ++ n2) tr = expected rs n1 tr ++ expected rs n2 tr := by
  simp [expected]

theorem expected_snoc (rs : T → U → R) (names : List (Nat × T)) (tr : List (signal T U))
    (ev : signal T U) (h : ∀ p ∈ names, signal.value p.1 ev = none) :
    expected rs names (tr ++ [ev]) = expected rs names tr := by
  unfold expected
  apply List.flatMap_congr
  intro p hp
  rw [inner_values_snoc, h p hp]
  simp

theorem expected_fresh (rs : T → U → R) (h : Nat) (x : T) (tr : List (signal T U))
    (hv : inner_values h tr = []) : expected rs [(h, x)] tr = [] := by
  simp [expected, hv]

theorem traced_snoc_item {i : values T Obs U R} {rs : T → U → R} {tr : List (signal T U)}
    {s : concat_map_state_type T Obs U R} (t : traced i rs tr s) (st : T) :
    traced i rs (tr ++ [.outer_next st]) s := by
  refine ⟨t.sub, t.names, t.sound, t.fresh, ?_, ?_, ?_, ?_, t.sorted, t.calls⟩
  · rw [expected_snoc _ _ _ _ (by intro p _; rfl)]; exact t.output
  · simpa using t.outer
  · intro p hp; simpa using t.inner p hp
  · intro h hh
    have := t.later h hh
    simp [inner_values_snoc, signal.value, this]

theorem traced_outer_completed {i : values T Obs U R} {rs : T → U → R}
    {tr : List (signal T U)} {s : concat_map_state_type T Obs U R} (c : core s)
    (t : traced i rs tr s) :
    traced i rs (tr ++ [.outer_completed])
      { s with out := s.out.unsubscribe_handle (some 0) } := by
  refine ⟨by simpa using t.sub, t.names, t.sound, by simpa using t.fresh, ?_, ?_, ?_, ?_,
    t.sorted, t.calls⟩
  · rw [expected_snoc _ _ _ _ (by intro p _; rfl)]; simpa using t.output
  · simp [live_unsubscribe_handle]
  · intro p hp
    have hb := c.subs p hp
    have : p.1 ≠ 0 := by omega
    simp [live_unsubscribe_handle, this, t.inner p hp]
  · intro h hh
    simp only [fresh_unsubscribe_handle] at hh
    have := t.later h hh
    simp [inner_values_snoc, signal.value, this]

theorem traced_inner_completed {i : values T Obs U R} {rs : T → U → R}
    {tr : List (signal T U)} {s : concat_map_state_type T Obs U R} (c : core s)
    (t : traced i rs tr s) {h : Nat} (hc : (captured s h).isSome = true) (hl : h ∈ s.out.live)
    (q : List T) :
    traced i rs (tr ++ [.inner_completed h])
      { s with selectedCollections := q, out := s.out.unsubscribe_handle (some h) } := by
  obtain ⟨st, hst⟩ := Option.isSome_iff_exists.1 hc
  obtain ⟨o, ho⟩ := captured_some hst
  have hpos := (c.subs _ ho).1
  simp only at hpos
  refine ⟨by simpa using t.sub, t.names, t.sound, by simpa using t.fresh, ?_, ?_, ?_, ?_,
    t.sorted, t.calls⟩
  · rw [expected_snoc _ _ _ _ (by intro p _; rfl)]; simpa using t.output
  · have : (0 : Nat) ≠ h := by omega
    simp [live_unsubscribe_handle, this, t.outer]
  · intro p hp
    by_cases hph : p.1 = h
    · simp [live_unsubscribe_handle, hph]
    · simp [live_unsubscribe_handle, hph, t.inner p hp]
  · intro x hx
    simp only [fresh_unsubscribe_handle] at hx
    have := t.later x hx
    have hb := c.out_wf.bound h hl
    have hne : x ≠ h := by omega
    simp [inner_values_snoc, signal.value, this, hne]

theorem newest_subscriber {s : concat_map_state_type T Obs U R} (c : core s)
    (hs : s.subscribers.Pairwise (fun p q => p.1 < q.1)) {h : Nat} {st : T}
    (hcl : s.collectionLifetime = some h) (hl : h ∈ s.out.live)
    (hc : captured s h = some st) :
    ∃ pre o, s.subscribers = pre ++ [(h, st, o)] ∧ ∀ p ∈ pre, p.1 < h := by
  obtain ⟨pre, st1, o, hsub⟩ := c.newest h hcl hl
  rw [hsub, List.pairwise_append] at hs
  have hlt : ∀ p ∈ pre, p.1 < h := fun p hp => hs.2.2 p hp (h, st1, o) (by simp)
  have hnone : pre.find? (fun p => p.1 == h) = none := by
    rw [List.find?_eq_none]
    intro p hp
    have := hlt p hp
    simp only [beq_iff_eq]
    omega
  simp only [captured, hsub, List.find?_append, hnone, Option.none_or, List.find?_cons,
    beq_self_eq_true, Option.map_some', Option.some.injEq] at hc
  subst hc
  exact ⟨pre, o, hsub, hlt⟩

theorem traced_value {i : values T Obs U R} {rs : T → U → R}
    (hres : ∀ x v, i.selectResult x v = .ok (rs x v))
    {tr : List (signal T U)} {s : concat_map_state_type T Obs U R} (c : core s)
    (t : traced i rs tr s) {h : Nat} {st : T} (hcl : s.collectionLifetime = some h)
    (hl : h ∈ s.out.live) (hc : captured s h = some st) (ct : U) :
    traced i rs (tr ++ [.inner_next h ct]) (inner_on_next i s st ct) := by
  rw [inner_on_next_ok (hres st ct)]
  obtain ⟨pre, o, hsub, hlt⟩ := newest_subscriber c t.sorted hcl hl hc
  refine ⟨by simpa using t.sub, t.names, t.sound, by simpa using t.fresh, ?_, ?_, ?_, ?_,
    t.sorted, t.calls⟩
  · simp only [delivered_on_next, t.sub, if_true, t.output]
    simp only [hsub, List.map_append, List.map_cons, List.map_nil, expected_append]
    rw [expected_snoc rs (pre.map _) tr _ (by
      intro p hp
      simp only [List.mem_map] at hp
      obtain ⟨q, hq, rfl⟩ := hp
      have := hlt q hq
      have hne : h ≠ q.1 := by omega
      simp [signal.value, hne])]
    simp [expected, inner_values_snoc, signal.value]
  · simpa using t.outer
  · intro p hp; simpa using t.inner p hp
  · intro x hx
    simp only [fresh_on_next] at hx
    have := t.later x hx
    have hb := c.out_wf.bound h hl
    have hne : h ≠ x := by omega
    simp [inner_values_snoc, signal.value, this, hne]

theorem traced_subscribe_to {i : values T Obs U R} {rs : T → U → R}
    (hco : ∀ o, ∃ c, i.coordinator o = .ok c)
    {tr : List (signal T U)} {s : concat_map_state_type T Obs U R} (c : core s)
    (t : traced i rs tr s) (v : T) :
    (∃ c2, traced i rs tr (subscribe_to i s v) ∧
        (subscribe_to i s v).subscribers = s.subscribers ++ [(s.out.fresh, v, c2)] ∧
        (subscribe_to i s v).out.live = s.out.live ++ [s.out.fresh] ∧
        (subscribe_to i s v).selectedCollections = s.selectedCollections) ∨
      ∃ e, failed i rs tr (subscribe_to i s v) v e := by
  have w := c.out_wf
  have hfr := c.fresh_pos
  cases h1 : i.selectCollection v with
  | error e =>
    right
    refine ⟨e, ?_⟩
    rw [subscribe_to_fault h1]
    refine ⟨by simp, t.names, t.sound, ?_, by simp [t.calls], h1⟩
    simp [delivered_on_error, t.sub, t.output]
  | ok c1 =>
    obtain ⟨c2, h2⟩ := hco c1
    left
    refine ⟨c2, ?_⟩
    rw [subscribe_to_ok h1 h2]
    have hl : s.out.new_child.live = s.out.live ++ [s.out.fresh] := by
      rw [live_new_child w, t.sub]; rfl
    refine ⟨⟨?_, ?_, ?_, ?_, ?_, ?_, ?_, ?_, ?_, ?_⟩, rfl, hl, rfl⟩
    · simpa [subscribed_new_child w] using t.sub
    · simp only [List.map_append, List.map_cons, List.map_nil, List.enumFrom_append,
        List.enumFrom_singleton, List.length_map, t.names, t.fresh]
      rw [Nat.add_comm 1]
    · intro p hp
      simp only [List.mem_append, List.mem_singleton] at hp
      rcases hp with hp | rfl
      · exact t.sound p hp
      · exact ⟨c1, h1⟩
    · simp [fresh_new_child w, t.fresh]
    · simp only [delivered_new_child w, List.map_append, List.map_cons, List.map_nil,
        expected_append, expected_fresh rs _ _ tr (t.later _ (le_refl _)).1, List.append_nil,
        t.output]
    · have : (0 : Nat) ≠ s.out.fresh := by omega
      simp [hl, this, t.outer]
    · intro p hp
      simp only [List.mem_append, List.mem_singleton] at hp
      rcases hp with hp | rfl
      · have hb := c.subs p hp
        have : p.1 ≠ s.out.fresh := by omega
        simp [hl, this, t.inner p hp]
      · simp [hl, (t.later _ (le_refl _)).2]
    · intro h hh
      simp only [fresh_new_child w] at hh
      exact t.later h (by omega)
    · rw [List.pairwise_append]
      refine ⟨t.sorted, by simp, ?_⟩
      intro a ha b hb
      simp only [List.mem_singleton] at hb
      subst hb
      exact (c.subs a ha).2
    · simp [t.calls]

theorem traced_congr {i : values T Obs U R} {rs : T → U → R} {tr : List (signal T U)}
    {s s1 : concat_map_state_type T Obs U R} (t : traced i rs tr s) (ho : s1.out = s.out)
    (hs : s1.subscribers = s.subscribers) (hc : s1.collectionCalls = s.collectionCalls) :
    traced i rs tr s1 := by
  refine ⟨?_, ?_, ?_, ?_, ?_, ?_, ?_, ?_, ?_, ?_⟩
  · rw [ho]; exact t.sub
  · rw [hs]; exact t.names
  · rw [hs]; exact t.sound
  · rw [ho, hs]; exact t.fresh
  · rw [ho, hs]; exact t.output
  · rw [ho]; exact t.outer
  · rw [ho, hs]; exact t.inner
  · rw [ho]; exact t.later
  · rw [hs]; exact t.sorted
  · rw [hc, hs]; exact t.calls

theorem tracking_deliver {i : values T Obs U R} {rs : T → U → R}
    (hres : ∀ x v, i.selectResult x v = .ok (rs x v))
    (hco : ∀ o, ∃ c, i.coordinator o = .ok c)
    {tr : List (signal T U)} {s : concat_map_state_type T Obs U R} (c : inv s)
    (t : tracking i rs tr s) (ev : signal T U) (hacc : accepted s ev = true)
    (hb : ev.benign = true) :
    tracking i rs (tr ++ [ev]) (deliver i s ev) ∨ finished i rs (tr ++ [ev]) (deliver i s ev) ∨
      ∃ x e, failed i rs (tr ++ [ev]) (deliver i s ev) x e := by
  have w := c.1.out_wf
  have tt := t.traced
  refine deliver_cases i c ev (fun s1 => tracking i rs (tr ++ [ev]) s1 ∨
    finished i rs (tr ++ [ev]) s1 ∨ ∃ x e, failed i rs (tr ++ [ev]) s1 x e)
    ?_ ?_ ?_ ?_ ?_ ?_ ?_ ?_ ?_ ?_ ?_ <;> beta_reduce
  · intro ha; rw [ha] at hacc; exact absurd hacc (by simp)
  · rintro rfl; simp [signal.benign] at hb
  · rintro st rfl _ _
    left
    refine ⟨traced_congr (traced_snoc_item tt st) rfl rfl rfl, ?_, t.awake⟩
    simp only [outer_items, List.filterMap_append, List.filterMap_cons, signal.item,
      List.filterMap_nil]
    rw [← List.append_assoc]
    have := t.items
    simp only [outer_items] at this
    rw [this]
  · rintro st rfl _ _ hq
    have hi := t.items
    simp only [hq, List.append_nil] at hi
    rcases traced_subscribe_to hco c.1 (traced_snoc_item tt st) st with
      ⟨c2, t2, hs2, hl2, hq2⟩ | ⟨e, hf⟩
    · left
      refine ⟨t2, ?_, ?_⟩
      · simp [hs2, hq2, hq, hi, outer_items, signal.item]
      · simp [hl2]
    · exact Or.inr (Or.inr ⟨st, e, hf⟩)
  · rintro e (rfl | ⟨h, rfl⟩) _ <;> simp [signal.benign] at hb
  · rintro rfl h0 _ hq
    have hi := t.items
    simp only [hq, List.append_nil] at hi
    right; left
    refine ⟨by simp, tt.names, tt.sound, ?_, ?_, tt.calls⟩
    · rw [expected_snoc _ _ _ _ (by intro p _; rfl)]
      simp [delivered_on_completed, tt.sub, tt.output]
    · simp [hi, outer_items, signal.item]
  · rintro rfl h0 hbusy
    left
    refine ⟨traced_outer_completed c.1 tt, ?_, ?_⟩
    · simpa [outer_items, signal.item] using t.items
    · cases hcl : s.collectionLifetime with
      | none => simp [hcl] at hbusy
      | some k =>
        simp only [hcl, is_subscribed_some, decide_eq_true_eq] at hbusy
        have hk : k ≠ 0 := by
          rintro rfl
          exact c.1.coll hcl
        intro hnil
        have : k ∈ (s.out.unsubscribe_handle (some 0)).live := by
          simp [live_unsubscribe_handle, hbusy, hk]
        rw [hnil] at this
        simp at this
  · rintro h st ct rfl hc hl hcl
    left
    have t2 := traced_value hres c.1 tt hcl hl hc ct
    rw [inner_on_next_ok (hres st ct)] at t2 ⊢
    refine ⟨t2, ?_, ?_⟩
    · simpa [outer_items, signal.item] using t.items
    · simpa using t.awake
  · rintro h rfl hc hl _ hq h0
    left
    refine ⟨traced_inner_completed c.1 tt hc hl s.selectedCollections, ?_, ?_⟩
    · simpa [outer_items, signal.item] using t.items
    · obtain ⟨st, hst⟩ := Option.isSome_iff_exists.1 hc
      obtain ⟨o, ho⟩ := captured_some hst
      have hpos := (c.1.subs _ ho).1
      simp only at hpos
      have hne : (0 : Nat) ≠ h := by omega
      intro hnil
      have : 0 ∈ (s.out.unsubscribe_handle (some h)).live := by
        simp [live_unsubscribe_handle, h0, hne]
      rw [hnil] at this
      simp at this
  · rintro h rfl _ _ _ hq _
    have hi := t.items
    simp only [hq, List.append_nil] at hi
    right; left
    refine ⟨by simp, tt.names, tt.sound, ?_, ?_, tt.calls⟩
    · rw [expected_snoc _ _ _ _ (by intro p _; rfl)]
      simp [delivered_on_completed, tt.sub, tt.output]
    · simp [hi, outer_items, signal.item]
  · rintro h v rest rfl hc hl hcl hq
    have t0 := traced_inner_completed c.1 tt hc hl rest
    have c1 := core_out c.1 _ (wf_unsubscribe_handle w (some h)) (by simp)
      (by
        intro x hx
        simp only [live_unsubscribe_handle, List.mem_filter] at hx
        exact hx.1) (by simp)
    have c0 : core { s with selectedCollections := rest,
                            out := s.out.unsubscribe_handle (some h) } :=
      ⟨c1.out_wf, c1.source, c1.fresh_pos, c1.single, c1.coll, c1.subs, c1.newest, c1.calls⟩
    have hi := t.items
    rw [hq] at hi
    rcases traced_subscribe_to hco c0 t0 v with ⟨c2, t2, hs2, hl2, hq2⟩ | ⟨e, hf⟩
    · left
      refine ⟨t2, ?_, ?_⟩
      · simp only [hs2, hq2, List.map_append, List.map_cons, List.map_nil, List.append_assoc,
          List.singleton_append]
        simpa [outer_items, signal.item] using hi
      · simp [hl2]
    · exact Or.inr (Or.inr ⟨v, e, hf⟩)

theorem tracking_run {i : values T Obs U R} {rs : T → U → R} (hsrc : i.source = .ok ())
    (hres : ∀ x v, i.selectResult x v = .ok (rs x v))
    (hco : ∀ o, ∃ c, i.coordinator o = .ok c) (tr : List (signal T U))
    (hacc : accepted_run i tr = true) (hben : ∀ ev ∈ tr, ev.benign = true) :
    tracking i rs tr (run i tr) ∨ finished i rs tr (run i tr) ∨
      ∃ x e, failed i rs tr (run i tr) x e := by
  induction tr using List.reverseRecOn with
  | nil =>
    left
    refine ⟨⟨?_, ?_, ?_, ?_, ?_, ?_, ?_, ?_, ?_, ?_⟩, ?_, ?_⟩ <;>
      simp [run, on_subscribe, on_exception, hsrc, start, create, add, expected, outer_items,
        inner_values]
  | append_singleton tr ev ih =>
    rw [accepted_run_append, Bool.and_eq_true] at hacc
    have hb : ev.benign = true := hben ev (by simp)
    have c := inv_run i tr
    have hsub := subscribed_of_accepted c hacc.2 hb
    rw [run_append, List.foldl_cons, List.foldl_nil]
    rcases ih hacc.1 (fun x hx => hben x (by simp [hx])) with t | f | ⟨x, e, f⟩
    · exact tracking_deliver hres hco c t ev hacc.2 hb
    · rw [f.sub] at hsub; exact absurd hsub (by simp)
    · rw [f.sub] at hsub; exact absurd hsub (by simp)

end concat_map
end rxcpp

namespace rxcpp
open output_type

/-- C1. Order preservation of `concat_map`: take selectors and a coordination
that do not fault, and any run `tr` without an error signal in
which every signal is accepted when it is sent, the outer source completes, and
every inner stream that the operator subscribed to completes.  Then the
operator has subscribed to one inner stream for each outer item, in arrival
order (the one for the `k`-th outer item is named `k`), and the output is, for
the outer items `x` in arrival order, `rs x v` for each value `v` of the inner
stream of `x` in that stream's order, followed by `on_completed`, however the
signals of the outer source and of the inner streams are interleaved. -/
theorem concat_map_order_preserved {T Obs U R : Type} (i : concat_map.values T Obs U R)
    (rs : T → U → R) (tr : List (concat_map.signal T U))
    (hsrc : i.source = .ok ())
    (hsel : ∀ x, ∃ c, i.selectCollection x = .ok c)
    (hres : ∀ x v, i.selectResult x v = .ok (rs x v))
    (hco : ∀ o, ∃ c, i.coordinator o = .ok c)
    (hacc : concat_map.accepted_run i tr = true)
    (hben : ∀ ev ∈ tr, ev.benign = true)
    (houter : concat_map.signal.outer_completed ∈ tr)
    (hinner : ∀ p ∈ (concat_map.run i tr).subscribers,
      concat_map.signal.inner_completed p.1 ∈ tr) :
    (concat_map.run i tr).subscribers.map (fun p => (p.1, p.2.1)) =
        List.enumFrom 1 (concat_map.outer_items tr) ∧
      (concat_map.run i tr).out.delivered =
        concat_map.expected rs (List.enumFrom 1 (concat_map.outer_items tr)) tr
          ++ [.on_completed] := by
  have c := concat_map.inv_run i tr
  rcases concat_map.tracking_run hsrc hres hco tr hacc hben with t | f | ⟨x, e, f⟩
  · exfalso
    have h0 : 0 ∉ (concat_map.run i tr).out.live := fun h => (t.traced.outer.1 h) houter
    obtain ⟨k, hk⟩ := List.exists_mem_of_ne_nil _ t.awake
    rcases c.1.single k hk with rfl | hcl
    · exact h0 hk
    · obtain ⟨pre, st, o, hsub⟩ := c.1.newest k hcl hk
      have hp : (k, st, o) ∈ (concat_map.run i tr).subscribers := by rw [hsub]; simp
      exact (t.traced.inner _ hp).1 hk (hinner _ hp)
  · rw [f.output, f.names, f.items]
    exact ⟨rfl, rfl⟩
  · obtain ⟨c1, hc1⟩ := hsel x
    rw [f.fault] at hc1
    exact absurd hc1 (by simp)

/-- Outer `[1, 2]` with `f(x) = [x*10, x*10+1]`: the output is
`[10, 11, 20, 21]` and then `on_completed`, although item `2` arrived and the
outer source completed while the inner stream of `1` was running. -/
theorem concat_map_order_preserved_witness :
    concat_map.accepted_run concat_map.example_values concat_map.example_run = true ∧
      (concat_map.run concat_map.example_values concat_map.example_run).out.delivered =
        [.on_next 10, .on_next 11, .on_next 20, .on_next 21, .on_completed] :=
  have h := concat_map_order_preserved concat_map.example_values (fun _ v => v)
    concat_map.example_run rfl (fun x => ⟨_, rfl⟩) (fun _ _ => rfl) (fun o => ⟨o, rfl⟩)
    (by decide) (by decide) (by decide) (by decide)
  ⟨by decide, h.2⟩

/-- C5. Fault of the collection selector: take a result selector and a
coordination that do not fault and a run `tr` without an error signal in which
every signal is accepted when it is sent.  If `selectCollection` has been
called on `pre ++ [x]` and throws `e` on `x`, then these are the first outer
items in arrival order; the inner subscribers are those of the items `pre`
and none was made for `x`; the output is what the inner streams of `pre` sent,
in order, followed by `on_error e`; and after any further signals `tr1`
`selectCollection` has been called on nothing else, no inner subscriber was
added and the output is the same. -/
theorem concat_map_selector_fault {T Obs U R : Type} (i : concat_map.values T Obs U R)
    (rs : T → U → R) (tr tr1 : List (concat_map.signal T U)) (pre : List T) (x : T)
    (e : exception_ptr)
    (hsrc : i.source = .ok ())
    (hres : ∀ x v, i.selectResult x v = .ok (rs x v))
    (hco : ∀ o, ∃ c, i.coordinator o = .ok c)
    (hacc : concat_map.accepted_run i tr = true)
    (hben : ∀ ev ∈ tr, ev.benign = true)
    (hk : (concat_map.run i tr).collectionCalls = pre ++ [x])
    (hx : i.selectCollection x = .error e) :
    pre ++ [x] <+: concat_map.outer_items tr ∧
      (concat_map.run i tr).subscribers.map (fun p => (p.1, p.2.1)) = List.enumFrom 1 pre ∧
      (concat_map.run i tr).out.delivered =
        concat_map.expected rs (List.enumFrom 1 pre) tr ++ [.on_error e] ∧
      (concat_map.run i (tr ++ tr1)).collectionCalls = pre ++ [x] ∧
      (concat_map.run i (tr ++ tr1)).subscribers = (concat_map.run i tr).subscribers ∧
      (concat_map.run i (tr ++ tr1)).out.delivered = (concat_map.run i tr).out.delivered := by
  have c := concat_map.inv_run i tr
  have hord := (concat_map.ordered_run i tr).1
  have key : ∀ (hcalls : (concat_map.run i tr).collectionCalls =
      (concat_map.run i tr).subscribers.map (fun p => p.2.1))
      (hsound : ∀ p ∈ (concat_map.run i tr).subscribers, ∃ c, i.selectCollection p.2.1 = .ok c),
      False := by
    intro hcalls hsound
    have hxin : x ∈ (concat_map.run i tr).subscribers.map (fun p => p.2.1) := by
      rw [← hcalls, hk]; simp
    obtain ⟨p, hp, hpx⟩ := List.mem_map.1 hxin
    obtain ⟨c1, hc1⟩ := hsound p hp
    rw [hpx, hx] at hc1
    exact absurd hc1 (by simp)
  rcases concat_map.tracking_run hsrc hres hco tr hacc hben with t | f | ⟨x1, e1, f⟩
  · exact (key t.traced.calls t.traced.sound).elim
  · exact (key f.calls f.sound).elim
  · have hcalls := f.calls
    rw [hk] at hcalls
    obtain ⟨h1, h2⟩ := List.append_inj' hcalls rfl
    simp only [List.cons.injEq, and_true] at h2
    subst h2
    have he : e1 = e := by
      have := f.fault
      rw [hx] at this
      simpa using this.symm
    subst he
    have hfr : concat_map.run i (tr ++ tr1) = concat_map.run i tr := by
      rw [concat_map.run_append, concat_map.foldl_dead i f.sub (c.1.out_wf.dead f.sub)]
    rw [hfr]
    refine ⟨?_, ?_, ?_, hk, rfl, rfl⟩
    · rw [← hk]; exact (List.prefix_append _ _).trans hord
    · rw [f.names, ← h1]
    · rw [f.output, f.names, ← h1]

/-- With `selectCollection` throwing `9` on the second of the outer items
`[1, 2, 3]`: the output is the values of the inner stream of `1` and then
`on_error 9`; item `3`, which is queued, and item `4`, which arrives later, are
never projected. -/
theorem concat_map_selector_fault_witness :
    concat_map.accepted_run concat_map.example_faulty concat_map.example_fault_run = true ∧
      (concat_map.run concat_map.example_faulty concat_map.example_fault_run).collectionCalls
        = [1] ++ [2] ∧
      (concat_map.run concat_map.example_faulty concat_map.example_fault_run).selectedCollections
        = [3] ∧
      (concat_map.run concat_map.example_faulty concat_map.example_fault_run).out.delivered =
        [.on_next 10, .on_next 11, .on_error 9] ∧
      (concat_map.run concat_map.example_faulty
        (concat_map.example_fault_run ++ [.outer_next 4, .inner_completed 1])).collectionCalls
        = [1] ++ [2] :=
  have h := concat_map_selector_fault concat_map.example_faulty (fun _ v => v)
    concat_map.example_fault_run [.outer_next 4, .inner_completed 1] [1] 2 9 rfl
    (fun _ _ => rfl) (fun o => ⟨o, rfl⟩) (by decide) (by decide) (by decide) rfl
  ⟨by decide, by decide, by decide, h.2.2.1, h.2.2.2.1⟩

end rxcpp

/-! ## The factory of concat_map -/

namespace rxcpp

/-- C10 (the code departs from the claim). The stage that the factory function
`concat_map(s, rs, sf)` returns, given a source, yields the operator whose
collection selector is `rs`, the second argument, and whose result selector is
`s`, the first argument: the constructor of the factory stores its two
selectors crosswise.  The source and the coordination are passed on as given. -/
theorem concat_map_factory_swaps {Src F Co : Type} (s rs : F) (sf : Co) (source : Src) :
    ((concat_map s rs sf).apply source).selectCollection = rs ∧
      ((concat_map s rs sf).apply source).selectResult = s ∧
      ((concat_map s rs sf).apply source).coordination = sf ∧
      ((concat_map s rs sf).apply source).source = source :=
  ⟨rfl, rfl, rfl, rfl⟩

/-- With two function objects `1` and `2` of one type, the operator built from
`concat_map(1, 2, sf)` does not have `1` as its collection selector. -/
theorem concat_map_factory_swaps_example :
    ((concat_map (1 : Nat) 2 ()).apply ()).selectCollection ≠ 1 ∧
      ((concat_map (1 : Nat) 2 ()).apply ()).selectResult ≠ 2 := by
  decide

end rxcpp

/-! ## The children of the output subscription -/

namespace rxcpp
open output_type

namespace output_type
variable {R : Type}

theorem tree.same_token {o : output_type R} (t : o.tree) {k x y : Nat}
    (hx : (k, x) ∈ o.registered) (hy : (k, y) ∈ o.registered) : x = y := by
  have := List.inj_on_of_nodup_map t.unique hx hy rfl
  exact (Prod.mk.inj this).2

theorem tree.same_handle {o : output_type R} (t : o.tree) {k l x : Nat}
    (hx : (k, x) ∈ o.registered) (hy : (l, x) ∈ o.registered) : k = l := by
  have := List.inj_on_of_nodup_map (f := Prod.snd) t.distinct hx hy rfl
  exact (Prod.mk.inj this).1

theorem tree.carried {o : output_type R} (t : o.tree) {a : Nat × Nat} (ha : a ∈ o.cleanup) :
    a.1 ∈ o.live ∧ a.1 ≠ 0 :=
  (t.clean a.1).1 (List.mem_map_of_mem _ ha)

theorem tree_unsubscribe {o : output_type R} (hc : ∀ h ∈ o.live, h ∈ o.children)
    (t : o.tree) : o.unsubscribe.tree := by
  have hnone : ∀ a ∈ o.cleanup, a.1 ∈ o.children := fun a ha => hc _ (t.carried ha).1
  unfold unsubscribe
  split
  · have hcl : o.cleanup.filter (fun a => decide (a.1 ∉ o.children)) = [] := by
      rw [List.filter_eq_nil_iff]
      intro a ha
      simpa using hnone a ha
    refine ⟨t.pos, ?_, ?_, ?_, ?_, ?_, ?_, ?_⟩
    · intro h; simp at h
    · intro h hh; simp [children] at hh
    · intro h
      simp only [hcl, List.map_nil, List.not_mem_nil, false_iff, List.mem_filter, not_and]
      intro h1
      exact absurd (hc h h1.1) (by simpa using h1.2)
    · simp [children]
    · simp
    · simp only [hcl, List.map_nil, List.nodup_nil]
    · simp only [hcl, List.not_mem_nil, false_implies, implies_true]
  · exact t

theorem tree_on_next {o : output_type R} (t : o.tree) (v : R) : (o.on_next v).tree := by
  unfold on_next
  split
  · exact ⟨t.pos, t.root, t.kids, t.clean, t.distinct, t.unique, t.once, t.token⟩
  · exact t

theorem tree_on_error {o : output_type R} (w : o.wf) (t : o.tree) (e : exception_ptr) :
    (o.on_error e).tree := by
  unfold on_error
  split
  · exact tree_unsubscribe (o := { o with delivered := o.delivered ++ [notification.on_error e] })
      w.child ⟨t.pos, t.root, t.kids, t.clean, t.distinct, t.unique, t.once, t.token⟩
  · exact t

theorem tree_on_completed {o : output_type R} (w : o.wf) (t : o.tree) :
    o.on_completed.tree := by
  unfold on_completed
  split
  · exact tree_unsubscribe
      (o := { o with delivered := o.delivered ++ [notification.on_completed] })
      w.child ⟨t.pos, t.root, t.kids, t.clean, t.distinct, t.unique, t.once, t.token⟩
  · exact t

theorem tree_unsubscribe_handle {o : output_type R} (t : o.tree)
    (cs : composite_subscription) : (o.unsubscribe_handle cs).tree := by
  cases cs with
  | none => exact t
  | some h =>
    by_cases hl : h ∈ o.live
    · rw [unsubscribe_handle_live hl]
      have keep : ∀ k x, (k, x) ∈ o.registered → x ≠ h →
          (k, x) ∈ o.registered.filter
            (fun p => decide (∀ a ∈ o.cleanup, a.1 = h → p.1 ≠ a.2)) := by
        intro k x hk hx
        simp only [List.mem_filter, decide_eq_true_eq]
        refine ⟨hk, ?_⟩
        intro a ha hah hka
        have hka2 : k = a.2 := hka
        subst hka2
        exact hx ((t.same_token hk (t.token a ha)).trans hah)
      refine ⟨t.pos, ?_, ?_, ?_, ?_, ?_, ?_, ?_⟩
      · intro hs
        obtain ⟨k, hk⟩ := mem_children.1 (t.root hs)
        by_cases h0 : h = 0
        · subst h0
          refine mem_children.2 ⟨k, ?_⟩
          simp only [List.mem_filter, decide_eq_true_eq]
          refine ⟨hk, ?_⟩
          intro a ha hah
          exact absurd hah (t.carried ha).2
        · exact mem_children.2 ⟨k, keep k 0 hk (fun e => h0 e.symm)⟩
      · intro c hc
        obtain ⟨k, hk⟩ := mem_children.1 hc
        simp only [List.mem_filter, decide_eq_true_eq] at hk
        simp only [List.mem_filter, ne_eq, decide_not, Bool.not_eq_true',
          decide_eq_false_iff_not]
        rcases t.kids c (mem_children.2 ⟨k, hk.1⟩) with h1 | h1
        · exact Or.inl h1
        · by_cases hc0 : c = 0
          · exact Or.inl hc0
          · refine Or.inr ⟨h1, ?_⟩
            rintro rfl
            obtain ⟨a, ha, hac⟩ := List.mem_map.1 ((t.clean c).2 ⟨h1, hc0⟩)
            have hreg := t.token a ha
            rw [hac] at hreg
            exact hk.2 a ha hac (t.same_handle hk.1 hreg)
      · intro c
        simp only [List.mem_map, List.mem_filter, ne_eq, decide_not, Bool.not_eq_true',
          decide_eq_false_iff_not]
        constructor
        · rintro ⟨a, ⟨ha, hah⟩, rfl⟩
          exact ⟨⟨(t.carried ha).1, hah⟩, (t.carried ha).2⟩
        · rintro ⟨⟨h1, h2⟩, h3⟩
          obtain ⟨a, ha, hac⟩ := List.mem_map.1 ((t.clean c).2 ⟨h1, h3⟩)
          exact ⟨a, ⟨ha, by rw [hac]; exact h2⟩, hac⟩
      · exact t.distinct.sublist ((List.filter_sublist _).map _)
      · exact t.unique.sublist ((List.filter_sublist _).map _)
      · exact t.once.sublist ((List.filter_sublist _).map _)
      · intro a ha
        simp only [List.mem_filter, ne_eq, decide_not, Bool.not_eq_true',
          decide_eq_false_iff_not] at ha
        exact keep a.2 a.1 (t.token a ha.1) ha.2
    · rw [unsubscribe_handle_not_live hl]; exact t

theorem tree_new_child {o : output_type R} (w : o.wf) (t : o.tree) : o.new_child.tree := by
  have hp := t.pos
  cases hs : o.subscribed with
  | true =>
    rw [new_child_subscribed hs]
    have hfl : o.fresh ∉ o.live := fun h => Nat.lt_irrefl _ (w.bound _ h)
    refine ⟨Nat.lt_succ_of_lt t.pos, ?_, ?_, ?_, ?_, ?_, ?_, ?_⟩
    · intro _
      simp only [children, List.map_append, List.mem_append]
      exact Or.inl (t.root hs)
    · intro c hc
      simp only [children, List.map_append, List.mem_append, List.map_cons, List.map_nil,
        List.mem_singleton] at hc ⊢
      rcases hc with hc | hc
      · rcases t.kids c hc with h1 | h1
        · exact Or.inl h1
        · exact Or.inr (Or.inl h1)
      · exact Or.inr (Or.inr hc)
    · intro c
      simp only [List.map_append, List.mem_append, List.map_cons, List.map_nil,
        List.mem_singleton, t.clean c]
      constructor
      · rintro (h1 | h1)
        · exact ⟨Or.inl h1.1, h1.2⟩
        · exact ⟨Or.inr h1, by omega⟩
      · rintro ⟨h1 | h1, h2⟩
        · exact Or.inl ⟨h1, h2⟩
        · exact Or.inr h1
    · simp only [children, List.map_append, List.map_cons, List.map_nil]
      refine List.Nodup.append t.distinct (List.nodup_singleton _) ?_
      simp only [List.disjoint_singleton]
      intro hc
      rcases t.kids _ hc with h1 | h1
      · omega
      · exact hfl h1
    · simp only [List.map_append, List.map_cons, List.map_nil]
      refine List.Nodup.append t.unique (List.nodup_singleton _) ?_
      simp only [List.disjoint_singleton]
      intro hc
      obtain ⟨p, hp1, hp2⟩ := List.mem_map.1 hc
      have := w.issued p hp1
      omega
    · simp only [List.map_append, List.map_cons, List.map_nil]
      refine List.Nodup.append t.once (List.nodup_singleton _) ?_
      simp only [List.disjoint_singleton]
      intro hc
      exact hfl ((t.clean _).1 hc).1
    · intro a ha
      simp only [List.mem_append, List.mem_singleton] at ha ⊢
      rcases ha with ha | rfl
      · exact Or.inl (t.token a ha)
      · exact Or.inr rfl
  | false =>
    rw [new_child_dead hs (w.dead hs)]
    have hl := w.dead hs
    have hcl : o.cleanup = [] := by
      cases hc : o.cleanup with
      | nil => rfl
      | cons a l =>
        have := (t.carried (a := a) (by rw [hc]; simp)).1
        rw [hl] at this
        simp at this
    refine ⟨Nat.lt_succ_of_lt t.pos, ?_, ?_, ?_, ?_, ?_, ?_, ?_⟩
    · intro h; rw [hs] at h; exact absurd h (by simp)
    · intro c hc
      obtain ⟨k, hk⟩ := mem_children.1 hc
      simp only [List.mem_filter] at hk
      exact t.kids c (mem_children.2 ⟨k, hk.1.1⟩)
    · intro c
      simp [hcl, hl]
    · exact t.distinct.sublist (((List.filter_sublist _).trans (List.filter_sublist _)).map _)
    · exact t.unique.sublist (((List.filter_sublist _).trans (List.filter_sublist _)).map _)
    · simp [hcl]
    · simp [hcl]

theorem tree_call {o o1 : output_type R} (c : call o o1) (w : o.wf) (t : o.tree) :
    o1.tree := by
  cases c with
  | on_next v => exact tree_on_next t v
  | on_error e => exact tree_on_error w t e
  | on_completed => exact tree_on_completed w t
  | unsubscribe => exact tree_unsubscribe w.child t
  | unsubscribe_handle cs => exact tree_unsubscribe_handle t cs
  | new_child => exact tree_new_child w t

theorem wf_call {o o1 : output_type R} (c : call o o1) (w : o.wf) : o1.wf := by
  cases c with
  | on_next v => exact wf_on_next w v
  | on_error e => exact wf_on_error w e
  | on_completed => exact wf_on_completed w
  | unsubscribe => exact wf_unsubscribe w
  | unsubscribe_handle cs => exact wf_unsubscribe_handle w cs
  | new_child => exact wf_new_child w

theorem tree_calls {o o1 : output_type R} (c : calls o o1) (w : o.wf) (t : o.tree) :
    o1.wf ∧ o1.tree := by
  induction c with
  | refl => exact ⟨w, t⟩
  | tail _ d ih => exact ⟨wf_call d ih.1, tree_call d ih.1 ih.2⟩

theorem calls_one {o o1 : output_type R} (c : call o o1) : calls o o1 :=
  Relation.ReflTransGen.single c

theorem calls_two {o o1 o2 : output_type R} (c : call o o1) (d : call o1 o2) : calls o o2 :=
  Relation.ReflTransGen.tail (Relation.ReflTransGen.single c) d

theorem calls_refl (o : output_type R) : calls o o := Relation.ReflTransGen.refl

theorem tree_first : (((start : output_type R).create.2.add (some 0)).2).tree := by
  refine ⟨?_, ?_, ?_, ?_, ?_, ?_, ?_, ?_⟩ <;> simp [start, create, add, children]

end output_type

end rxcpp

namespace rxcpp
open output_type

namespace concat_map
variable {T Obs U R : Type}

theorem calls_subscribe_to (i : values T Obs U R) (s : concat_map_state_type T Obs U R)
    (st : T) : calls s.out (subscribe_to i s st).out := by
  cases h1 : i.selectCollection st with
  | error e =>
    rw [subscribe_to_fault h1]
    exact calls_one (call.on_error _ _)
  | ok c =>
    cases h2 : i.coordinator c with
    | error e =>
      rw [subscribe_to_coordinator_fault h1 h2]
      exact calls_two (call.new_child _) (call.on_error _ _)
    | ok c2 =>
      rw [subscribe_to_ok h1 h2]
      exact calls_one (call.new_child _)

theorem calls_inner_on_next (i : values T Obs U R) (s : concat_map_state_type T Obs U R)
    (st : T) (ct : U) : calls s.out (inner_on_next i s st ct).out := by
  cases hr : i.selectResult st ct with
  | error e =>
    rw [inner_on_next_fault hr]
    exact calls_one (call.on_error _ _)
  | ok r =>
    rw [inner_on_next_ok hr]
    exact calls_one (call.on_next _ _)

theorem calls_deliver (i : values T Obs U R) {s : concat_map_state_type T Obs U R}
    (c : inv s) (ev : signal T U) : calls s.out (deliver i s ev).out := by
  refine deliver_cases i c ev (fun s1 => calls s.out s1.out)
    ?_ ?_ ?_ ?_ ?_ ?_ ?_ ?_ ?_ ?_ ?_ <;> beta_reduce
  · intro _; exact calls_refl _
  · intro _; exact calls_one (call.unsubscribe _)
  · intro st _ _ _; exact calls_refl _
  · intro st _ _ _ _; exact calls_subscribe_to i s st
  · intro e _ _; exact calls_one (call.on_error _ e)
  · intro _ _ _ _; exact calls_one (call.on_completed _)
  · intro _ _ _; exact calls_one (call.unsubscribe_handle _ (some 0))
  · intro h st ct _ _ _ _; exact calls_inner_on_next i s st ct
  · intro h _ _ _ _ _ _; exact calls_one (call.unsubscribe_handle _ (some h))
  · intro h _ _ _ _ _ _; exact calls_one (call.on_completed _)
  · intro h v rest _ _ _ _ _
    exact Relation.ReflTransGen.trans (calls_one (call.unsubscribe_handle s.out (some h)))
      (calls_subscribe_to i (concat_map_state_type.mk s.sourceLifetime s.collectionLifetime rest
        (s.out.unsubscribe_handle (some h)) s.subscribers s.collectionCalls s.resultCalls) v)

theorem tree_on_subscribe (i : values T Obs U R) : (on_subscribe i).out.tree := by
  have hw : (((start : output_type R).create.2.add
      (some (start : output_type R).create.1)).2).wf := by
    refine ⟨?_, ?_, ?_, ?_, ?_, ?_, ?_, ?_, ?_⟩ <;>
      simp [start, create, add, terminal_last, children]
  cases hsrc : i.source with
  | error e =>
    simp only [on_subscribe, on_exception, hsrc]
    exact tree_on_error hw tree_first e
  | ok u =>
    simp only [on_subscribe, on_exception, hsrc]
    exact tree_first

theorem tree_run (i : values T Obs U R) (tr : List (signal T U)) : (run i tr).out.tree := by
  induction tr using List.reverseRecOn with
  | nil => exact tree_on_subscribe i
  | append_singleton tr ev ih =>
    rw [run_append, List.foldl_cons, List.foldl_nil]
    exact (tree_calls (calls_deliver i (inv_run i tr) ev) (inv_run i tr).1.out_wf ih).2

end concat_map

namespace merge
variable {Obs R : Type}

theorem calls_outer_on_next (i : values Obs) (s : merge_state_type Obs R) (st : Obs) :
    calls s.out (outer_on_next i s st).out := by
  cases hco : i.coordinator st with
  | error e =>
    rw [outer_on_next_fault hco]
    exact calls_two (call.new_child _) (call.on_error _ _)
  | ok c =>
    rw [outer_on_next_ok hco]
    exact calls_one (call.new_child _)

theorem calls_deliver_merge (i : values Obs) {s : merge_state_type Obs R}
    (c : inv s) (ev : signal Obs R) : calls s.out (deliver i s ev).out := by
  refine deliver_cases_merge i c ev (fun s1 => calls s.out s1.out)
    ?_ ?_ ?_ ?_ ?_ ?_ ?_ ?_ ?_ <;> beta_reduce
  · intro _; exact calls_refl _
  · intro _; exact calls_one (call.unsubscribe _)
  · intro st _ _; exact calls_outer_on_next i s st
  · intro e _ _; exact calls_one (call.on_error _ e)
  · intro _ _ _; exact calls_one (call.on_completed _)
  · intro _ _ _; exact calls_one (call.unsubscribe_handle _ (some 0))
  · intro h ct _ _ _; exact calls_one (call.on_next _ ct)
  · intro h _ _ _ _; exact calls_one (call.on_completed _)
  · intro h _ _ _ _; exact calls_one (call.unsubscribe_handle _ (some h))

theorem tree_on_subscribe_merge (i : values Obs) :
    (on_subscribe i : merge_state_type Obs R).out.tree := by
  have hw : (((start : output_type R).create.2.add
      (some (start : output_type R).create.1)).2).wf := by
    refine ⟨?_, ?_, ?_, ?_, ?_, ?_, ?_, ?_, ?_⟩ <;>
      simp [start, create, add, terminal_last, children]
  cases hsrc : i.source with
  | error e =>
    simp only [on_subscribe, on_exception, hsrc]
    exact tree_on_error hw tree_first e
  | ok u =>
    simp only [on_subscribe, on_exception, hsrc]
    exact tree_first

theorem tree_run_merge (i : values Obs) (tr : List (signal Obs R)) :
    (run i tr).out.tree := by
  induction tr using List.reverseRecOn with
  | nil => exact tree_on_subscribe_merge i
  | append_singleton tr ev ih =>
    rw [run_append_merge, List.foldl_cons, List.foldl_nil]
    exact (tree_calls (calls_deliver_merge i (inv_run_merge i tr) ev)
      (inv_run_merge i tr).out_wf ih).2

end merge

end rxcpp

/-! ## Cancellation from downstream -/

namespace rxcpp
open output_type

/-- C12. Cancellation cascade of `concat_map`: after any signals `tr` that
leave the output subscribed, the handle of the outer subscription is a
registered child of the output subscription, and so is the handle of the inner
subscription if one is active; when the consumer then unsubscribes the output
subscription no handle stays subscribed, and after any further signals `tr1`
`selectCollection` has been called on nothing more, no inner subscriber has
been added, the queued items are still in the queue, and nothing more was
delivered. -/
theorem concat_map_cancellation_cascade {T Obs U R : Type} (i : concat_map.values T Obs U R)
    (tr tr1 : List (concat_map.signal T U))
    (hs : (concat_map.run i tr).out.subscribed = true) :
    (∃ h, (concat_map.run i tr).sourceLifetime = some h ∧
        h ∈ (concat_map.run i tr).out.children) ∧
      (∀ h, (concat_map.run i tr).collectionLifetime = some h →
        h ∈ (concat_map.run i tr).out.live → h ∈ (concat_map.run i tr).out.children) ∧
      (concat_map.run i (tr ++ [.unsubscribe])).out.live = [] ∧
      (concat_map.run i (tr ++ .unsubscribe :: tr1)).collectionCalls =
        (concat_map.run i tr).collectionCalls ∧
      (concat_map.run i (tr ++ .unsubscribe :: tr1)).subscribers =
        (concat_map.run i tr).subscribers ∧
      (concat_map.run i (tr ++ .unsubscribe :: tr1)).selectedCollections =
        (concat_map.run i tr).selectedCollections ∧
      (concat_map.run i (tr ++ .unsubscribe :: tr1)).out.delivered =
        (concat_map.run i tr).out.delivered := by
  have c := concat_map.inv_run i tr
  have t := concat_map.tree_run i tr
  have w := c.1.out_wf
  have h1 : concat_map.run i (tr ++ [.unsubscribe]) =
      { concat_map.run i tr with out := (concat_map.run i tr).out.unsubscribe } := by
    rw [concat_map.run_append, List.foldl_cons, List.foldl_nil]
    rfl
  have h2 : concat_map.run i (tr ++ .unsubscribe :: tr1) =
      concat_map.run i (tr ++ [.unsubscribe]) := by
    rw [concat_map.run_append, List.foldl_cons]
    have : concat_map.deliver i (concat_map.run i tr) .unsubscribe =
        { concat_map.run i tr with out := (concat_map.run i tr).out.unsubscribe } := rfl
    rw [this, concat_map.foldl_dead i (by simp) (live_unsubscribe w), h1]
  refine ⟨⟨0, c.1.source, t.root hs⟩, fun h _ hl => w.child h hl, ?_, ?_, ?_, ?_, ?_⟩
  · rw [h1]; exact live_unsubscribe w
  · rw [h2, h1]
  · rw [h2, h1]
  · rw [h2, h1]
  · rw [h2, h1]; simp

/-- With item `2` queued behind the running inner stream of `1`, both handles
are children of the output subscription; after the consumer unsubscribes, the
completion of the inner stream does not project the queued item. -/
theorem concat_map_cancellation_cascade_witness :
    (concat_map.run concat_map.example_values concat_map.example_queued).out.subscribed = true ∧
      (concat_map.run concat_map.example_values concat_map.example_queued).out.children
        = [0, 1] ∧
      (concat_map.run concat_map.example_values
        (concat_map.example_queued ++ .unsubscribe :: [.inner_completed 1, .outer_next 3])
        ).collectionCalls = [1] ∧
      (concat_map.run concat_map.example_values
        (concat_map.example_queued ++ .unsubscribe :: [.inner_completed 1, .outer_next 3])
        ).selectedCollections = [2] :=
  have h := concat_map_cancellation_cascade concat_map.example_values
    concat_map.example_queued [.inner_completed 1, .outer_next 3] (by decide)
  ⟨by decide, by decide, h.2.2.2.1, h.2.2.2.2.2.1⟩

/-- C13. Cancellation cascade of `merge`: after any signals `tr` that leave
the output subscribed, the handle of the outer subscription and the handle of
every inner subscription that is subscribed are registered children of the
output subscription; when the consumer then unsubscribes the output
subscription no handle stays subscribed, and after any further signals `tr1`
nothing more was delivered. -/
theorem merge_cancellation_cascade {Obs R : Type} (i : merge.values Obs)
    (tr tr1 : List (merge.signal Obs R))
    (hs : (merge.run i tr).out.subscribed = true) :
    (∃ h, (merge.run i tr).outercs = some h ∧ h ∈ (merge.run i tr).out.children) ∧
      (∀ h ∈ (merge.run i tr).out.live, h ∈ (merge.run i tr).out.children) ∧
      (merge.run i (tr ++ [.unsubscribe])).out.live = [] ∧
      (merge.run i (tr ++ .unsubscribe :: tr1)).out.live = [] ∧
      (merge.run i (tr ++ .unsubscribe :: tr1)).out.delivered =
        (merge.run i tr).out.delivered := by
  have c := merge.inv_run_merge i tr
  have t := merge.tree_run_merge i tr
  have w := c.out_wf
  have h1 : merge.run i (tr ++ [.unsubscribe]) =
      { merge.run i tr with out := (merge.run i tr).out.unsubscribe } := by
    rw [merge.run_append_merge, List.foldl_cons, List.foldl_nil]
    rfl
  have h2 : merge.run i (tr ++ .unsubscribe :: tr1) = merge.run i (tr ++ [.unsubscribe]) := by
    rw [merge.run_append_merge, List.foldl_cons]
    have : merge.deliver i (merge.run i tr) .unsubscribe =
        { merge.run i tr with out := (merge.run i tr).out.unsubscribe } := rfl
    rw [this, merge.foldl_dead_merge i (by simp) (live_unsubscribe w), h1]
  refine ⟨⟨0, c.outer, t.root hs⟩, w.child, ?_, ?_, ?_⟩
  · rw [h1]; exact live_unsubscribe w
  · rw [h2, h1]; exact live_unsubscribe w
  · rw [h2, h1]; simp

/-- With the outer source and two inner streams subscribed, the three handles
are children of the output subscription, and unsubscribing it leaves none
subscribed. -/
theorem merge_cancellation_cascade_witness :
    (merge.run merge.example_values merge.example_running :
        merge.merge_state_type (List Nat) Nat).out.subscribed = true ∧
      (merge.run merge.example_values merge.example_running :
        merge.merge_state_type (List Nat) Nat).out.live = [0, 1, 2] ∧
      (merge.run merge.example_values merge.example_running :
        merge.merge_state_type (List Nat) Nat).out.children = [0, 1, 2] ∧
      (merge.run merge.example_values (merge.example_running ++ [.unsubscribe]) :
        merge.merge_state_type (List Nat) Nat).out.live = [] :=
  have h := merge_cancellation_cascade merge.example_values
    (merge.example_running : List (merge.signal (List Nat) Nat)) [] (by decide)
  ⟨by decide, by decide, by decide, h.2.2.1⟩

namespace output_type
variable {R : Type}

/-- A subscribed handle other than the outer one carries one cleanup action; the
token it captured is the token of the registration of that handle, and
unsubscribing the handle removes that registration and no other. -/
theorem deregister {o : output_type R} (t : o.tree) {h : Nat} (hl : h ∈ o.live)
    (h0 : h ≠ 0) :
    ∃ k, (h, k) ∈ o.cleanup ∧ (k, h) ∈ o.registered ∧
      (∀ a ∈ o.cleanup, a.1 = h → a.2 = k) ∧
      (o.unsubscribe_handle (some h)).registered = o.registered.filter (fun p => p.1 ≠ k) ∧
      (o.unsubscribe_handle (some h)).children = o.children.filter (fun c => c ≠ h) ∧
      h ∉ (o.unsubscribe_handle (some h)).children := by
  obtain ⟨a, ha, hah⟩ := List.mem_map.1 ((t.clean h).2 ⟨hl, h0⟩)
  obtain ⟨h1, k⟩ := a
  simp only at hah
  subst hah
  have hreg : (k, h1) ∈ o.registered := t.token _ ha
  have hone : ∀ b ∈ o.cleanup, b.1 = h1 → b.2 = k := by
    intro b hb hb1
    have := List.inj_on_of_nodup_map t.once hb ha hb1
    rw [this]
  have hr : (o.unsubscribe_handle (some h1)).registered =
      o.registered.filter (fun p => p.1 ≠ k) := by
    rw [unsubscribe_handle_live hl]
    apply List.filter_congr
    intro p _
    have hiff : (∀ a ∈ o.cleanup, a.1 = h1 → p.1 ≠ a.2) ↔ p.1 ≠ k := by
      constructor
      · intro hp; exact hp (h1, k) ha rfl
      · intro hp b hb hb1 hpb
        exact hp (hpb.trans (hone b hb hb1))
    simp only [hiff]
  have hc : (o.unsubscribe_handle (some h1)).children = o.children.filter (fun c => c ≠ h1) := by
    simp only [children, hr, List.filter_map]
    congr 1
    apply List.filter_congr
    intro p hp
    obtain ⟨l, x⟩ := p
    have hiff : l = k ↔ x = h1 := by
      constructor
      · rintro rfl; exact t.same_token hp hreg
      · rintro rfl; exact t.same_handle hp hreg
    simp [hiff]
  refine ⟨k, ha, hreg, hone, hr, hc, ?_⟩
  rw [hc]
  simp

/-- Unsubscribing the handle `new_child` has just made leaves the registrations
that were there before it. -/
theorem registered_new_child_unsubscribe {o : output_type R} (w : o.wf) (t : o.tree)
    (hs : o.subscribed = true) :
    (o.new_child.unsubscribe_handle (some o.fresh)).registered = o.registered := by
  have tn := tree_new_child w t
  have hl : o.fresh ∈ o.new_child.live := by simp [live_new_child w, hs]
  have h0 : o.fresh ≠ 0 := Nat.pos_iff_ne_zero.1 t.pos
  obtain ⟨k, hk, _, _, hr, _, _⟩ := deregister tn hl h0
  have hfl : o.fresh ∉ o.live := fun h => Nat.lt_irrefl _ (w.bound _ h)
  have hk2 : k = o.tokens := by
    rw [new_child_subscribed hs] at hk
    simp only [List.mem_append, List.mem_singleton, Prod.mk.injEq, true_and] at hk
    rcases hk with hk | hk
    · exact absurd (t.carried hk).1 hfl
    · exact hk
  rw [hr, hk2, new_child_subscribed hs]
  simp only [List.filter_append, List.filter_cons, List.filter_nil, ne_eq, not_true_eq_false,
    decide_False, Bool.false_eq_true, if_false, List.append_nil]
  rw [List.filter_eq_self]
  intro p hp
  have := w.issued p hp
  simp only [decide_not, Bool.not_eq_true', decide_eq_false_iff_not]
  omega

end output_type

/-- C20. Deregistration of inner handles, for both operators after any
signals.  Every subscribed handle other than the outer one carries one cleanup
action; the token that action captured is the token of the registration of that
very handle, and unsubscribing the handle removes the registration with that
token and no other, so afterwards the handle is not a child of the output
subscription.  Every child of the output subscription is the outer handle or a
subscribed handle.  For `concat_map` the children are distinct and each is the
outer handle or the handle of the active inner subscription, so at most one
child is not the outer handle; for `merge` the children other than the outer
handle are exactly the subscribed inner handles.  And the handles are made that
way: an outer item that is projected and coordinated without a fault gets a new
handle that is subscribed, is registered under a new token and carries the
cleanup action with that token; when its stream then completes, in `concat_map`
the registrations are what they were before the item, and in `merge` the handle
is no child any more. -/
theorem inner_handle_deregistration {T Obs U R : Type}
    (ic : concat_map.values T Obs U R) (im : merge.values Obs)
    (tc : List (concat_map.signal T U)) (tm : List (merge.signal Obs R)) :
    ((∀ h ∈ (concat_map.run ic tc).out.live, some h ≠ (concat_map.run ic tc).sourceLifetime →
        ∃ k, (h, k) ∈ (concat_map.run ic tc).out.cleanup ∧
          (k, h) ∈ (concat_map.run ic tc).out.registered ∧
          (∀ a ∈ (concat_map.run ic tc).out.cleanup, a.1 = h → a.2 = k) ∧
          ((concat_map.run ic tc).out.unsubscribe_handle (some h)).registered =
            (concat_map.run ic tc).out.registered.filter (fun p => p.1 ≠ k) ∧
          ((concat_map.run ic tc).out.unsubscribe_handle (some h)).children =
            (concat_map.run ic tc).out.children.filter (fun c => c ≠ h) ∧
          h ∉ ((concat_map.run ic tc).out.unsubscribe_handle (some h)).children) ∧
      (∀ h ∈ (concat_map.run ic tc).out.children,
        some h = (concat_map.run ic tc).sourceLifetime ∨ h ∈ (concat_map.run ic tc).out.live) ∧
      (concat_map.run ic tc).out.children.Nodup ∧
      (∀ h ∈ (concat_map.run ic tc).out.children,
        some h = (concat_map.run ic tc).sourceLifetime ∨
        some h = (concat_map.run ic tc).collectionLifetime) ∧
      ((concat_map.run ic tc).out.children.filter
        (fun h => some h ≠ (concat_map.run ic tc).sourceLifetime)).length ≤ 1 ∧
      (∀ st c c2, concat_map.accepted (concat_map.run ic tc) (.outer_next st) = true →
        (concat_map.run ic tc).out.is_subscribed (concat_map.run ic tc).collectionLifetime
          = false →
        ic.selectCollection st = .ok c → ic.coordinator c = .ok c2 →
        (concat_map.run ic (tc ++ [.outer_next st])).collectionLifetime =
            some (concat_map.run ic tc).out.fresh ∧
          (concat_map.run ic tc).out.fresh ∈
            (concat_map.run ic (tc ++ [.outer_next st])).out.live ∧
          (concat_map.run ic (tc ++ [.outer_next st])).out.registered =
            (concat_map.run ic tc).out.registered ++
              [((concat_map.run ic tc).out.tokens, (concat_map.run ic tc).out.fresh)] ∧
          (concat_map.run ic (tc ++ [.outer_next st])).out.cleanup =
            (concat_map.run ic tc).out.cleanup ++
              [((concat_map.run ic tc).out.fresh, (concat_map.run ic tc).out.tokens)] ∧
          (concat_map.run ic (tc ++ [.outer_next st,
            .inner_completed (concat_map.run ic tc).out.fresh])).out.registered =
            (concat_map.run ic tc).out.registered)) ∧
    ((∀ h ∈ (merge.run im tm).out.live, some h ≠ (merge.run im tm).outercs →
        ∃ k, (h, k) ∈ (merge.run im tm).out.cleanup ∧
          (k, h) ∈ (merge.run im tm).out.registered ∧
          (∀ a ∈ (merge.run im tm).out.cleanup, a.1 = h → a.2 = k) ∧
          ((merge.run im tm).out.unsubscribe_handle (some h)).registered =
            (merge.run im tm).out.registered.filter (fun p => p.1 ≠ k) ∧
          ((merge.run im tm).out.unsubscribe_handle (some h)).children =
            (merge.run im tm).out.children.filter (fun c => c ≠ h) ∧
          h ∉ ((merge.run im tm).out.unsubscribe_handle (some h)).children) ∧
      (∀ h ∈ (merge.run im tm).out.children,
        some h = (merge.run im tm).outercs ∨ h ∈ (merge.run im tm).out.live) ∧
      (∀ h, some h ≠ (merge.run im tm).outercs →
        (h ∈ (merge.run im tm).out.children ↔ h ∈ (merge.run im tm).out.live)) ∧
      (∀ st c, merge.accepted (merge.run im tm) (.outer_next st) = true →
        im.coordinator st = .ok c →
        (merge.run im tm).out.fresh ∈ (merge.run im (tm ++ [.outer_next st])).out.live ∧
          (merge.run im (tm ++ [.outer_next st])).out.registered =
            (merge.run im tm).out.registered ++
              [((merge.run im tm).out.tokens, (merge.run im tm).out.fresh)] ∧
          (merge.run im (tm ++ [.outer_next st])).out.cleanup =
            (merge.run im tm).out.cleanup ++
              [((merge.run im tm).out.fresh, (merge.run im tm).out.tokens)] ∧
          (merge.run im tm).out.fresh ∉
            (merge.run im (tm ++ [.outer_next st,
              .inner_completed (merge.run im tm).out.fresh])).out.children)) := by
  have cc := concat_map.inv_run ic tc
  have tc1 := concat_map.tree_run ic tc
  have cm := merge.inv_run_merge im tm
  have tm1 := merge.tree_run_merge im tm
  have kc : ∀ h ∈ (concat_map.run ic tc).out.children,
      some h = (concat_map.run ic tc).sourceLifetime ∨
      some h = (concat_map.run ic tc).collectionLifetime := by
    intro h hh
    rcases tc1.kids h hh with h0 | hl
    · left; rw [cc.1.source, h0]
    · rcases cc.1.single h hl with h0 | hc
      · left; rw [cc.1.source, h0]
      · right; rw [hc]
  refine ⟨⟨?_, ?_, tc1.distinct, kc, ?_, ?_⟩, ⟨?_, ?_, ?_, ?_⟩⟩
  · intro h hl hne
    have h0 : h ≠ 0 := by
      rintro rfl
      exact hne cc.1.source.symm
    exact deregister tc1 hl h0
  · intro h hh
    rcases tc1.kids h hh with h0 | hl
    · left; rw [cc.1.source, h0]
    · exact Or.inr hl
  · cases hcl : (concat_map.run ic tc).collectionLifetime with
    | none =>
      refine length_le_one_of_all_eq (c := 0) (tc1.distinct.filter _) ?_
      intro x hx
      simp only [List.mem_filter, ne_eq, decide_not, Bool.not_eq_true',
        decide_eq_false_iff_not] at hx
      rcases kc x hx.1 with h | h
      · exact absurd h hx.2
      · rw [hcl] at h; exact absurd h (by simp)
    | some k =>
      refine length_le_one_of_all_eq (c := k) (tc1.distinct.filter _) ?_
      intro x hx
      simp only [List.mem_filter, ne_eq, decide_not, Bool.not_eq_true',
        decide_eq_false_iff_not] at hx
      rcases kc x hx.1 with h | h
      · exact absurd h hx.2
      · rw [hcl] at h; simpa using h
  · intro st c c2 hacc hidle h1 h2
    have h0 : 0 ∈ (concat_map.run ic tc).out.live := by
      simpa [concat_map.accepted, cc.1.source] using hacc
    have w := cc.1.out_wf
    have hs := subscribed_of_live w h0
    obtain ⟨hq, hd⟩ := concat_map.deliver_outer_next_idle ic cc h0 hidle st
    have e1 : concat_map.run ic (tc ++ [.outer_next st]) =
        concat_map.subscribe_to ic (concat_map.run ic tc) st := by
      rw [concat_map.run_append, List.foldl_cons, List.foldl_nil, hd]
    have c1 := concat_map.inv_run ic (tc ++ [.outer_next st])
    have e2 : concat_map.run ic (tc ++ [.outer_next st,
        .inner_completed (concat_map.run ic tc).out.fresh]) =
        concat_map.deliver ic (concat_map.run ic (tc ++ [.outer_next st]))
          (.inner_completed (concat_map.run ic tc).out.fresh) := by
      rw [concat_map.run_append, concat_map.run_append]; rfl
    rw [e2]
    rw [e1] at c1 ⊢
    rw [concat_map.subscribe_to_ok h1 h2] at c1 ⊢
    have hl : (concat_map.run ic tc).out.fresh ∈ (concat_map.run ic tc).out.new_child.live := by
      simp [live_new_child w, hs]
    have h0n : 0 ∈ (concat_map.run ic tc).out.new_child.live := by
      simp [live_new_child w, hs, h0]
    refine ⟨rfl, hl, by rw [new_child_subscribed hs], by rw [new_child_subscribed hs], ?_⟩
    rw [concat_map.deliver_inner_completed_wait ic c1.1 (by simp [concat_map.captured]) hl hq h0n]
    exact registered_new_child_unsubscribe w tc1 hs
  · intro h hl hne
    have h0 : h ≠ 0 := by
      rintro rfl
      exact hne cm.outer.symm
    exact deregister tm1 hl h0
  · intro h hh
    rcases tm1.kids h hh with h0 | hl
    · left; rw [cm.outer, h0]
    · exact Or.inr hl
  · intro h hne
    have h0 : h ≠ 0 := by
      rintro rfl
      exact hne cm.outer.symm
    constructor
    · intro hh
      rcases tm1.kids h hh with h1 | hl
      · exact absurd h1 h0
      · exact hl
    · exact cm.out_wf.child h
  · intro st c hacc hc
    have h0 : 0 ∈ (merge.run im tm).out.live := by
      simpa [merge.accepted, cm.outer] using hacc
    have w := cm.out_wf
    have hs := subscribed_of_live w h0
    have e1 : merge.run im (tm ++ [.outer_next st]) =
        merge.outer_on_next im (merge.run im tm) st := by
      rw [merge.run_append_merge, List.foldl_cons, List.foldl_nil,
        merge.deliver_outer_next im cm h0]
    have hl : (merge.run im tm).out.fresh ∈ (merge.run im tm).out.new_child.live := by
      simp [live_new_child w, hs]
    refine ⟨by rw [e1, merge.outer_on_next_ok hc]; exact hl,
      by rw [e1, merge.outer_on_next_ok hc, new_child_subscribed hs],
      by rw [e1, merge.outer_on_next_ok hc, new_child_subscribed hs], ?_⟩
    have t2 := merge.tree_run_merge im
      (tm ++ [.outer_next st, .inner_completed (merge.run im tm).out.fresh])
    have c1 := merge.inv_run_merge im (tm ++ [.outer_next st])
    have e2 : merge.run im (tm ++ [.outer_next st,
        .inner_completed (merge.run im tm).out.fresh]) =
        merge.deliver im (merge.run im (tm ++ [.outer_next st]))
          (.inner_completed (merge.run im tm).out.fresh) := by
      rw [merge.run_append_merge, merge.run_append_merge]; rfl
    intro hch
    rcases t2.kids _ hch with hz | hlive
    · exact absurd hz (Nat.pos_iff_ne_zero.1 cm.fresh_pos)
    · rw [e2] at hlive
      rw [e1, merge.outer_on_next_ok hc] at c1 hlive
      have hi : merge.is_inner ({ merge.run im tm with
          out := (merge.run im tm).out.new_child,
          pendingCompletions := int32 ((merge.run im tm).pendingCompletions + 1),
          subscribers := (merge.run im tm).subscribers ++ [((merge.run im tm).out.fresh, c)] } :
          merge.merge_state_type Obs R) (merge.run im tm).out.fresh = true := by
        simp [merge.is_inner]
      by_cases hp : int32 ((merge.run im tm).pendingCompletions + 1) = 1
      · rw [merge.deliver_inner_completed_last_merge im c1 hi hl hp] at hlive
        simp [live_on_completed (wf_new_child w)] at hlive
      · rw [merge.deliver_inner_completed_wait_merge im c1 hi hl hp] at hlive
        simp [live_unsubscribe_handle] at hlive

/-- With item `2` queued behind the running inner stream of `1` in `concat_map`:
handle `1` is subscribed and carries the cleanup action with token `1`, under
which it is registered; unsubscribing it leaves the outer handle as the only
child.  And in `merge` a third inner stream gets handle `3` and token `3`. -/
theorem inner_handle_deregistration_witness :
    (1 ∈ (concat_map.run concat_map.example_values concat_map.example_queued).out.live ∧
      some 1 ≠ (concat_map.run concat_map.example_values
        concat_map.example_queued).sourceLifetime) ∧
    (concat_map.run concat_map.example_values concat_map.example_queued).out.cleanup
      = [(1, 1)] ∧
    (concat_map.run concat_map.example_values concat_map.example_queued).out.registered
      = [(0, 0), (1, 1)] ∧
    ((concat_map.run concat_map.example_values concat_map.example_queued).out.unsubscribe_handle
      (some 1)).children = [0] ∧
    merge.accepted (merge.run merge.example_values merge.example_running :
      merge.merge_state_type (List Nat) Nat) (.outer_next [4]) = true ∧
    (merge.run merge.example_values (merge.example_running ++ [.outer_next [4]]) :
      merge.merge_state_type (List Nat) Nat).out.cleanup = [(1, 1), (2, 2), (3, 3)] ∧
    3 ∉ (merge.run merge.example_values
      (merge.example_running ++ [.outer_next [4], .inner_completed 3]) :
      merge.merge_state_type (List Nat) Nat).out.children := by
  have h := inner_handle_deregistration concat_map.example_values merge.example_values
    concat_map.example_queued (merge.example_running : List (merge.signal (List Nat) Nat))
  obtain ⟨k, hk, _, _, _, hch, _⟩ := h.1.1 1 (by decide) (by decide)
  have hm := h.2.2.2.2 [4] [4] (by decide) rfl
  refine ⟨⟨by decide, by decide⟩, by decide, by decide, ?_, by decide, ?_, hm.2.2.2⟩
  · rw [hch]; decide
  · rw [hm.2.2.1]; decide

end rxcpp

/-! ## Single steps of concat_map -/

namespace rxcpp
open output_type

/-- C11. Fault of the result selector: let the inner subscriber `h`, made for
the outer item `st`, be subscribed after any signals `tr`, and let its stream
send the value `ct`.  `selectResult` is called once, on `(st, ct)`.  If it
throws `e`, exactly `on_error e` is appended to the output, no `on_next`, and
nothing is delivered after it whatever signals `tr1` follow; if it returns `r`,
exactly `on_next r` is appended. -/
theorem concat_map_result_selector_fault {T Obs U R : Type} (i : concat_map.values T Obs U R)
    (tr tr1 : List (concat_map.signal T U)) (h : Nat) (st : T) (ct : U)
    (hc : concat_map.captured (concat_map.run i tr) h = some st)
    (hl : h ∈ (concat_map.run i tr).out.live) :
    (concat_map.run i (tr ++ [.inner_next h ct])).resultCalls =
        (concat_map.run i tr).resultCalls ++ [(st, ct)] ∧
      (∀ e, i.selectResult st ct = .error e →
        (concat_map.run i (tr ++ [.inner_next h ct])).out.delivered =
          (concat_map.run i tr).out.delivered ++ [.on_error e] ∧
        (concat_map.run i (tr ++ .inner_next h ct :: tr1)).out.delivered =
          (concat_map.run i tr).out.delivered ++ [.on_error e]) ∧
      (∀ r, i.selectResult st ct = .ok r →
        (concat_map.run i (tr ++ [.inner_next h ct])).out.delivered =
          (concat_map.run i tr).out.delivered ++ [.on_next r]) := by
  have c := concat_map.inv_run i tr
  have w := c.1.out_wf
  have hs := subscribed_of_live w hl
  have h1 : concat_map.run i (tr ++ [.inner_next h ct]) =
      concat_map.inner_on_next i (concat_map.run i tr) st ct := by
    rw [concat_map.run_append, List.foldl_cons, List.foldl_nil,
      concat_map.deliver_inner_next i hc hl]
  have h2 : concat_map.run i (tr ++ .inner_next h ct :: tr1) =
      tr1.foldl (concat_map.deliver i) (concat_map.inner_on_next i (concat_map.run i tr) st ct) := by
    rw [concat_map.run_append, List.foldl_cons, concat_map.deliver_inner_next i hc hl]
  refine ⟨?_, ?_, ?_⟩
  · rw [h1]
    cases hr : i.selectResult st ct with
    | error e => rw [concat_map.inner_on_next_fault hr]
    | ok r => rw [concat_map.inner_on_next_ok hr]
  · intro e hr
    rw [h2, h1, concat_map.inner_on_next_fault hr,
      concat_map.foldl_dead i (by simp) (live_on_error w e)]
    simp [delivered_on_error, hs]
  · intro r hr
    rw [h1, concat_map.inner_on_next_ok hr]
    simp [delivered_on_next, hs]

/-- With a result selector that throws `4` on the value `11`: the value `10`
is forwarded, the value `11` gives `on_error 4`, and the later value `12` is
not delivered. -/
theorem concat_map_result_selector_fault_witness :
    concat_map.captured
        (concat_map.run concat_map.example_result_faulty [.outer_next 1, .inner_next 1 10]) 1
        = some 1 ∧
      (concat_map.run concat_map.example_result_faulty
        ([.outer_next 1, .inner_next 1 10] ++ .inner_next 1 11 :: [.inner_next 1 12])
        ).out.delivered = [.on_next 10, .on_error 4] :=
  have h := concat_map_result_selector_fault concat_map.example_result_faulty
    [.outer_next 1, .inner_next 1 10] [.inner_next 1 12] 1 1 11 (by decide) (by decide)
  ⟨by decide, (h.2.1 4 rfl).2⟩

/-- C17. Guarded mutation of the shared state, for both operators: when a
signal arrives after any signals and the lifetime of the subscriber it is
addressed to is unsubscribed, or the output subscription is unsubscribed, the
step changes nothing: the pending queue, the active inner handle and the
history of `concat_map`, and the pending-completion counter of `merge`, are
what they were (the whole state is). -/
theorem guarded_mutation {T Obs U R : Type}
    (ic : concat_map.values T Obs U R) (im : merge.values Obs)
    (tc : List (concat_map.signal T U)) (tm : List (merge.signal Obs R))
    (evc : concat_map.signal T U) (evm : merge.signal Obs R)
    (hc : concat_map.accepted (concat_map.run ic tc) evc = false ∨
      (concat_map.run ic tc).out.subscribed = false)
    (hm : merge.accepted (merge.run im tm) evm = false ∨
      (merge.run im tm).out.subscribed = false) :
    (concat_map.run ic (tc ++ [evc]) = concat_map.run ic tc ∧
      (concat_map.run ic (tc ++ [evc])).selectedCollections =
        (concat_map.run ic tc).selectedCollections ∧
      (concat_map.run ic (tc ++ [evc])).collectionLifetime =
        (concat_map.run ic tc).collectionLifetime) ∧
    (merge.run im (tm ++ [evm]) = merge.run im tm ∧
      (merge.run im (tm ++ [evm])).pendingCompletions = (merge.run im tm).pendingCompletions) := by
  have ec : concat_map.run ic (tc ++ [evc]) = concat_map.run ic tc := by
    rw [concat_map.run_append, List.foldl_cons, List.foldl_nil]
    rcases hc with h | h
    · exact concat_map.deliver_not_accepted ic h
    · exact concat_map.deliver_dead ic h ((concat_map.inv_run ic tc).1.out_wf.dead h) evc
  have em : merge.run im (tm ++ [evm]) = merge.run im tm := by
    rw [merge.run_append_merge, List.foldl_cons, List.foldl_nil]
    rcases hm with h | h
    · exact merge.deliver_not_accepted_merge im h
    · exact merge.deliver_dead_merge im h ((merge.inv_run_merge im tm).out_wf.dead h) evm
  rw [ec, em]
  exact ⟨⟨rfl, rfl, rfl⟩, rfl, rfl⟩

/-- After `concat_map.example_run` and `merge.example_run` have completed, a
late outer item and a late inner completion leave the queue, the inner handle
and the counter as they were. -/
theorem guarded_mutation_witness :
    concat_map.accepted (concat_map.run concat_map.example_values concat_map.example_run)
        (.outer_next 3) = false ∧
      merge.accepted (merge.run merge.example_values merge.example_run :
        merge.merge_state_type (List Nat) Nat) (.inner_completed 1) = false ∧
      (concat_map.run concat_map.example_values
        (concat_map.example_run ++ [.outer_next 3])).selectedCollections =
        (concat_map.run concat_map.example_values concat_map.example_run).selectedCollections ∧
      (merge.run merge.example_values (merge.example_run ++ [.inner_completed 1]) :
        merge.merge_state_type (List Nat) Nat).pendingCompletions =
        (merge.run merge.example_values merge.example_run).pendingCompletions :=
  have h := guarded_mutation concat_map.example_values merge.example_values
    concat_map.example_run (merge.example_run : List (merge.signal (List Nat) Nat))
    (.outer_next 3) (.inner_completed 1) (Or.inl (by decide)) (Or.inl (by decide))
  ⟨by decide, by decide, h.1.2.1, h.2.2⟩

end rxcpp

/-! ## The pending queue of concat_map -/

namespace rxcpp
open output_type

namespace concat_map
variable {T Obs U R : Type}

theorem subscribe_to_alive (i : values T Obs U R) {s : concat_map_state_type T Obs U R}
    (w : s.out.wf) (st : T) (hs : (subscribe_to i s st).out.subscribed = true) :
    (subscribe_to i s st).collectionLifetime = some s.out.fresh ∧
      (subscribe_to i s st).out.live = s.out.live ++ [s.out.fresh] ∧
      ∃ c c2, i.selectCollection st = .ok c ∧ i.coordinator c = .ok c2 ∧
        (subscribe_to i s st).subscribers = s.subscribers ++ [(s.out.fresh, st, c2)] := by
  cases h1 : i.selectCollection st with
  | error e =>
    rw [subscribe_to_fault h1] at hs
    simp at hs
  | ok c =>
    cases h2 : i.coordinator c with
    | error e =>
      rw [subscribe_to_coordinator_fault h1 h2] at hs
      simp at hs
    | ok c2 =>
      rw [subscribe_to_ok h1 h2] at hs ⊢
      have hsub : s.out.subscribed = true := by
        simpa [subscribed_new_child w] using hs
      refine ⟨rfl, ?_, c, c2, rfl, h2, rfl⟩
      simp [live_new_child w, hsub]

theorem awake_deliver (i : values T Obs U R) {s : concat_map_state_type T Obs U R}
    (c : inv s)
    (a : s.out.subscribed = true →
      0 ∈ s.out.live ∨ s.out.is_subscribed s.collectionLifetime = true)
    (ev : signal T U) (hs : (deliver i s ev).out.subscribed = true) :
    0 ∈ (deliver i s ev).out.live ∨
      (deliver i s ev).out.is_subscribed (deliver i s ev).collectionLifetime = true := by
  have w := c.1.out_wf
  revert hs
  refine deliver_cases i c ev (fun s1 => s1.out.subscribed = true →
    0 ∈ s1.out.live ∨ s1.out.is_subscribed s1.collectionLifetime = true)
    ?_ ?_ ?_ ?_ ?_ ?_ ?_ ?_ ?_ ?_ ?_ <;> beta_reduce
  · intro _; exact a
  · intro _ hs; simp at hs
  · intro st _ h0 _ _; exact Or.inl h0
  · intro st _ h0 _ _ hs
    obtain ⟨_, hl, _⟩ := subscribe_to_alive i w st hs
    left; rw [hl]; simp [h0]
  · intro e _ _ hs; simp at hs
  · intro _ _ _ _ hs; simp at hs
  · intro _ _ hb _
    right
    cases hcl : s.collectionLifetime with
    | none => simp [hcl] at hb
    | some k =>
      simp only [hcl, is_subscribed_some, decide_eq_true_eq] at hb ⊢
      have hk : k ≠ 0 := by
        rintro rfl
        exact c.1.coll hcl
      simp [live_unsubscribe_handle, hb, hk]
  · intro h st ct _ _ hl hcl hs
    right
    cases hr : i.selectResult st ct with
    | error e =>
      rw [inner_on_next_fault hr] at hs
      simp at hs
    | ok r =>
      rw [inner_on_next_ok hr]
      simp [hcl, hl]
  · intro h _ hc _ _ _ h0 _
    left
    obtain ⟨st, hst⟩ := Option.isSome_iff_exists.1 hc
    obtain ⟨o, ho⟩ := captured_some hst
    have hpos := (c.1.subs _ ho).1
    simp only at hpos
    have hne : (0 : Nat) ≠ h := by omega
    simp [live_unsubscribe_handle, h0, hne]
  · intro h _ _ _ _ _ _ hs; simp at hs
  · intro h v rest _ _ _ _ _ hs
    right
    have hw : (s.out.unsubscribe_handle (some h)).wf := wf_unsubscribe_handle w _
    obtain ⟨hcl, hl, _⟩ := subscribe_to_alive i (s := { s with
      selectedCollections := rest, out := s.out.unsubscribe_handle (some h) }) hw v hs
    simp [hcl, hl]

theorem awake_run (i : values T Obs U R) (tr : List (signal T U))
    (hs : (run i tr).out.subscribed = true) :
    0 ∈ (run i tr).out.live ∨
      (run i tr).out.is_subscribed (run i tr).collectionLifetime = true := by
  induction tr using List.reverseRecOn with
  | nil =>
    left
    revert hs
    cases hsrc : i.source <;> simp [run, on_subscribe, on_exception, hsrc, start, create, add]
  | append_singleton tr ev ih =>
    rw [run_append, List.foldl_cons, List.foldl_nil] at hs ⊢
    exact awake_deliver i (inv_run i tr) ih ev hs

theorem items_deliver (i : values T Obs U R) {s : concat_map_state_type T Obs U R}
    (c : inv s) {l : List T} (ev : signal T U) (hacc : accepted s ev = true)
    (h1 : s.collectionCalls ++ s.selectedCollections = l) :
    (deliver i s ev).collectionCalls ++ (deliver i s ev).selectedCollections
      = l ++ outer_items [ev] := by
  refine deliver_cases i c ev (fun s1 =>
    s1.collectionCalls ++ s1.selectedCollections = l ++ outer_items [ev])
    ?_ ?_ ?_ ?_ ?_ ?_ ?_ ?_ ?_ ?_ ?_ <;> beta_reduce
  · intro ha; rw [ha] at hacc; exact absurd hacc (by simp)
  · rintro rfl; simpa [outer_items, signal.item] using h1
  · rintro st rfl _ _
    simp only [outer_items, List.filterMap_cons, signal.item, List.filterMap_nil]
    rw [← List.append_assoc, h1]
  · rintro st rfl _ _ hq
    simp only [hq, List.append_nil] at h1
    simp [outer_items, signal.item, collectionCalls_subscribe_to,
      selectedCollections_subscribe_to, hq, h1]
  · rintro e (rfl | ⟨h, rfl⟩) _ <;> simpa [outer_items, signal.item] using h1
  · rintro rfl _ _ _; simpa [outer_items, signal.item] using h1
  · rintro rfl _ _; simpa [outer_items, signal.item] using h1
  · rintro h st ct rfl _ _ _
    obtain ⟨e1, e2, _, _⟩ := delivered_inner_on_next i s st ct
    rw [e1, e2]
    simpa [outer_items, signal.item] using h1
  · rintro h rfl _ _ _ _ _; simpa [outer_items, signal.item] using h1
  · rintro h rfl _ _ _ _ _; simpa [outer_items, signal.item] using h1
  · rintro h v rest rfl _ _ _ hq
    rw [hq] at h1
    simp only [collectionCalls_subscribe_to, selectedCollections_subscribe_to]
    simpa [outer_items, signal.item] using h1

theorem items_run (i : values T Obs U R) (tr : List (signal T U))
    (hacc : accepted_run i tr = true) :
    (run i tr).collectionCalls ++ (run i tr).selectedCollections = outer_items tr := by
  induction tr using List.reverseRecOn with
  | nil =>
    cases hsrc : i.source <;> simp [run, on_subscribe, on_exception, hsrc, outer_items]
  | append_singleton tr ev ih =>
    rw [accepted_run_append, Bool.and_eq_true] at hacc
    have := items_deliver i (inv_run i tr) ev hacc.2 (ih hacc.1)
    rw [run_append, List.foldl_cons, List.foldl_nil]
    simpa [outer_items] using this

end concat_map

/-- C18. No outer item is dropped: after any run `tr`, while the output is still
subscribed a non-empty pending queue has an active inner subscription in front
of it; an outer item that is accepted is therefore either appended to the queue
(inner active) or handed to `subscribe_to` (inner inactive, queue empty), never
ignored; and in a run whose signals are all accepted the items
`selectCollection` was called on, followed by the queue, are exactly the outer
items received, in arrival order. -/
theorem concat_map_never_drops {T Obs U R : Type} (i : concat_map.values T Obs U R)
    (tr : List (concat_map.signal T U)) :
    ((concat_map.run i tr).out.subscribed = true →
        (concat_map.run i tr).selectedCollections ≠ [] →
        (concat_map.run i tr).out.is_subscribed (concat_map.run i tr).collectionLifetime = true) ∧
      (∀ st, concat_map.accepted (concat_map.run i tr) (.outer_next st) = true →
        ((concat_map.run i tr).out.is_subscribed (concat_map.run i tr).collectionLifetime = true ∧
          concat_map.run i (tr ++ [.outer_next st]) =
            { concat_map.run i tr with
              selectedCollections := (concat_map.run i tr).selectedCollections ++ [st] }) ∨
        ((concat_map.run i tr).out.is_subscribed (concat_map.run i tr).collectionLifetime = false ∧
          (concat_map.run i tr).selectedCollections = [] ∧
          concat_map.run i (tr ++ [.outer_next st]) =
            concat_map.subscribe_to i (concat_map.run i tr) st)) ∧
      (concat_map.accepted_run i tr = true →
        (concat_map.run i tr).collectionCalls ++ (concat_map.run i tr).selectedCollections =
          concat_map.outer_items tr) := by
  have c := concat_map.inv_run i tr
  refine ⟨?_, ?_, concat_map.items_run i tr⟩
  · intro hs hq
    rcases concat_map.awake_run i tr hs with h0 | hb
    · exact c.2 h0 hq
    · exact hb
  · intro st hacc
    have h0 : 0 ∈ (concat_map.run i tr).out.live := by
      simpa [concat_map.accepted, c.1.source] using hacc
    rw [concat_map.run_append, List.foldl_cons, List.foldl_nil]
    cases hb : (concat_map.run i tr).out.is_subscribed (concat_map.run i tr).collectionLifetime with
    | true => exact Or.inl ⟨rfl, concat_map.deliver_outer_next_busy i c.1 h0 hb st⟩
    | false => exact Or.inr ⟨rfl, concat_map.deliver_outer_next_idle i c h0 hb st⟩

/-- The queue after outer items `1` and `2`, the second one received while the inner
stream of the first is active: the queue `[2]` has the active inner `1` in front of
it, a third item is accepted, and calls followed by queue are `[1, 2]`. -/
theorem concat_map_never_drops_witness :
    (concat_map.run concat_map.example_values concat_map.example_queued).out.subscribed = true ∧
      (concat_map.run concat_map.example_values concat_map.example_queued).selectedCollections
        = [2] ∧
      (concat_map.run concat_map.example_values concat_map.example_queued).out.is_subscribed
        (concat_map.run concat_map.example_values concat_map.example_queued).collectionLifetime
        = true ∧
      concat_map.accepted (concat_map.run concat_map.example_values concat_map.example_queued)
        (.outer_next 3) = true ∧
      concat_map.accepted_run concat_map.example_values concat_map.example_queued = true ∧
      (concat_map.run concat_map.example_values concat_map.example_queued).collectionCalls ++
        (concat_map.run concat_map.example_values concat_map.example_queued).selectedCollections
        = [1, 2] := by
  have h := concat_map_never_drops concat_map.example_values concat_map.example_queued
  exact ⟨by decide, by decide, h.1 (by decide) (by decide), by decide, by decide,
    h.2.2 (by decide)⟩

/-- C15. Lazy projection with a FIFO queue, after any run `tr`: an accepted outer
item that arrives while an inner subscription is active is appended to the back
of the queue and nothing else changes (`selectCollection` is not called); a step
calls `selectCollection` only on an outer item arriving with no active inner and
an empty queue, or on the front of the queue when an inner stream completes; and
at an accepted inner completion with the queue `v :: rest` the call is on `v`,
the queue becomes `rest`, the completing handle is the active one and is no
longer subscribed afterwards, and when the selector returns the new inner
lifetime is a handle that was not subscribed before and differs from the old
one; when the coordinator returns too, that handle is subscribed and carries
the new inner subscriber. -/
theorem concat_map_lazy_projection {T Obs U R : Type} (i : concat_map.values T Obs U R)
    (tr : List (concat_map.signal T U)) :
    (∀ st, concat_map.accepted (concat_map.run i tr) (.outer_next st) = true →
        (concat_map.run i tr).out.is_subscribed (concat_map.run i tr).collectionLifetime = true →
        concat_map.run i (tr ++ [.outer_next st]) =
          { concat_map.run i tr with
            selectedCollections := (concat_map.run i tr).selectedCollections ++ [st] }) ∧
      (∀ ev,
        (concat_map.run i (tr ++ [ev])).collectionCalls = (concat_map.run i tr).collectionCalls ∨
        (∃ st, ev = .outer_next st ∧
          (concat_map.run i tr).out.is_subscribed (concat_map.run i tr).collectionLifetime = false ∧
          (concat_map.run i tr).selectedCollections = [] ∧
          (concat_map.run i (tr ++ [ev])).collectionCalls =
            (concat_map.run i tr).collectionCalls ++ [st]) ∨
        (∃ h v rest, ev = .inner_completed h ∧
          (concat_map.run i tr).selectedCollections = v :: rest ∧
          (concat_map.run i (tr ++ [ev])).collectionCalls =
            (concat_map.run i tr).collectionCalls ++ [v])) ∧
      (∀ h v rest, concat_map.accepted (concat_map.run i tr) (.inner_completed h) = true →
        (concat_map.run i tr).selectedCollections = v :: rest →
        (concat_map.run i (tr ++ [.inner_completed h])).collectionCalls =
            (concat_map.run i tr).collectionCalls ++ [v] ∧
          (concat_map.run i (tr ++ [.inner_completed h])).selectedCollections = rest ∧
          (concat_map.run i tr).collectionLifetime = some h ∧
          h ∉ (concat_map.run i (tr ++ [.inner_completed h])).out.live ∧
          (∀ c, i.selectCollection v = .ok c →
            (concat_map.run i (tr ++ [.inner_completed h])).collectionLifetime =
                some (concat_map.run i tr).out.fresh ∧
              (concat_map.run i tr).out.fresh ∉ (concat_map.run i tr).out.live ∧
              (concat_map.run i tr).out.fresh ≠ h ∧
              ∀ c2, i.coordinator c = .ok c2 →
                (concat_map.run i tr).out.fresh ∈
                    (concat_map.run i (tr ++ [.inner_completed h])).out.live ∧
                  (concat_map.run i (tr ++ [.inner_completed h])).subscribers =
                    (concat_map.run i tr).subscribers ++
                      [((concat_map.run i tr).out.fresh, v, c2)])) := by
  have c := concat_map.inv_run i tr
  have w := c.1.out_wf
  refine ⟨?_, ?_, ?_⟩
  · intro st hacc hb
    have h0 : 0 ∈ (concat_map.run i tr).out.live := by
      simpa [concat_map.accepted, c.1.source] using hacc
    rw [concat_map.run_append, List.foldl_cons, List.foldl_nil]
    exact concat_map.deliver_outer_next_busy i c.1 h0 hb st
  · intro ev
    rw [concat_map.run_append, List.foldl_cons, List.foldl_nil]
    generalize concat_map.run i tr = s at c w
    refine concat_map.deliver_cases i c ev (fun s1 =>
      s1.collectionCalls = s.collectionCalls ∨
      (∃ st, ev = .outer_next st ∧ s.out.is_subscribed s.collectionLifetime = false ∧
        s.selectedCollections = [] ∧ s1.collectionCalls = s.collectionCalls ++ [st]) ∨
      (∃ h v rest, ev = .inner_completed h ∧ s.selectedCollections = v :: rest ∧
        s1.collectionCalls = s.collectionCalls ++ [v]))
      ?_ ?_ ?_ ?_ ?_ ?_ ?_ ?_ ?_ ?_ ?_ <;> beta_reduce
    · intro _; exact Or.inl rfl
    · intro _; exact Or.inl rfl
    · intro st _ _ _; exact Or.inl rfl
    · intro st he _ hb hq
      exact Or.inr (Or.inl ⟨st, he, hb, hq, concat_map.collectionCalls_subscribe_to i s st⟩)
    · intro e _ _; exact Or.inl rfl
    · intro _ _ _ _; exact Or.inl rfl
    · intro _ _ _; exact Or.inl rfl
    · intro h st ct _ _ _ _
      exact Or.inl (concat_map.delivered_inner_on_next i s st ct).1
    · intro h _ _ _ _ _ _; exact Or.inl rfl
    · intro h _ _ _ _ _ _; exact Or.inl rfl
    · intro h v rest he _ _ _ hq
      exact Or.inr (Or.inr ⟨h, v, rest, he, hq,
        concat_map.collectionCalls_subscribe_to i _ v⟩)
  · intro h v rest hacc hq
    simp only [concat_map.accepted, Bool.and_eq_true, is_subscribed_some,
      decide_eq_true_eq] at hacc
    obtain ⟨hc, hl⟩ := hacc
    rw [concat_map.run_append, List.foldl_cons, List.foldl_nil,
      concat_map.deliver_inner_completed_more i c.1 hc hl hq]
    generalize concat_map.run i tr = s at c w hc hl hq
    have hw : (s.out.unsubscribe_handle (some h)).wf := wf_unsubscribe_handle w _
    have hfl : s.out.fresh ∉ s.out.live := fun hm => Nat.lt_irrefl _ (w.bound _ hm)
    have hfh : s.out.fresh ≠ h := by
      rintro rfl
      exact hfl hl
    have hfr : (s.out.unsubscribe_handle (some h)).fresh = s.out.fresh := by simp
    refine ⟨concat_map.collectionCalls_subscribe_to i _ v,
      concat_map.selectedCollections_subscribe_to i _ v,
      concat_map.inner_is_collection c.1 hc hl, ?_, ?_⟩
    · intro hm
      rcases concat_map.live_subscribe_to i (s := { s with
        selectedCollections := rest, out := s.out.unsubscribe_handle (some h) }) hw v h hm
        with h1 | h1
      · simp [live_unsubscribe_handle] at h1
      · simp only [hfr] at h1
        exact hfh h1.symm
    · intro c1 h1
      refine ⟨?_, hfl, hfh, ?_⟩
      · cases h2 : i.coordinator c1 with
        | error e => rw [concat_map.subscribe_to_coordinator_fault h1 h2]; simp
        | ok c2 => rw [concat_map.subscribe_to_ok h1 h2]; simp
      · intro c2 h2
        rw [concat_map.subscribe_to_ok h1 h2]
        have hsub : (s.out.unsubscribe_handle (some h)).subscribed = true := by
          simpa using subscribed_of_live w hl
        simp [live_new_child hw, hsub, subscribed_of_live w hl]

/-- The queued run `[outer 1, inner value, outer 2]`: a third outer item is queued
behind `2`, and when inner `1` completes the selector is called on `2`, the queue
empties, handle `1` is released and handle `2` carries the new subscriber. -/
theorem concat_map_lazy_projection_witness :
    concat_map.accepted (concat_map.run concat_map.example_values concat_map.example_queued)
        (.outer_next 3) = true ∧
      (concat_map.run concat_map.example_values
        (concat_map.example_queued ++ [.outer_next 3])).selectedCollections = [2, 3] ∧
      (concat_map.run concat_map.example_values
        (concat_map.example_queued ++ [.outer_next 3])).collectionCalls = [1] ∧
      concat_map.accepted (concat_map.run concat_map.example_values concat_map.example_queued)
        (.inner_completed 1) = true ∧
      (concat_map.run concat_map.example_values
        (concat_map.example_queued ++ [.inner_completed 1])).collectionCalls = [1, 2] ∧
      (concat_map.run concat_map.example_values
        (concat_map.example_queued ++ [.inner_completed 1])).selectedCollections = [] ∧
      1 ∉ (concat_map.run concat_map.example_values
        (concat_map.example_queued ++ [.inner_completed 1])).out.live ∧
      (concat_map.run concat_map.example_values
        (concat_map.example_queued ++ [.inner_completed 1])).collectionLifetime = some 2 := by
  have h := concat_map_lazy_projection concat_map.example_values concat_map.example_queued
  have h1 := h.1 3 (by decide) (by decide)
  have h3 := h.2.2 1 2 [] (by decide) (by decide)
  refine ⟨by decide, ?_, ?_, by decide, h3.1, h3.2.1, h3.2.2.2.1, by decide⟩
  · rw [h1]; decide
  · rw [h1]; decide

end rxcpp

/-! ## The pending-completion counter of merge -/

namespace rxcpp
open output_type

theorem length_filter_key {Obs : Type} (f : Nat → Bool) (h : Nat) :
    ∀ (l : List (Nat × Obs)), (l.map Prod.fst).Nodup → (∃ p ∈ l, p.1 = h) → f h = true →
      (l.filter (fun p => f p.1 && !(p.1 == h))).length + 1 =
        (l.filter (fun p => f p.1)).length
  | [], _, hm, _ => by simp at hm
  | a :: l, hn, hm, hf => by
    rw [List.map_cons, List.nodup_cons] at hn
    by_cases ha : a.1 = h
    · have hrest : l.filter (fun p => f p.1 && !(p.1 == h)) = l.filter (fun p => f p.1) := by
        apply List.filter_congr
        intro p hp
        have : p.1 ≠ h := by
          rintro rfl
          exact hn.1 (by rw [ha]; exact List.mem_map_of_mem _ hp)
        simp [this]
      simp [List.filter_cons, ha, hf, hrest]
    · have hm1 : ∃ p ∈ l, p.1 = h := by
        obtain ⟨p, hp, hph⟩ := hm
        rcases List.mem_cons.1 hp with rfl | hp
        · exact absurd hph ha
        · exact ⟨p, hp, hph⟩
      have ih := length_filter_key f h l hn.2 hm1 hf
      cases hfa : f a.1 <;> simp [List.filter_cons, ha, hfa, ih]

namespace merge
variable {Obs R : Type}

theorem outer_completed_in_iff (tr : List (signal Obs R)) :
    outer_completed_in tr = true ↔ signal.outer_completed ∈ tr := by
  simp only [outer_completed_in, List.any_eq_true]
  constructor
  · rintro ⟨ev, hev, h⟩
    cases ev <;> simp at h
    exact hev
  · intro h
    exact ⟨_, h, rfl⟩

theorem inner_completed_in_iff (h : Nat) (tr : List (signal Obs R)) :
    inner_completed_in h tr = true ↔ signal.inner_completed h ∈ tr := by
  simp only [inner_completed_in, List.any_eq_true]
  constructor
  · rintro ⟨ev, hev, h1⟩
    cases ev <;> simp at h1
    subst h1
    exact hev
  · intro h1
    exact ⟨_, h1, by simp⟩

theorem subscribed_before (i : values Obs) {s : merge_state_type Obs R} (c : inv s)
    (ev : signal Obs R) (hs : (deliver i s ev).out.subscribed = true) :
    s.out.subscribed = true := by
  cases h : s.out.subscribed with
  | true => rfl
  | false =>
    rw [deliver_dead_merge i h (c.out_wf.dead h)] at hs
    rw [h] at hs
    exact hs

theorem keys_deliver (i : values Obs) {s : merge_state_type Obs R} (c : inv s)
    (hk : (s.subscribers.map Prod.fst).Nodup) (ev : signal Obs R) :
    ((deliver i s ev).subscribers.map Prod.fst).Nodup := by
  refine deliver_cases_merge i c ev (fun s1 => (s1.subscribers.map Prod.fst).Nodup)
    ?_ ?_ ?_ ?_ ?_ ?_ ?_ ?_ ?_ <;> beta_reduce
  · intro _; exact hk
  · intro _; exact hk
  · intro st _ _
    cases hc : i.coordinator st with
    | error e => rw [outer_on_next_fault hc]; exact hk
    | ok c2 =>
      rw [outer_on_next_ok hc]
      simp only [List.map_append, List.map_cons, List.map_nil]
      rw [List.nodup_append]
      refine ⟨hk, List.nodup_singleton _, ?_⟩
      intro a ha hb
      simp only [List.mem_singleton] at hb
      obtain ⟨p, hp, rfl⟩ := List.mem_map.1 ha
      have := (c.subs p hp).2
      omega
  · intro e _ _; exact hk
  · intro _ _ _; exact hk
  · intro _ _ _; exact hk
  · intro h ct _ _ _; exact hk
  · intro h _ _ _ _; exact hk
  · intro h _ _ _ _; exact hk

theorem keys_run (i : values Obs) (tr : List (signal Obs R)) :
    ((run i tr).subscribers.map Prod.fst).Nodup := by
  induction tr using List.reverseRecOn with
  | nil => cases hsrc : i.source <;> simp [run, on_subscribe, on_exception, hsrc]
  | append_singleton tr ev ih =>
    rw [run_append_merge, List.foldl_cons, List.foldl_nil]
    exact keys_deliver i (inv_run_merge i tr) ih ev

/-- The step of `alive` with no assumption on the coordination: a state that is
still subscribed after the signal has seen no fault. -/
theorem alive_step (i : values Obs) {s : merge_state_type Obs R} (c : inv s)
    {tr : List (signal Obs R)} (a : alive tr s)
    (ev : signal Obs R) (hacc : accepted s ev = true)
    (hs : (deliver i s ev).out.subscribed = true) : alive (tr ++ [ev]) (deliver i s ev) := by
  have hsub := subscribed_before i c ev hs
  cases hb : ev.benign with
  | true =>
    cases ev with
    | outer_next st =>
      cases hc : i.coordinator st with
      | error e =>
        have h0 : 0 ∈ s.out.live := by simpa [accepted, c.outer] using hacc
        rw [deliver_outer_next i c h0, outer_on_next_fault hc] at hs
        simp at hs
      | ok c2 =>
        have h0 : 0 ∈ s.out.live := by simpa [accepted, c.outer] using hacc
        have hj : (match i.coordinator st with
            | .ok y => y
            | .error _ => c2) = c2 := by rw [hc]
        have r := alive_deliver
          { source := i.source
            coordinator := fun x => .ok (match i.coordinator x with
              | .ok y => y
              | .error _ => c2) }
          (fun x => ⟨_, rfl⟩) c a (.outer_next st) hacc hb
        rw [deliver_outer_next _ c h0, outer_on_next_ok (c := c2) (by simp only [hj])] at r
        rw [deliver_outer_next i c h0, outer_on_next_ok hc] at hs ⊢
        exact r hs
    | outer_completed =>
      exact alive_deliver { source := i.source, coordinator := fun x => .ok x }
        (fun x => ⟨x, rfl⟩) c a _ hacc hb hs
    | inner_next h ct =>
      exact alive_deliver { source := i.source, coordinator := fun x => .ok x }
        (fun x => ⟨x, rfl⟩) c a _ hacc hb hs
    | inner_completed h =>
      exact alive_deliver { source := i.source, coordinator := fun x => .ok x }
        (fun x => ⟨x, rfl⟩) c a _ hacc hb hs
    | outer_error e => simp [signal.benign] at hb
    | inner_error h e => simp [signal.benign] at hb
    | unsubscribe => simp [signal.benign] at hb
  | false =>
    exfalso
    revert hs
    refine deliver_cases_merge i c ev (fun s1 => s1.out.subscribed = true → False)
      ?_ ?_ ?_ ?_ ?_ ?_ ?_ ?_ ?_ <;> beta_reduce
    · intro ha; rw [ha] at hacc; exact absurd hacc (by simp)
    · intro _ hs; simp at hs
    · rintro st rfl; simp [signal.benign] at hb
    · intro e _ _ hs; simp at hs
    · rintro rfl; simp [signal.benign] at hb
    · rintro rfl; simp [signal.benign] at hb
    · rintro h ct rfl; simp [signal.benign] at hb
    · rintro h rfl; simp [signal.benign] at hb
    · rintro h rfl; simp [signal.benign] at hb

theorem alive_reach (i : values Obs) (tr : List (signal Obs R))
    (hacc : accepted_run i tr = true) (hs : (run i tr).out.subscribed = true) :
    alive tr (run i tr) := by
  induction tr using List.reverseRecOn with
  | nil =>
    revert hs
    cases hsrc : i.source with
    | error e => simp [run, on_subscribe, on_exception, hsrc]
    | ok u =>
      intro _
      refine ⟨?_, ?_, ?_⟩ <;>
        simp [run, on_subscribe, on_exception, hsrc, start, create, add]
  | append_singleton tr ev ih =>
    rw [accepted_run_append_merge, Bool.and_eq_true] at hacc
    have c := inv_run_merge i tr
    rw [run_append_merge, List.foldl_cons, List.foldl_nil] at hs ⊢
    exact alive_step i c (ih hacc.1 (subscribed_before i c ev hs)) ev hacc.2 hs

theorem outer_completed_in_snoc (tr : List (signal Obs R)) (ev : signal Obs R) :
    outer_completed_in (tr ++ [ev]) = (outer_completed_in tr || outer_completed_in [ev]) := by
  simp [outer_completed_in, List.any_append]

theorem inner_completed_in_snoc (h : Nat) (tr : List (signal Obs R)) (ev : signal Obs R) :
    inner_completed_in h (tr ++ [ev]) =
      (inner_completed_in h tr || inner_completed_in h [ev]) := by
  simp [inner_completed_in, List.any_append]

theorem counted_deliver (i : values Obs) {s : merge_state_type Obs R} (c : inv s)
    {tr : List (signal Obs R)} (a : alive tr s) (hk : (s.subscribers.map Prod.fst).Nodup)
    (hp : s.pendingCompletions = int32 (pending_sources s tr))
    (ev : signal Obs R) (hacc : accepted s ev = true)
    (hs : (deliver i s ev).out.subscribed = true) :
    (deliver i s ev).pendingCompletions =
      int32 (pending_sources (deliver i s ev) (tr ++ [ev])) := by
  have w := c.out_wf
  revert hs
  refine deliver_cases_merge i c ev (fun s1 => s1.out.subscribed = true →
    s1.pendingCompletions = int32 (pending_sources s1 (tr ++ [ev])))
    ?_ ?_ ?_ ?_ ?_ ?_ ?_ ?_ ?_ <;> beta_reduce
  · intro ha; rw [ha] at hacc; exact absurd hacc (by simp)
  · intro _ hs; simp at hs
  · rintro st rfl h0 hs
    cases hc : i.coordinator st with
    | error e => rw [outer_on_next_fault hc] at hs; simp at hs
    | ok c2 =>
      rw [outer_on_next_ok hc]
      have hnew : inner_completed_in s.out.fresh tr = false := by
        rw [Bool.eq_false_iff, Ne, inner_completed_in_iff]
        exact a.later _ (le_refl _)
      have hO : outer_completed_in (tr ++ [signal.outer_next st]) = outer_completed_in tr := by
        simp [outer_completed_in]
      have hI : ∀ x, inner_completed_in x (tr ++ [signal.outer_next st]) =
          inner_completed_in x tr := by
        intro x; simp [inner_completed_in]
      have hps : pending_sources ({ s with
          out := s.out.new_child,
          pendingCompletions := int32 (s.pendingCompletions + 1),
          subscribers := s.subscribers ++ [(s.out.fresh, c2)] } : merge_state_type Obs R)
          (tr ++ [signal.outer_next st]) = pending_sources s tr + 1 := by
        simp only [pending_sources, hO, hI, List.filter_append]
        simp only [List.filter_cons, hnew, Bool.not_false, if_true, List.filter_nil,
          List.length_append, List.length_cons, List.length_nil]
        push_cast
        ring
      rw [hps]
      simp only [hp, int32_succ]
  · intro e _ _ hs; simp at hs
  · intro _ _ _ hs; simp at hs
  · rintro rfl h0 _ _
    have hout : outer_completed_in tr = false := by
      rw [Bool.eq_false_iff, Ne, outer_completed_in_iff]
      exact a.outer.1 h0
    have hO : outer_completed_in (tr ++ [signal.outer_completed]) = true := by
      simp [outer_completed_in]
    have hI : ∀ x, inner_completed_in x (tr ++ [signal.outer_completed]) =
        inner_completed_in x tr := by
      intro x; simp [inner_completed_in]
    have hps : pending_sources ({ s with
        pendingCompletions := int32 (s.pendingCompletions - 1),
        out := s.out.unsubscribe_handle (some 0) } : merge_state_type Obs R)
        (tr ++ [signal.outer_completed]) = pending_sources s tr - 1 := by
      simp only [pending_sources, hO, hI, hout]
      simp
    rw [hps]
    simp only [hp, int32_pred]
  · rintro h ct rfl _ _ _
    have hO : outer_completed_in (tr ++ [signal.inner_next h ct]) = outer_completed_in tr := by
      simp [outer_completed_in]
    have hI : ∀ x, inner_completed_in x (tr ++ [signal.inner_next h ct]) =
        inner_completed_in x tr := by
      intro x; simp [inner_completed_in]
    simp only [pending_sources, hO, hI] at hp ⊢
    exact hp
  · intro h _ _ _ _ hs; simp at hs
  · rintro h rfl hi hl _ _
    have hin : inner_completed_in h tr = false := by
      obtain ⟨q, hq, rfl⟩ := is_inner_iff.1 hi
      rw [Bool.eq_false_iff, Ne, inner_completed_in_iff]
      exact (a.inner q hq).1 hl
    have key := length_filter_key (fun x => !inner_completed_in x tr) h s.subscribers hk
      (is_inner_iff.1 hi) (by simp [hin])
    have hO : outer_completed_in (tr ++ [signal.inner_completed h]) = outer_completed_in tr := by
      simp [outer_completed_in]
    have hI : ∀ x, inner_completed_in x (tr ++ [signal.inner_completed h]) =
        (inner_completed_in x tr || x == h) := by
      intro x
      have : (h == x) = (x == h) := by
        by_cases hx : h = x
        · subst hx; rfl
        · have hx2 : ¬ x = h := fun e => hx e.symm
          simp [hx, hx2]
      simp only [inner_completed_in, List.any_append, List.any_cons, List.any_nil,
        Bool.or_false, this]
    have hps : pending_sources ({ s with
        pendingCompletions := int32 (s.pendingCompletions - 1),
        out := s.out.unsubscribe_handle (some h) } : merge_state_type Obs R)
        (tr ++ [signal.inner_completed h]) = pending_sources s tr - 1 := by
      simp only [pending_sources, hO, hI, Bool.not_or]
      have : ((s.subscribers.filter (fun p => !inner_completed_in p.1 tr)).length : Int) =
          ((s.subscribers.filter
            (fun p => (!inner_completed_in p.1 tr) && !(p.1 == h))).length : Int) + 1 := by
        exact_mod_cast key.symm
      rw [this]; ring
    rw [hps]
    simp only [hp, int32_pred]

theorem counted_run (i : values Obs) (tr : List (signal Obs R))
    (hacc : accepted_run i tr = true) (hs : (run i tr).out.subscribed = true) :
    (run i tr).pendingCompletions = int32 (pending_sources (run i tr) tr) := by
  induction tr using List.reverseRecOn with
  | nil =>
    revert hs
    cases hsrc : i.source with
    | error e => simp [run, on_subscribe, on_exception, hsrc]
    | ok u =>
      intro _
      simp [run, on_subscribe, on_exception, hsrc, pending_sources, outer_completed_in]
  | append_singleton tr ev ih =>
    rw [accepted_run_append_merge, Bool.and_eq_true] at hacc
    have c := inv_run_merge i tr
    have hs2 := hs
    rw [run_append_merge, List.foldl_cons, List.foldl_nil] at hs2 ⊢
    have hsub := subscribed_before i c ev hs2
    exact counted_deliver i c (alive_reach i tr hacc.1 hsub) (keys_run i tr)
      (ih hacc.1 hsub) ev hacc.2 hs2

theorem subscribers_le_items (i : values Obs) (tr : List (signal Obs R)) :
    (run i tr).subscribers.length ≤ (outer_items tr).length := by
  induction tr using List.reverseRecOn with
  | nil => cases hsrc : i.source <;> simp [run, on_subscribe, on_exception, hsrc]
  | append_singleton tr ev ih =>
    have c := inv_run_merge i tr
    rw [run_append_merge, List.foldl_cons, List.foldl_nil, outer_items_snoc, List.length_append]
    generalize run i tr = s at *
    refine deliver_cases_merge i c ev (fun s1 =>
      s1.subscribers.length ≤ (outer_items tr).length + (signal.item ev).toList.length)
      ?_ ?_ ?_ ?_ ?_ ?_ ?_ ?_ ?_ <;> beta_reduce
    · intro _; omega
    · intro _; exact Nat.le_add_right_of_le ih
    · rintro st rfl _
      cases hc : i.coordinator st with
      | error e => rw [outer_on_next_fault hc]; exact Nat.le_add_right_of_le ih
      | ok c2 =>
        rw [outer_on_next_ok hc]
        simp only [List.length_append, List.length_singleton, signal.item, Option.toList]
        omega
    · intro e _ _; exact Nat.le_add_right_of_le ih
    · intro _ _ _; exact Nat.le_add_right_of_le ih
    · intro _ _ _; exact Nat.le_add_right_of_le ih
    · intro h ct _ _ _; exact Nat.le_add_right_of_le ih
    · intro h _ _ _ _; exact Nat.le_add_right_of_le ih
    · intro h _ _ _ _; exact Nat.le_add_right_of_le ih

theorem pending_sources_bounds (s : merge_state_type Obs R) (tr : List (signal Obs R)) :
    0 ≤ pending_sources s tr ∧ pending_sources s tr ≤ s.subscribers.length + 1 := by
  have h := List.length_filter_le (fun p : Nat × Obs => !inner_completed_in p.1 tr) s.subscribers
  unfold pending_sources
  constructor
  · split <;> omega
  · split <;> omega

theorem outer_on_next_sync_ok {i : values Obs} {st c : Obs} (h : i.coordinator st = .ok c)
    (s : merge_state_type Obs R) (sync : List (signal Obs R)) :
    outer_on_next_sync i s st sync = sync.foldl deliver_inner (outer_on_next i s st) := by
  simp [outer_on_next, outer_on_next_sync, on_exception, h]

theorem deliver_inner_completed (i : values Obs) (s : merge_state_type Obs R) (h : Nat) :
    deliver_inner s (.inner_completed h) = deliver i s (.inner_completed h) := rfl

theorem pending_sources_replicate (i : values Obs) (st c : Obs) (hsrc : i.source = .ok ())
    (hc : i.coordinator st = .ok c) (n : Nat) :
    pending_sources (run i (List.replicate n (signal.outer_next st)) : merge_state_type Obs R)
      (List.replicate n (signal.outer_next st)) = n + 1 := by
  obtain ⟨_, _, _, _, _, h6⟩ := run_replicate (R := R) i st c hsrc hc n
  have hO : outer_completed_in (List.replicate n (signal.outer_next st) :
      List (signal Obs R)) = false := by
    simp [outer_completed_in]
  have hI : ∀ x, inner_completed_in x (List.replicate n (signal.outer_next st) :
      List (signal Obs R)) = false := by
    intro x; simp [inner_completed_in]
  simp only [pending_sources, hO, hI, Bool.not_false, List.filter_true, h6]
  simp
  ring

end merge
end rxcpp

namespace rxcpp
open output_type

end rxcpp

/-! ## The selector calls of concat_map -/

namespace rxcpp
open output_type

namespace concat_map
variable {T Obs U R : Type}

theorem pairs_append (n1 n2 : List (Nat × T)) (tr : List (signal T U)) :
    pairs (n1 ++ n2) tr = pairs n1 tr ++ pairs n2 tr := by
  simp [pairs]

theorem pairs_snoc (names : List (Nat × T)) (tr : List (signal T U))
    (ev : signal T U) (h : ∀ p ∈ names, signal.value p.1 ev = none) :
    pairs names (tr ++ [ev]) = pairs names tr := by
  unfold pairs
  apply List.flatMap_congr
  intro p hp
  rw [inner_values_snoc, h p hp]
  simp

theorem resultCalls_subscribe_to (i : values T Obs U R)
    (s : concat_map_state_type T Obs U R) (st : T) :
    (subscribe_to i s st).resultCalls = s.resultCalls := by
  cases h1 : i.selectCollection st with
  | error e => rw [subscribe_to_fault h1]
  | ok c1 =>
    cases h2 : i.coordinator c1 with
    | error e => rw [subscribe_to_coordinator_fault h1 h2]
    | ok c2 => rw [subscribe_to_ok h1 h2]

theorem subscribers_subscribe_to (i : values T Obs U R)
    (s : concat_map_state_type T Obs U R) (st : T) :
    (subscribe_to i s st).subscribers = s.subscribers ∨
      ∃ c2, (subscribe_to i s st).subscribers = s.subscribers ++ [(s.out.fresh, st, c2)] := by
  cases h1 : i.selectCollection st with
  | error e => rw [subscribe_to_fault h1]; exact Or.inl rfl
  | ok c1 =>
    cases h2 : i.coordinator c1 with
    | error e => rw [subscribe_to_coordinator_fault h1 h2]; exact Or.inl rfl
    | ok c2 => rw [subscribe_to_ok h1 h2]; exact Or.inr ⟨c2, rfl⟩

/-- The result-selector calls after `subscribe_to`, given those before it. -/
theorem paired_subscribe_to (i : values T Obs U R) {s : concat_map_state_type T Obs U R}
    {tr : List (signal T U)} (v : T) (hv : inner_values s.out.fresh tr = [])
    (hp : s.resultCalls = pairs (s.subscribers.map (fun p => (p.1, p.2.1))) tr) :
    (subscribe_to i s v).resultCalls =
      pairs ((subscribe_to i s v).subscribers.map (fun p => (p.1, p.2.1))) tr := by
  rw [resultCalls_subscribe_to]
  rcases subscribers_subscribe_to i s v with h | ⟨c2, h⟩
  · rw [h]; exact hp
  · rw [h]
    simp only [List.map_append, List.map_cons, List.map_nil, pairs_append]
    rw [hp]
    simp [pairs, hv]

theorem paired_deliver {i : values T Obs U R} {rs : T → U → R}
    {tr : List (signal T U)} {s : concat_map_state_type T Obs U R} (c : inv s)
    (t : traced i rs tr s)
    (hp : s.resultCalls = pairs (s.subscribers.map (fun p => (p.1, p.2.1))) tr)
    (ev : signal T U) (hacc : accepted s ev = true) (hb : ev.benign = true) :
    (deliver i s ev).resultCalls =
      pairs ((deliver i s ev).subscribers.map (fun p => (p.1, p.2.1))) (tr ++ [ev]) := by
  have w := c.1.out_wf
  refine deliver_cases i c ev (fun s1 => s1.resultCalls =
      pairs (s1.subscribers.map (fun p => (p.1, p.2.1))) (tr ++ [ev]))
    ?_ ?_ ?_ ?_ ?_ ?_ ?_ ?_ ?_ ?_ ?_ <;> beta_reduce
  · intro ha; rw [ha] at hacc; exact absurd hacc (by simp)
  · rintro rfl; simp [signal.benign] at hb
  · rintro st rfl _ _
    rw [pairs_snoc _ _ _ (by intro p _; rfl)]; exact hp
  · rintro st rfl _ _ _
    apply paired_subscribe_to
    · have := (t.later _ (le_refl _)).1
      simp [inner_values_snoc, signal.value, this]
    · rw [pairs_snoc _ _ _ (by intro p _; rfl)]; exact hp
  · rintro e (rfl | ⟨h, rfl⟩) _ <;> simp [signal.benign] at hb
  · rintro rfl _ _ _
    rw [pairs_snoc _ _ _ (by intro p _; rfl)]; exact hp
  · rintro rfl _ _
    rw [pairs_snoc _ _ _ (by intro p _; rfl)]; exact hp
  · rintro h st ct rfl hc hl hcl
    obtain ⟨pre, o, hsub, hlt⟩ := newest_subscriber c.1 t.sorted hcl hl hc
    have e3 := (delivered_inner_on_next i s st ct).2.2.1
    have e4 : (inner_on_next i s st ct).resultCalls = s.resultCalls ++ [(st, ct)] := by
      cases hr : i.selectResult st ct with
      | error e => rw [inner_on_next_fault hr]
      | ok r => rw [inner_on_next_ok hr]
    rw [e3, e4, hp]
    simp only [hsub, List.map_append, List.map_cons, List.map_nil, pairs_append]
    rw [pairs_snoc (pre.map _) tr _ (by
      intro p hp
      simp only [List.mem_map] at hp
      obtain ⟨q, hq, rfl⟩ := hp
      have := hlt q hq
      have hne : h ≠ q.1 := by omega
      simp [signal.value, hne])]
    simp [pairs, inner_values_snoc, signal.value]
  · rintro h rfl _ _ _ _ _
    rw [pairs_snoc _ _ _ (by intro p _; rfl)]; exact hp
  · rintro h rfl _ _ _ _ _
    rw [pairs_snoc _ _ _ (by intro p _; rfl)]; exact hp
  · rintro h v rest rfl _ hl _ _
    apply paired_subscribe_to
    · have := (t.later _ (le_refl _)).1
      have hb := w.bound h hl
      have hne : h ≠ s.out.fresh := by omega
      simp [inner_values_snoc, signal.value, this, hne]
    · rw [pairs_snoc _ _ _ (by intro p _; rfl)]; exact hp

theorem paired_run {i : values T Obs U R} {rs : T → U → R} (hsrc : i.source = .ok ())
    (hres : ∀ x v, i.selectResult x v = .ok (rs x v))
    (hco : ∀ o, ∃ c, i.coordinator o = .ok c) (tr : List (signal T U))
    (hacc : accepted_run i tr = true) (hben : ∀ ev ∈ tr, ev.benign = true) :
    (run i tr).resultCalls =
      pairs ((run i tr).subscribers.map (fun p => (p.1, p.2.1))) tr := by
  induction tr using List.reverseRecOn with
  | nil => simp [run, on_subscribe, on_exception, hsrc, pairs]
  | append_singleton tr ev ih =>
    rw [accepted_run_append, Bool.and_eq_true] at hacc
    have hb : ev.benign = true := hben ev (by simp)
    have hben1 : ∀ x ∈ tr, x.benign = true := fun x hx => hben x (by simp [hx])
    have c := inv_run i tr
    have hsub := subscribed_of_accepted c hacc.2 hb
    rw [run_append, List.foldl_cons, List.foldl_nil]
    rcases tracking_run hsrc hres hco tr hacc.1 hben1 with t | f | ⟨x, e, f⟩
    · exact paired_deliver c t.traced (ih hacc.1 hben1) ev hacc.2 hb
    · rw [f.sub] at hsub; exact absurd hsub (by simp)
    · rw [f.sub] at hsub; exact absurd hsub (by simp)

end concat_map

/-- C14. Selector invocation count of `concat_map`: take a result selector and a
coordination that do not fault, and any run `tr` without an error signal or
cancellation in which every signal is accepted when it is sent and that has
ended in `on_completed`.  Then the operator has subscribed to one inner stream
for each outer item received, in arrival order (the one for the `k`-th outer
item is named `k`); the calls of `selectCollection` are the outer items
received, one call each in arrival order; and the calls of `selectResult` are,
for the outer items `x` in arrival order, one call on `(x, v)` for each value
`v` the inner stream of `x` sent. -/
theorem concat_map_selector_calls {T Obs U R : Type} (i : concat_map.values T Obs U R)
    (rs : T → U → R) (tr : List (concat_map.signal T U))
    (hsrc : i.source = .ok ())
    (hres : ∀ x v, i.selectResult x v = .ok (rs x v))
    (hco : ∀ o, ∃ c, i.coordinator o = .ok c)
    (hacc : concat_map.accepted_run i tr = true)
    (hben : ∀ ev ∈ tr, ev.benign = true)
    (hdone : (concat_map.run i tr).out.delivered.getLast? = some .on_completed) :
    (concat_map.run i tr).subscribers.map (fun p => (p.1, p.2.1)) =
        List.enumFrom 1 (concat_map.outer_items tr) ∧
      (concat_map.run i tr).collectionCalls = concat_map.outer_items tr ∧
      (concat_map.run i tr).resultCalls =
        concat_map.pairs (List.enumFrom 1 (concat_map.outer_items tr)) tr := by
  have c := concat_map.inv_run i tr
  have hp := concat_map.paired_run hsrc hres hco tr hacc hben
  rcases concat_map.tracking_run hsrc hres hco tr hacc hben with t | f | ⟨x, e, f⟩
  · exfalso
    have hm := List.mem_of_getLast?_eq_some hdone
    have := c.1.out_wf.quiet t.traced.sub _ hm
    simp [notification.terminal] at this
  · refine ⟨by rw [f.names, f.items], by rw [f.calls, f.items], ?_⟩
    rw [hp, f.names, f.items]
  · exfalso
    rw [f.output] at hdone
    simp at hdone

/-- Outer `[1, 2]` with `f(x) = [x*10, x*10+1]`: the run ends in `on_completed`,
`selectCollection` is called on `1` and on `2`, and `selectResult` on `(1, 10)`,
`(1, 11)`, `(2, 20)`, `(2, 21)`. -/
theorem concat_map_selector_calls_witness :
    concat_map.accepted_run concat_map.example_values concat_map.example_run = true ∧
      (concat_map.run concat_map.example_values concat_map.example_run).out.delivered.getLast?
        = some .on_completed ∧
      (concat_map.run concat_map.example_values concat_map.example_run).collectionCalls
        = [1, 2] ∧
      (concat_map.run concat_map.example_values concat_map.example_run).resultCalls
        = [(1, 10), (1, 11), (2, 20), (2, 21)] :=
  have h := concat_map_selector_calls concat_map.example_values (fun _ v => v)
    concat_map.example_run rfl (fun _ _ => rfl) (fun o => ⟨o, rfl⟩)
    (by decide) (by decide) (by decide)
  ⟨by decide, by decide, h.2.1.trans (by decide), h.2.2.trans (by decide)⟩

end rxcpp

/-! ## merge and concat_map on inner streams that do not overlap -/

namespace rxcpp
open output_type

theorem two_le_length_of_mem {l : List Nat} {a b : Nat} (ha : a ∈ l) (hb : b ∈ l)
    (hne : a ≠ b) : 2 ≤ l.length := by
  match l, ha, hb with
  | [x], ha, hb =>
    simp only [List.mem_singleton] at ha hb
    exact absurd (ha.trans hb.symm) hne
  | _ :: _ :: _, _, _ => simp

namespace concat_map
variable {Obs R : Type}

theorem live_length_le_two {T Obs U R : Type} {s : concat_map_state_type T Obs U R}
    (c : core s) : s.out.live.length ≤ 2 := by
  cases hcl : s.collectionLifetime with
  | none =>
    have hsub : s.out.live ⊆ [0] := by
      intro x hx
      rcases c.single x hx with h | h
      · simp [h]
      · rw [hcl] at h; exact absurd h (by simp)
    have := (List.subperm_of_subset c.out_wf.nodup hsub).length_le
    simp at this
    omega
  | some k =>
    have hsub : s.out.live ⊆ [0, k] := by
      intro x hx
      rcases c.single x hx with h | h
      · simp [h]
      · rw [hcl] at h
        simp [Option.some.inj h]
    have := (List.subperm_of_subset c.out_wf.nodup hsub).length_le
    simpa using this

theorem is_inner_of_captured {sc : concat_map_state_type Obs Obs R R}
    {sm : merge.merge_state_type Obs R} {b : Bool} (a : agrees sc sm b) {h : Nat}
    (hc : (captured sc h).isSome = true) : merge.is_inner sm h = true := by
  obtain ⟨st, hst⟩ := Option.isSome_iff_exists.1 hc
  obtain ⟨o, ho⟩ := captured_some hst
  rw [merge.is_inner_iff, a.subs]
  exact ⟨(h, o), List.mem_map.2 ⟨_, ho, rfl⟩, rfl⟩

theorem accepted_to_merge {sc : concat_map_state_type Obs Obs R R}
    {sm : merge.merge_state_type Obs R} {b : Bool} (a : agrees sc sm b)
    (ev : signal Obs R) (hacc : accepted sc ev = true) :
    merge.accepted sm ev.to_merge = true := by
  cases ev with
  | unsubscribe => rfl
  | outer_next st => simpa [merge.accepted, signal.to_merge, a.out, a.outer] using hacc
  | outer_error e => simpa [merge.accepted, signal.to_merge, a.out, a.outer] using hacc
  | outer_completed => simpa [merge.accepted, signal.to_merge, a.out, a.outer] using hacc
  | inner_next h ct =>
    simp only [accepted, Bool.and_eq_true] at hacc
    simp only [merge.accepted, signal.to_merge, Bool.and_eq_true, a.out]
    exact ⟨is_inner_of_captured a hacc.1, hacc.2⟩
  | inner_error h e =>
    simp only [accepted, Bool.and_eq_true] at hacc
    simp only [merge.accepted, signal.to_merge, Bool.and_eq_true, a.out]
    exact ⟨is_inner_of_captured a hacc.1, hacc.2⟩
  | inner_completed h =>
    simp only [accepted, Bool.and_eq_true] at hacc
    simp only [merge.accepted, signal.to_merge, Bool.and_eq_true, a.out]
    exact ⟨is_inner_of_captured a hacc.1, hacc.2⟩

theorem agrees_deliver (im : merge.values Obs) {sc : concat_map_state_type Obs Obs R R}
    {sm : merge.merge_state_type Obs R} {b : Bool} (c : inv sc) (m : merge.inv sm)
    (a : agrees sc sm b) (ev : signal Obs R) (hacc : accepted sc ev = true)
    (hseq : (sequential_step (true, b) ev).1 = true) :
    agrees (deliver (flatten im) sc ev) (merge.deliver im sm ev.to_merge)
      (sequential_step (true, b) ev).2 := by
  have w := c.1.out_wf
  have hm := accepted_to_merge a ev hacc
  have hlen : sc.out.subscribed = true → sm.pendingCompletions = sc.out.live.length := by
    intro hs
    have := m.counter (by rw [a.out]; exact hs)
    rw [a.out] at this
    have h2 := live_length_le_two c.1
    rw [this]
    exact int32_id (by omega) (by omega)
  revert hseq hm
  refine deliver_cases (flatten im) c ev (fun s1 =>
    (sequential_step (true, b) ev).1 = true → merge.accepted sm ev.to_merge = true →
    agrees s1 (merge.deliver im sm ev.to_merge) (sequential_step (true, b) ev).2)
    ?_ ?_ ?_ ?_ ?_ ?_ ?_ ?_ ?_ ?_ ?_ <;> beta_reduce
  · intro ha; rw [ha] at hacc; exact absurd hacc (by simp)
  · rintro rfl _ _
    refine ⟨?_, a.outer, a.subs, a.queue, ?_⟩
    · simp only [signal.to_merge, merge.deliver, a.out]
    · intro hb
      rw [is_subscribed_dead (live_unsubscribe w)] at hb
      exact absurd hb (by simp)
  · rintro st rfl _ hb hseq _
    rw [a.idle hb] at hseq
    simp [sequential_step] at hseq
  · rintro st rfl h0 _ _ _ _
    have h0m : 0 ∈ sm.out.live := by rw [a.out]; exact h0
    simp only [signal.to_merge, sequential_step]
    rw [merge.deliver_outer_next im m h0m]
    have h1 : (flatten im : values Obs Obs R R).selectCollection st = .ok st := rfl
    cases h2 : im.coordinator st with
    | error e =>
      rw [subscribe_to_coordinator_fault h1 (by exact h2), merge.outer_on_next_fault h2]
      exact ⟨by simp only [a.out], a.outer, a.subs, a.queue, fun _ => rfl⟩
    | ok c2 =>
      rw [subscribe_to_ok h1 (by exact h2), merge.outer_on_next_ok h2]
      refine ⟨by simp only [a.out], a.outer, ?_, a.queue, fun _ => rfl⟩
      simp [a.subs, a.out]
  · rintro e (rfl | ⟨h, rfl⟩) _ _ hm
    · have h0m : 0 ∈ sm.out.live := by simpa [merge.accepted, signal.to_merge, m.outer] using hm
      simp only [signal.to_merge]
      rw [merge.deliver_outer_error_merge im m h0m]
      refine ⟨by simp only [a.out], a.outer, a.subs, a.queue, ?_⟩
      intro hb
      rw [is_subscribed_dead (live_on_error w e)] at hb
      exact absurd hb (by simp)
    · simp only [merge.accepted, signal.to_merge, Bool.and_eq_true, is_subscribed_some,
        decide_eq_true_eq] at hm
      simp only [signal.to_merge]
      rw [merge.deliver_inner_error_merge im m hm.1 hm.2]
      refine ⟨by simp only [a.out], a.outer, a.subs, a.queue, ?_⟩
      intro hb
      rw [is_subscribed_dead (live_on_error w e)] at hb
      exact absurd hb (by simp)
  · rintro rfl h0 hb _ _ _
    have h0m : 0 ∈ sm.out.live := by rw [a.out]; exact h0
    have hp : sm.pendingCompletions = 1 := by
      rw [hlen (subscribed_of_live w h0)]
      have h1 : sc.out.live.length ≤ 1 := by
        apply length_le_one_of_all_eq w.nodup (c := 0)
        intro x hx
        rcases c.1.single x hx with h | h
        · exact h
        · rw [h] at hb
          simp [hx] at hb
      have h2 := List.length_pos_of_mem h0
      omega
    simp only [signal.to_merge]
    rw [merge.deliver_outer_completed_last im m h0m hp]
    refine ⟨by simp only [a.out], a.outer, a.subs, a.queue, ?_⟩
    intro hb1
    rw [is_subscribed_dead (live_on_completed w)] at hb1
    exact absurd hb1 (by simp)
  · rintro rfl h0 hb _ _
    have h0m : 0 ∈ sm.out.live := by rw [a.out]; exact h0
    have hp : sm.pendingCompletions ≠ 1 := by
      rw [hlen (subscribed_of_live w h0)]
      cases hcl : sc.collectionLifetime with
      | none => simp [hcl] at hb
      | some k =>
        simp only [hcl, is_subscribed_some, decide_eq_true_eq] at hb
        have hk : (0 : Nat) ≠ k := by
          rintro rfl
          exact c.1.coll hcl
        have := two_le_length_of_mem h0 hb hk
        omega
    simp only [signal.to_merge, sequential_step]
    rw [merge.deliver_outer_completed_wait im m h0m hp]
    refine ⟨by simp only [a.out], a.outer, a.subs, a.queue, ?_⟩
    intro _
    exact a.idle hb
  · rintro h st ct rfl hc hl _ _ hm
    simp only [merge.accepted, signal.to_merge, Bool.and_eq_true, is_subscribed_some,
      decide_eq_true_eq] at hm
    simp only [signal.to_merge, sequential_step]
    rw [merge.deliver_inner_next_merge im hm.1 hm.2,
      inner_on_next_ok (r := ct) (by rfl)]
    refine ⟨by simp only [a.out], a.outer, a.subs, a.queue, ?_⟩
    intro hb
    apply a.idle
    simpa [is_subscribed_congr (live_on_next sc.out ct)] using hb
  · rintro h rfl hc hl hcl _ h0 _ hm
    simp only [merge.accepted, signal.to_merge, Bool.and_eq_true, is_subscribed_some,
      decide_eq_true_eq] at hm
    have hp : sm.pendingCompletions ≠ 1 := by
      rw [hlen (subscribed_of_live w h0)]
      have hk : (0 : Nat) ≠ h := by
        rintro rfl
        exact c.1.coll hcl
      have := two_le_length_of_mem h0 hl hk
      omega
    simp only [signal.to_merge, sequential_step]
    rw [merge.deliver_inner_completed_wait_merge im m hm.1 hm.2 hp]
    refine ⟨by simp only [a.out], a.outer, a.subs, a.queue, ?_⟩
    intro hb
    simp [hcl, live_unsubscribe_handle] at hb
  · rintro h rfl hc hl hcl _ h0 _ hm
    simp only [merge.accepted, signal.to_merge, Bool.and_eq_true, is_subscribed_some,
      decide_eq_true_eq] at hm
    have hp : sm.pendingCompletions = 1 := by
      rw [hlen (subscribed_of_live w hl)]
      have h1 : sc.out.live.length ≤ 1 := by
        apply length_le_one_of_all_eq w.nodup (c := h)
        intro x hx
        rcases c.1.single x hx with h2 | h2
        · subst h2; exact absurd hx h0
        · rw [hcl] at h2
          exact (Option.some.inj h2).symm
      have h2 := List.length_pos_of_mem hl
      omega
    simp only [signal.to_merge, sequential_step]
    rw [merge.deliver_inner_completed_last_merge im m hm.1 hm.2 hp]
    refine ⟨by simp only [a.out], a.outer, a.subs, a.queue, ?_⟩
    intro hb
    rw [is_subscribed_dead (live_on_completed w)] at hb
    exact absurd hb (by simp)
  · rintro h v rest rfl _ _ _ hq
    rw [a.queue] at hq
    exact absurd hq (by simp)

theorem sequential_step_fst (p : Bool × Bool) (ev : signal Obs R)
    (h : (sequential_step p ev).1 = true) : p.1 = true := by
  cases ev <;> simp only [sequential_step, Bool.and_eq_true] at h
  · exact h.1
  all_goals exact h

theorem sequential_foldl_fst (tr : List (signal Obs R)) (p : Bool × Bool)
    (h : (tr.foldl sequential_step p).1 = true) : p.1 = true := by
  induction tr generalizing p with
  | nil => exact h
  | cons ev tr ih => exact sequential_step_fst p ev (ih _ h)

theorem sequential_take (tr : List (signal Obs R)) (n : Nat) (h : sequential tr = true) :
    sequential (tr.take n) = true := by
  unfold sequential at h ⊢
  rw [← List.take_append_drop n tr, List.foldl_append] at h
  exact sequential_foldl_fst _ _ h

theorem accepted_run_take (i : values Obs Obs R R) (tr : List (signal Obs R)) (n : Nat)
    (h : accepted_run i tr = true) : accepted_run i (tr.take n) = true := by
  unfold accepted_run at h ⊢
  rw [← List.take_append_drop n tr, accepted_from_append, Bool.and_eq_true] at h
  exact h.1

theorem agrees_run (im : merge.values Obs) (tr : List (signal Obs R))
    (hacc : accepted_run (flatten im) tr = true) (hseq : sequential tr = true) :
    agrees (run (flatten im) tr) (merge.run im (tr.map signal.to_merge))
        (tr.foldl sequential_step (true, false)).2 ∧
      merge.accepted_run im (tr.map signal.to_merge) = true := by
  induction tr using List.reverseRecOn with
  | nil =>
    refine ⟨?_, rfl⟩
    cases hsrc : im.source <;>
      refine ⟨?_, ?_, ?_, ?_, ?_⟩ <;>
      simp [run, on_subscribe, merge.run, merge.on_subscribe, flatten, on_exception, hsrc]
  | append_singleton tr ev ih =>
    rw [accepted_run_append, Bool.and_eq_true] at hacc
    have hs := hseq
    unfold sequential at hs
    rw [List.foldl_append, List.foldl_cons, List.foldl_nil] at hs
    have hp := sequential_step_fst _ _ hs
    obtain ⟨a, ha⟩ := ih hacc.1 hp
    have c := inv_run (flatten im) tr
    have m := merge.inv_run_merge (R := R) im (tr.map signal.to_merge)
    rw [run_append, List.map_append, merge.run_append_merge, List.foldl_append]
    simp only [List.map_cons, List.map_nil, List.foldl_cons, List.foldl_nil]
    generalize tr.foldl sequential_step (true, false) = p at hs hp a
    obtain ⟨p1, b⟩ := p
    simp only at hp
    subst hp
    refine ⟨agrees_deliver im c m a ev hacc.2 hs, ?_⟩
    have := merge.accepted_run_append_merge im (tr.map signal.to_merge) ev.to_merge
    simp only [merge.accepted_run] at this ha ⊢
    rw [this, ha, accepted_to_merge a ev hacc.2]
    rfl

end concat_map

/-- C19. `merge` agrees with `concat_map` on inner streams that do not overlap:
take `concat_map` with the identity as collection selector and `(t, u) -> u` as
result selector over the sources of a `merge`, and any run `tr` in which every
signal is accepted when it is sent and each inner stream completes before the
next outer item arrives.  Then the same signals are accepted by `merge`, and
after every prefix of the run the two outputs are the same list of
notifications: the same `on_next` values in the same order, and `on_completed`
delivered at the same step. -/
theorem merge_agrees_with_concat_map {Obs R : Type} (im : merge.values Obs)
    (tr : List (concat_map.signal Obs R))
    (hacc : concat_map.accepted_run (concat_map.flatten im) tr = true)
    (hseq : concat_map.sequential tr = true) :
    merge.accepted_run im (tr.map concat_map.signal.to_merge) = true ∧
      ∀ n, (merge.run im ((tr.take n).map concat_map.signal.to_merge)).out.delivered =
        (concat_map.run (concat_map.flatten im) (tr.take n)).out.delivered := by
  refine ⟨(concat_map.agrees_run im tr hacc hseq).2, ?_⟩
  intro n
  have h := (concat_map.agrees_run im (tr.take n)
    (concat_map.accepted_run_take _ tr n hacc) (concat_map.sequential_take tr n hseq)).1
  rw [h.out]

/-- Outer `[A, B]` with `A = [1, 2]` completing before `B = [3]` arrives: both
operators deliver `1, 2, 3` and then `on_completed`, and both have delivered
`1, 2` and no completion after the first four signals. -/
theorem merge_agrees_with_concat_map_witness :
    concat_map.accepted_run (concat_map.flatten merge.example_values)
        concat_map.example_sequential = true ∧
      concat_map.sequential concat_map.example_sequential = true ∧
      (merge.run merge.example_values
        (concat_map.example_sequential.map concat_map.signal.to_merge)).out.delivered =
        [.on_next 1, .on_next 2, .on_next 3, .on_completed] ∧
      (concat_map.run (concat_map.flatten merge.example_values)
        concat_map.example_sequential).out.delivered =
        [.on_next 1, .on_next 2, .on_next 3, .on_completed] ∧
      (concat_map.run (concat_map.flatten merge.example_values)
        (concat_map.example_sequential.take 4)).out.delivered = [.on_next 1, .on_next 2] := by
  have h := merge_agrees_with_concat_map merge.example_values concat_map.example_sequential
    (by decide) (by decide)
  refine ⟨by decide, by decide, by decide, ?_, ?_⟩
  · exact (h.2 8).symm.trans (by decide)
  · exact (h.2 4).symm.trans (by decide)

end rxcpp
